import Mathlib

/-!
# GROUP-BY benchmark kernels: a shallow embedding

Embedding of `src/grouping.cpp`, `src/util/distribution.hpp` and `src/util/fn.hpp`.

* A key (`key_type = uint32_t`) is a natural number below `U32`.
* The accumulators `count` and `sum` are `uint64_t`: every update is taken modulo `U64`.
* A key array `(data, size)` is the list of its `size` keys; `size` is a `std::size_t`,
  so the length of a key array is below `U64`.
* The group table `new group_type[num_groups]` is a list of `num_groups` slots.  An access
  outside the table makes the run undefined: the embedded function returns `none`.
* The map of `hashing` is the list of its entries.  Its constructor takes the bucket count
  `num_groups` and throws when that many buckets cannot be allocated (more than
  `max_bucket_count`): `hashing` returns `none` then.
* `group_type() = default` leaves `key` indeterminate and zeroes the aggregate; an
  indeterminate key is `none`.
* A loop that need not end takes fuel, one unit per test of its condition, and returns
  `none` when the fuel is used up.
* A random generator is the stream of the numbers it will yield.
-/

namespace Grouping

/-! ## Data model -/

/-- Modulus of the unsigned 64-bit accumulators (`uint64_t`). -/
def U64 : Nat := 2 ^ 64

/-- Modulus of `key_type = uint32_t`. -/
def U32 : Nat := 2 ^ 32

/-- The record `struct aggregate_data { uint64_t count = 0; uint64_t sum = 0; }`. -/
structure aggregate_data where
  count : Nat := 0
  sum : Nat := 0
deriving DecidableEq, Repr

/-- The record `struct group_type { key_type key; aggregate_data data; }`.
The defaulted constructor does not write `key`: it stays `none` until assigned. -/
structure group_type where
  key : Option Nat := none
  data : aggregate_data := {}
deriving DecidableEq, Repr

/-- The two statements `agg->count += 1; agg->sum += k;` on `uint64_t` fields. -/
def aggregate_data.add (agg : aggregate_data) (k : Nat) : aggregate_data :=
  { count := (agg.count + 1) % U64, sum := (agg.sum + k) % U64 }

/-- The comparison `group_type::operator<`: keys are compared.  With an indeterminate
key on either side the comparison is taken to be false. -/
def group_type.lt (a b : group_type) : Bool :=
  match a.key, b.key with
  | some x, some y => decide (x < y)
  | _, _ => false

/-- The allocation `new group_type[num_groups]`. -/
def new_groups (num_groups : Nat) : List group_type :=
  List.replicate num_groups {}

/-- The assignment `groups[idx].key = k`; `none` when `idx` is outside the table. -/
def set_key (groups : List group_type) (idx k : Nat) : Option (List group_type) :=
  match groups[idx]? with
  | none => none
  | some g => some (groups.set idx { g with key := some k })

/-- The update `agg.count += 1; agg.sum += k` through `agg = &groups[idx].data`;
`none` when `idx` is outside the table. -/
def add_at (groups : List group_type) (idx k : Nat) : Option (List group_type) :=
  match groups[idx]? with
  | none => none
  | some g => some (groups.set idx { g with data := g.data.add k })

/-- The library call `std::sort(data, data + size)` on keys: the ascending rearrangement. -/
def sort (data : List Nat) : List Nat :=
  data.insertionSort (fun a b => a ≤ b)

/-! ## `order_based_grouping` -/

/-- The scan loop of `order_based_grouping`.  The state is the current key `k`, the slot
index `idx` and the table; `agg` always points at `groups[idx].data`. -/
def order_based_scan : List Nat → Nat → Nat → List group_type → Option (List group_type)
  | [], _, _, groups => some groups
  | p :: rest, k, idx, groups =>
    if k ≠ p then
      match set_key groups (idx + 1) p with
      | none => none
      | some groups1 =>
        match add_at groups1 (idx + 1) p with
        | none => none
        | some groups2 => order_based_scan rest p (idx + 1) groups2
    else
      match add_at groups idx k with
      | none => none
      | some groups1 => order_based_scan rest k idx groups1

/-- The function `order_based_grouping(data, size, num_groups)`: the table after the scan.
Reading `*data` of an empty array and writing `groups[0]` of an empty table are
out of bounds. -/
def order_based_grouping (data : List Nat) (num_groups : Nat) : Option (List group_type) :=
  match data with
  | [] => none
  | k :: _ =>
    match set_key (new_groups num_groups) 0 k with
    | none => none
    | some groups => order_based_scan data k 0 groups

/-- The function `sort_and_order_based_grouping`: sort, then scan. -/
def sort_and_order_based_grouping (data : List Nat) (num_groups : Nat) :
    Option (List group_type) :=
  order_based_grouping (sort data) num_groups

/-! ## `hashing` -/

/-- The container `std::unordered_map<key_type, aggregate_data, Murmur3>` as the list of
its entries, keys pairwise distinct.  The iteration order of the container is not
specified; the list keeps insertion order. -/
abbrev unordered_map := List (Nat × aggregate_data)

/-- The lookup `groups[k]` of `operator[]`: an absent key is inserted with a
value-initialised aggregate. -/
def unordered_map.index (groups : unordered_map) (k : Nat) : unordered_map :=
  if groups.any (fun e => e.1 == k) then groups else groups ++ [(k, ({} : aggregate_data))]

/-- Update, through the reference returned by `operator[]`, of the aggregate stored
under `k`. -/
def unordered_map.update (groups : unordered_map) (k : Nat)
    (f : aggregate_data → aggregate_data) : unordered_map :=
  groups.map fun e => if e.1 = k then (e.1, f e.2) else e

/-- One iteration of the loop of `hashing`. -/
def hashing_step (groups : unordered_map) (p : Nat) : unordered_map :=
  (groups.index p).update p fun agg => agg.add p

/-- The largest number of buckets a map can be given: the bucket array holds one pointer
of 8 bytes per bucket, and no array is larger than `PTRDIFF_MAX = 2^63 - 1` bytes. -/
def max_bucket_count : Nat := (U64 / 2 - 1) / 8

/-- The constructor `std::unordered_map<key_type, aggregate_data, Murmur3>(bucket_count)`:
an empty map with at least `bucket_count` buckets.  When the bucket array cannot be
allocated the constructor throws and there is no map: `none`.  An array of at most
`max_bucket_count` buckets is taken to be allocated. -/
def unordered_map.construct (bucket_count : Nat) : Option unordered_map :=
  if bucket_count ≤ max_bucket_count then some [] else none

/-- The loop of `hashing`, from the map `groups`. -/
def hashing_scan (data : List Nat) (groups : unordered_map) : unordered_map :=
  data.foldl hashing_step groups

/-- The function `hashing(data, size, num_groups)`: the map is constructed with
`num_groups` buckets, then the loop runs; the result is the map after the loop, and `none`
when the constructor throws. -/
def hashing (data : List Nat) (num_groups : Nat) : Option unordered_map :=
  match unordered_map.construct num_groups with
  | none => none
  | some groups => some (hashing_scan data groups)

/-- An entry of the map seen as a group. -/
def entry_group (e : Nat × aggregate_data) : group_type :=
  { key := some e.1, data := e.2 }

/-! ## `static_perfect_hashing` -/

/-- The loop of `static_perfect_hashing`: the key is the slot index. -/
def static_perfect_scan : List Nat → List group_type → Option (List group_type)
  | [], groups => some groups
  | k :: rest, groups =>
    match set_key groups k k with
    | none => none
    | some groups1 =>
      match add_at groups1 k k with
      | none => none
      | some groups2 => static_perfect_scan rest groups2

/-- The function `static_perfect_hashing(data, size, num_groups)`: the table after the loop. -/
def static_perfect_hashing (data : List Nat) (num_groups : Nat) : Option (List group_type) :=
  static_perfect_scan data (new_groups num_groups)

/-! ## `binary_search` -/

/-- The initialisation loop of `binary_search`: `g->key = elements[idx]; idx += 1` for
every slot; `none` when `elements` is too short. -/
def init_keys (elements : List Nat) : Nat → List group_type → Option (List group_type)
  | _, [] => some []
  | idx, g :: rest =>
    match elements[idx]? with
    | none => none
    | some e =>
      match init_keys elements (idx + 1) rest with
      | none => none
      | some rest1 => some ({ g with key := some e } :: rest1)

/-- The halving loop of the library call `std::lower_bound` on `[first, first + len)`. -/
def lower_bound_loop (groups : List group_type) (val : group_type) : Nat → Nat → Nat → Nat
  | 0, first, _ => first
  | fuel + 1, first, len =>
    if len = 0 then first
    else
      let half := len / 2
      let middle := first + half
      match groups[middle]? with
      | none => first
      | some g =>
        if g.lt val then lower_bound_loop groups val fuel (middle + 1) (len - half - 1)
        else lower_bound_loop groups val fuel first half

/-- The call `std::lower_bound(groups, groups + num_groups, val)` as an index into the
table; the length of the range is enough fuel because every round at least halves it. -/
def lower_bound (groups : List group_type) (val : group_type) : Nat :=
  lower_bound_loop groups val groups.length 0 groups.length

/-- The aggregation loop of `binary_search`. -/
def binary_search_scan : List Nat → List group_type → Option (List group_type)
  | [], groups => some groups
  | k :: rest, groups =>
    match add_at groups (lower_bound groups { key := some k }) k with
    | none => none
    | some groups1 => binary_search_scan rest groups1

/-- The two assertions at the head of `binary_search`, `elements.size() == num_groups` and
`std::is_sorted(elements.begin(), elements.end())`. -/
def binary_search_asserts (num_groups : Nat) (elements : List Nat) : Bool :=
  decide (elements.length = num_groups) && decide (List.Sorted (fun a b => a ≤ b) elements)

/-- The function `binary_search(data, size, num_groups, elements)`: the table after the
aggregation loop.  The head assertions are `binary_search_asserts`; they are compiled out
of a release build and do not change the table. -/
def binary_search (data : List Nat) (num_groups : Nat) (elements : List Nat) :
    Option (List group_type) :=
  match init_keys elements 0 (new_groups num_groups) with
  | none => none
  | some groups => binary_search_scan data groups

/-! ## The debug block -/

/-- The counter `n_grps` after the checking loop over a table (a `std::size_t`). -/
def n_grps (groups : List group_type) : Nat :=
  groups.foldl (fun n _ => (n + 1) % U64) 0

/-- The counter `sum_count` after the checking loop over a table (a `std::size_t`). -/
def sum_count (groups : List group_type) : Nat :=
  groups.foldl (fun s g => (s + g.data.count) % U64) 0

/-- The per-group assertion `sum / count == key`; `none` when it divides by zero. -/
def assert_key (g : group_type) : Option Bool :=
  if g.data.count = 0 then none else some (decide (some (g.data.sum / g.data.count) = g.key))

/-! ## The generators of `distribution.hpp` -/

/-- The inner loop of `create_uniform_dense`,
`for (i = 0; i < num_groups && p != end; ++i, ++p) *p = i;` with `T = uint32_t`.
`todo` is `num_groups - i` and `buf` is the part `[data, p)` of the buffer. -/
def dense_inner (size : Nat) : Nat → Nat → List Nat → List Nat
  | 0, _, buf => buf
  | todo + 1, i, buf =>
    if buf.length ≠ size then dense_inner size todo (i + 1) (buf ++ [i % U32]) else buf

/-- The outer loop of `create_uniform_dense`, `for (p = data; p != end;) ...`; every unit
of fuel pays for one test of `p != end`. -/
def dense_fill (size num_groups : Nat) : Nat → List Nat → Option (List Nat)
  | 0, _ => none
  | fuel + 1, buf =>
    if buf.length ≠ size then dense_fill size num_groups fuel (dense_inner size num_groups 0 buf)
    else some buf

/-- The function `create_uniform_dense<uint32_t>(data, size, num_groups)`: the buffer after
the call, `none` when the fill loop has not finished within `fuel` rounds. -/
def create_uniform_dense (fuel size num_groups : Nat) : Option (List Nat) :=
  (dense_fill size num_groups fuel []).map sort

/-- The inner loop of `create_uniform_sparse`,
`for (i = 0; i < v_size && p != end; ++i, ++p) *p = vec[i];`.  `todo` is the part of
`vec` from index `i` on. -/
def sparse_inner (size : Nat) : List Nat → List Nat → List Nat
  | [], buf => buf
  | v :: todo, buf =>
    if buf.length ≠ size then sparse_inner size todo (buf ++ [v]) else buf

/-- The outer loop of `create_uniform_sparse`. -/
def sparse_fill (size : Nat) (vec : List Nat) : Nat → List Nat → Option (List Nat)
  | 0, _ => none
  | fuel + 1, buf =>
    if buf.length ≠ size then sparse_fill size vec fuel (sparse_inner size vec buf)
    else some buf

/-- The function `create_uniform_sparse(data, size, vec)`: the buffer after the call,
`none` when the fill loop has not finished within `fuel` rounds. -/
def create_uniform_sparse (fuel size : Nat) (vec : List Nat) : Option (List Nat) :=
  (sparse_fill size vec fuel []).map sort

/-! ## Closed forms and invariants

Auxiliary notions for the statements and proofs below; none of them embeds a function of
the source. -/

/-- The aggregate of `n` occurrences of key `k` in 64-bit arithmetic. -/
def agg_of (k n : Nat) : aggregate_data :=
  { count := n % U64, sum := (k * n) % U64 }

/-- Run-length encoding seen from inside a run of `c` keys `k`. -/
def rle_go : Nat → Nat → List Nat → List (Nat × Nat)
  | k, c, [] => [(k, c)]
  | k, c, x :: xs => if k = x then rle_go k (c + 1) xs else (k, c) :: rle_go x 1 xs

/-- The maximal runs of equal adjacent keys, as (key, length) pairs. -/
def runs : List Nat → List (Nat × Nat)
  | [] => []
  | x :: xs => rle_go x 1 xs

/-- The slot that holds a run. -/
def run_group (r : Nat × Nat) : group_type :=
  { key := some r.1, data := agg_of r.1 r.2 }

/-- The slot of key `k` for the key array `data`. -/
def key_group (data : List Nat) (k : Nat) : group_type :=
  { key := some k, data := agg_of k (data.count k) }

/-- The keys stored in a map. -/
def map_keys (groups : unordered_map) : List Nat :=
  groups.map Prod.fst

/-- Loop invariant of `hashing` after the keys `done` have been processed: the stored keys
are pairwise distinct, they are the keys seen so far, and every aggregate is the one of
its key. -/
def hash_inv (groups : unordered_map) (done : List Nat) : Prop :=
  (map_keys groups).Nodup ∧ (∀ k, k ∈ map_keys groups ↔ k ∈ done)
    ∧ ∀ e ∈ groups, e.2 = agg_of e.1 (done.count e.1)

/-- The slot of index `k` in the table of `static_perfect_hashing` after the keys `done`:
its key is written once `k` has been seen. -/
def sph_slot (done : List Nat) (k : Nat) : group_type :=
  { key := if k ∈ done then some k else none, data := agg_of k (done.count k) }

/-- The table of `static_perfect_hashing` after the keys `done`. -/
def sph_table (num_groups : Nat) (done : List Nat) : List group_type :=
  (List.range num_groups).map (sph_slot done)

/-- The table of `binary_search` after the keys `done`: one slot per element. -/
def bs_table (elements done : List Nat) : List group_type :=
  elements.map (key_group done)

/-- The buffer after the fill loop of `create_uniform_dense`: position `j` holds
`j mod num_groups`, stored as a 32-bit key. -/
def dense_cycle (num_groups size : Nat) : List Nat :=
  (List.range size).map fun j => (j % num_groups) % U32

/-- The buffer after the fill loop of `create_uniform_sparse`: position `j` holds
`vec[j mod vec.size()]`. -/
def sparse_cycle (vec : List Nat) (size : Nat) : List Nat :=
  (List.range size).map fun j => vec[j % vec.length]?.getD 0

/-- What the debug block establishes about a table for `num_groups` and `size`: it has
`num_groups` groups, each with a count of at least one (so `sum / count` does not divide by
zero), the counts add up to `size`, and the counters of the checking loop satisfy
`n_grps == num_groups` and `sum_count == size`. -/
def debug_ok (groups : List group_type) (num_groups size : Nat) : Prop :=
  groups.length = num_groups
  ∧ (∀ g ∈ groups, 1 ≤ g.data.count)
  ∧ (groups.map fun g => g.data.count).sum = size
  ∧ n_grps groups = num_groups
  ∧ sum_count groups = size
  ∧ ∀ g ∈ groups, assert_key g ≠ none

instance (groups : List group_type) (num_groups size : Nat) :
    Decidable (debug_ok groups num_groups size) := by
  unfold debug_ok
  infer_instance

/-- A group of the key array `data` whose accumulators have not wrapped: it carries a key
`k`, its count is the number of occurrences of `k`, its sum is `k` times the count in
exact arithmetic, the quotient `sum / count` is `k`, and the assertion
`sum / count == key` holds. -/
def exact_group (data : List Nat) (g : group_type) : Prop :=
  match g.key with
  | none => False
  | some k => g.data.count = data.count k ∧ g.data.sum = k * g.data.count
      ∧ g.data.sum / g.data.count = k ∧ assert_key g = some true

instance (data : List Nat) (g : group_type) : Decidable (exact_group data g) := by
  unfold exact_group
  split <;> infer_instance

/-! ## `std::shuffle` and the shuffled generators -/

/-- The call `std::iter_swap(data + i, data + j)`. -/
def swap_at (data : List Nat) (i j : Nat) : List Nat :=
  match data[i]?, data[j]? with
  | some a, some b => (data.set i b).set j a
  | _, _ => data

/-- The loop of the library call `std::shuffle`: for `i = 1, 2, ...` the element at `i` is
swapped with the element at a position of `[0, i]` chosen by the generator.  The generator
`g` is the stream of the numbers it will yield; `steps` positions are still to be visited. -/
def shuffle_loop : Nat → Nat → (Nat → Nat) → List Nat → List Nat
  | 0, _, _, data => data
  | steps + 1, i, g, data =>
    shuffle_loop steps (i + 1) (fun t => g (t + 1)) (swap_at data i (g 0 % (i + 1)))

/-- The library call `std::shuffle(data, data + size, g)`. -/
def shuffle (g : Nat → Nat) (data : List Nat) : List Nat :=
  shuffle_loop (data.length - 1) 1 g data

/-- The function `create_uniform_dense_shuffled<uint32_t>(data, size, num_groups, g)`:
`create_uniform_dense`, then `shuffle`. -/
def create_uniform_dense_shuffled (fuel size num_groups : Nat) (g : Nat → Nat) :
    Option (List Nat) :=
  (create_uniform_dense fuel size num_groups).map (shuffle g)

/-- The function `create_uniform_sparse_shuffled(data, size, vec, g)`: the fill loop of
`create_uniform_sparse`, then `shuffle` (no sort). -/
def create_uniform_sparse_shuffled (fuel size : Nat) (vec : List Nat) (g : Nat → Nat) :
    Option (List Nat) :=
  (sparse_fill size vec fuel []).map (shuffle g)

/-! ## The driver: constants and the progression of `num_groups` -/

/-- The constant `SIZE`. -/
def SIZE : Nat := 100000000

/-- The constant `MAX_GROUPS`. -/
def MAX_GROUPS : Nat := 40000

/-- The constant `NUM_RUNS`. -/
def NUM_RUNS : Nat := 5

/-- The function `inc_num_groups` on `std::size_t`. -/
def inc_num_groups (num_groups : Nat) : Nat :=
  if num_groups < 100 then (num_groups + 1) % U64
  else if num_groups < 1000 then (num_groups + 10) % U64
  else if num_groups < 10000 then (num_groups + 100) % U64
  else (num_groups + 1000) % U64

/-- The values of `num_groups` for which the body of the loop
`while (num_groups <= MAX_GROUPS) { ...; num_groups = inc_num_groups(num_groups); }` of
`main` runs, starting from `num_groups`; every unit of fuel pays for one test of the
loop condition. -/
def progression_loop : Nat → Nat → Option (List Nat)
  | 0, _ => none
  | fuel + 1, num_groups =>
    if num_groups ≤ MAX_GROUPS then
      (progression_loop fuel (inc_num_groups num_groups)).map fun rest => num_groups :: rest
    else some []

/-- The values visited by the loop of `main`, which starts with `num_groups = 1`. -/
def progression (fuel : Nat) : Option (List Nat) :=
  progression_loop fuel 1

/-! ## The driver: buffers, timed runs and written rows -/

/-- The column `sortedness` of a row: the text `sorted` or `unsorted`. -/
inductive sortedness where
  | sorted
  | unsorted
deriving DecidableEq, Repr

/-- The column `density` of a row: the text `dense` or `sparse`. -/
inductive density where
  | dense
  | sparse
deriving DecidableEq, Repr

/-- The column `algorithm` of a row: the stringized function name `#Q`. -/
inductive algorithm where
  | hashing
  | static_perfect_hashing
  | order_based_grouping
  | sort_and_order_based_grouping
  | binary_search
deriving DecidableEq, Repr

/-- A data row without its last column, the measured time:
`groups,sortedness,density,algorithm,num_run`. -/
structure row where
  groups : Nat
  order : sortedness
  dens : density
  alg : algorithm
  num_run : Nat
deriving DecidableEq, Repr

/-- The part of the state of `main` that the timed runs touch: the buffers `data` and
`copy_data`, the rows written to `ofs`, and the log of the calls made so far (which
function was called on which buffer contents). -/
structure driver_state where
  data : List Nat
  copy_data : List Nat
  out : List row
  calls : List (algorithm × List Nat)

/-- What a call `Q(buf, SIZE, num_groups)` leaves in the buffer it is given:
`sort_and_order_based_grouping` takes a `key_type *` and sorts it in place; the other four
functions take a `const key_type *` and only read it. -/
def call_effect (Q : algorithm) (buf : List Nat) : List Nat :=
  match Q with
  | algorithm.sort_and_order_based_grouping => sort buf
  | _ => buf

/-- One round of the loop of the macros `RUN` and `RUN_BSG`: the call
`Q(data, SIZE, num_groups)`, then the row is written. -/
def run_once (Q : algorithm) (S : sortedness) (D : density) (num_groups : Nat)
    (st : driver_state) (i : Nat) : driver_state :=
  { st with
    data := call_effect Q st.data
    calls := st.calls ++ [(Q, st.data)]
    out := st.out ++ [{ groups := num_groups, order := S, dens := D, alg := Q, num_run := i }] }

/-- The macro `RUN(Q,S,D)`: `NUM_RUNS` rounds with `i = 0, 1, ...`. -/
def RUN (Q : algorithm) (S : sortedness) (D : density) (num_groups : Nat)
    (st : driver_state) : driver_state :=
  (List.range NUM_RUNS).foldl (run_once Q S D num_groups) st

/-- The macro `RUN_BSG(Q,S,D)`: as `RUN`, the call also receives `elements`. -/
def RUN_BSG (Q : algorithm) (S : sortedness) (D : density) (num_groups : Nat)
    (st : driver_state) : driver_state :=
  (List.range NUM_RUNS).foldl (run_once Q S D num_groups) st

/-- One round of the loop of the macro `RUN_SOG`: `std::copy(data, data + SIZE, copy_data)`,
then the call `Q(copy_data, SIZE, num_groups)`, then the row is written. -/
def run_sog_once (Q : algorithm) (S : sortedness) (D : density) (num_groups : Nat)
    (st : driver_state) (i : Nat) : driver_state :=
  let st1 := { st with copy_data := st.data }
  { st1 with
    copy_data := call_effect Q st1.copy_data
    calls := st1.calls ++ [(Q, st1.copy_data)]
    out := st1.out ++ [{ groups := num_groups, order := S, dens := D, alg := Q, num_run := i }] }

/-- The macro `RUN_SOG(Q,S,D)`: `NUM_RUNS` rounds with `i = 0, 1, ...`. -/
def RUN_SOG (Q : algorithm) (S : sortedness) (D : density) (num_groups : Nat)
    (st : driver_state) : driver_state :=
  (List.range NUM_RUNS).foldl (run_sog_once Q S D num_groups) st

/-- The contents that the steps between the timed runs of one configuration leave in
`data`: after `create_uniform_dense`, after the first `std::shuffle`, after
`create_uniform_sparse` and after the second `std::shuffle`. -/
structure datasets where
  dense : List Nat
  dense_shuffled : List Nat
  sparse : List Nat
  sparse_shuffled : List Nat

/-- The body of the loop of `main` for one value of `num_groups`: the fourteen timed runs in
the order of the source, `data` being refilled in between. -/
def config_runs (num_groups : Nat) (d : datasets) (st : driver_state) : driver_state :=
  let st := { st with data := d.dense }
  let st := RUN algorithm.hashing sortedness.sorted density.dense num_groups st
  let st := RUN algorithm.static_perfect_hashing sortedness.sorted density.dense num_groups st
  let st := RUN algorithm.order_based_grouping sortedness.sorted density.dense num_groups st
  let st := RUN_SOG algorithm.sort_and_order_based_grouping sortedness.sorted density.dense
    num_groups st
  let st := { st with data := d.dense_shuffled }
  let st := RUN algorithm.hashing sortedness.unsorted density.dense num_groups st
  let st := RUN algorithm.static_perfect_hashing sortedness.unsorted density.dense num_groups st
  let st := RUN_SOG algorithm.sort_and_order_based_grouping sortedness.unsorted density.dense
    num_groups st
  let st := { st with data := d.sparse }
  let st := RUN algorithm.hashing sortedness.sorted density.sparse num_groups st
  let st := RUN_BSG algorithm.binary_search sortedness.sorted density.sparse num_groups st
  let st := RUN algorithm.order_based_grouping sortedness.sorted density.sparse num_groups st
  let st := RUN_SOG algorithm.sort_and_order_based_grouping sortedness.sorted density.sparse
    num_groups st
  let st := { st with data := d.sparse_shuffled }
  let st := RUN algorithm.hashing sortedness.unsorted density.sparse num_groups st
  let st := RUN_BSG algorithm.binary_search sortedness.unsorted density.sparse num_groups st
  RUN_SOG algorithm.sort_and_order_based_grouping sortedness.unsorted density.sparse
    num_groups st

/-- The loop of `main`: `gen` gives, for every value of `num_groups`, what the generation
steps leave in `data`. -/
def main_loop (gen : Nat → datasets) : Nat → Nat → driver_state → Option driver_state
  | 0, _, _ => none
  | fuel + 1, num_groups, st =>
    if num_groups ≤ MAX_GROUPS then
      main_loop gen fuel (inc_num_groups num_groups) (config_runs num_groups (gen num_groups) st)
    else some st

/-- The rows that one run of `main` writes after the header. -/
def driver_rows (gen : Nat → datasets) (fuel : Nat) : Option (List row) :=
  (main_loop gen fuel 1 { data := [], copy_data := [], out := [], calls := [] }).map
    fun st => st.out

/-- The applicability matrix: the fourteen combinations of the specification, in the order
of the source. -/
def matrix : List (sortedness × density × algorithm) :=
  [(sortedness.sorted, density.dense, algorithm.hashing),
   (sortedness.sorted, density.dense, algorithm.static_perfect_hashing),
   (sortedness.sorted, density.dense, algorithm.order_based_grouping),
   (sortedness.sorted, density.dense, algorithm.sort_and_order_based_grouping),
   (sortedness.unsorted, density.dense, algorithm.hashing),
   (sortedness.unsorted, density.dense, algorithm.static_perfect_hashing),
   (sortedness.unsorted, density.dense, algorithm.sort_and_order_based_grouping),
   (sortedness.sorted, density.sparse, algorithm.hashing),
   (sortedness.sorted, density.sparse, algorithm.binary_search),
   (sortedness.sorted, density.sparse, algorithm.order_based_grouping),
   (sortedness.sorted, density.sparse, algorithm.sort_and_order_based_grouping),
   (sortedness.unsorted, density.sparse, algorithm.hashing),
   (sortedness.unsorted, density.sparse, algorithm.binary_search),
   (sortedness.unsorted, density.sparse, algorithm.sort_and_order_based_grouping)]

/-- The data set of a configuration among those that the generation steps leave in `data`. -/
def dataset_of (d : datasets) (S : sortedness) (D : density) : List Nat :=
  match S, D with
  | sortedness.sorted, density.dense => d.dense
  | sortedness.unsorted, density.dense => d.dense_shuffled
  | sortedness.sorted, density.sparse => d.sparse
  | sortedness.unsorted, density.sparse => d.sparse_shuffled

/-- The calls of one configuration when no timed run alters `data`: every combination of
the matrix is called `NUM_RUNS` times on the data set of its configuration. -/
def matrix_calls (d : datasets) : List (algorithm × List Nat) :=
  matrix.flatMap fun c => List.replicate NUM_RUNS (c.2.2, dataset_of d c.1 c.2.1)

/-- The rows of one configuration as the applicability matrix prescribes them: every
combination with the run indices `0, ..., NUM_RUNS - 1`. -/
def matrix_rows (num_groups : Nat) : List row :=
  matrix.flatMap fun c =>
    (List.range NUM_RUNS).map fun i =>
      { groups := num_groups, order := c.1, dens := c.2.1, alg := c.2.2, num_run := i }

/-- The values of the progression as the specification lists them: `1..99` by 1,
`100..990` by 10, `1000..9900` by 100 and `10000..40000` by 1000. -/
def progression_values : List Nat :=
  List.range' 1 99 ++ List.range' 100 90 10 ++ List.range' 1000 90 100
    ++ List.range' 10000 31 1000

/-! ## `order_based_grouping` with its slot index -/

/-- The scan loop of `order_based_grouping` as `order_based_scan`, returning the final slot
index `idx` together with the table. -/
def order_based_scan_idx :
    List Nat → Nat → Nat → List group_type → Option (Nat × List group_type)
  | [], _, idx, groups => some (idx, groups)
  | p :: rest, k, idx, groups =>
    if k ≠ p then
      match set_key groups (idx + 1) p with
      | none => none
      | some groups1 =>
        match add_at groups1 (idx + 1) p with
        | none => none
        | some groups2 => order_based_scan_idx rest p (idx + 1) groups2
    else
      match add_at groups idx k with
      | none => none
      | some groups1 => order_based_scan_idx rest k idx groups1

/-- The function `order_based_grouping` as above, returning the final `idx` and the table. -/
def order_based_grouping_idx (data : List Nat) (num_groups : Nat) :
    Option (Nat × List group_type) :=
  match data with
  | [] => none
  | k :: _ =>
    match set_key (new_groups num_groups) 0 k with
    | none => none
    | some groups => order_based_scan_idx data k 0 groups

/-- Equal keys are contiguous: a key that occurs again later in the array is immediately
followed by itself. -/
def contiguous : List Nat → Prop
  | [] => True
  | x :: xs => (x ∈ xs → xs.head? = some x) ∧ contiguous xs

/-- A correct grouping of `data` in a table: all slots are filled and there is one slot
per distinct key. -/
def correct_grouping (groups : List group_type) (data : List Nat) : Prop :=
  (∀ g ∈ groups, g.key ≠ none)
  ∧ (groups.map fun g => g.key).Nodup
  ∧ ∀ k, some k ∈ (groups.map fun g => g.key) ↔ k ∈ data

/-- The key array that a list of runs stands for. -/
def expand_runs (rs : List (Nat × Nat)) : List Nat :=
  rs.flatMap fun r => List.replicate r.2 r.1

/-! ## Sampling the sparse keys -/

/-- The rejection loop of `main`,
`while (num_elements < num_groups) { v = d(g); if (found) continue; push_back(v); ... }`.
The generator `g` is the stream of the values that `d(g)` will yield; every unit of fuel
pays for one test of the loop condition.  The counter `num_elements` never exceeds
`num_groups`, so its increment does not wrap. -/
def sample_loop (num_groups : Nat) : Nat → (Nat → Nat) → List Nat → Nat → Option (List Nat)
  | 0, _, _, _ => none
  | fuel + 1, g, elements, num_elements =>
    if num_elements < num_groups then
      if g 0 ∈ elements then
        sample_loop num_groups fuel (fun t => g (t + 1)) elements num_elements
      else
        sample_loop num_groups fuel (fun t => g (t + 1)) (elements ++ [g 0]) (num_elements + 1)
    else some elements

/-- The vector `elements` when the rejection loop has exited, before the sort. -/
def sample_elements (fuel num_groups : Nat) (g : Nat → Nat) : Option (List Nat) :=
  sample_loop num_groups fuel g [] 0

/-! ## The hash function of `fn.hpp` -/

/-- The function `Murmur3::operator()(uint32_t)`: the 32-bit finalizer. -/
def Murmur3 (v : Nat) : Nat :=
  let v := v ^^^ (v >>> 16)
  let v := (v * 0x85ebca6b) % U32
  let v := v ^^^ (v >>> 13)
  let v := (v * 0xc2b2ae35) % U32
  v ^^^ (v >>> 16)

/-- The inverse of the 32-bit finalizer: every step undone, in reverse order. -/
def Murmur3_inverse (v : Nat) : Nat :=
  let v := v ^^^ (v >>> 16)
  let v := (v * 0x7ed1b41d) % U32
  let v := v ^^^ (v >>> 13) ^^^ (v >>> 26)
  let v := (v * 0xa5cb9243) % U32
  v ^^^ (v >>> 16)

/-! ## Aggregates -/

theorem agg_of_zero (k : Nat) : agg_of k 0 = {} := by
  simp [agg_of]

theorem agg_of_add (k n : Nat) : (agg_of k n).add k = agg_of k (n + 1) := by
  simp only [agg_of, aggregate_data.add, Nat.mul_add, Nat.mul_one]
  congr 1 <;> simp [Nat.add_mod]

theorem default_add (k : Nat) : ({} : aggregate_data).add k = agg_of k 1 := by
  simp [agg_of, aggregate_data.add]

/-! ## Table accesses -/

theorem getElem?_mid (pre post : List group_type) (g : group_type) :
    (pre ++ g :: post)[pre.length]? = some g := by
  rw [List.getElem?_append_right (Nat.le_refl _)]
  simp

theorem set_key_append (pre post : List group_type) (g : group_type) (k : Nat) :
    set_key (pre ++ g :: post) pre.length k = some (pre ++ { g with key := some k } :: post) := by
  unfold set_key
  rw [getElem?_mid]
  simp

theorem add_at_append (pre post : List group_type) (g : group_type) (k : Nat) :
    add_at (pre ++ g :: post) pre.length k
      = some (pre ++ { g with data := g.data.add k } :: post) := by
  unfold add_at
  rw [getElem?_mid]
  simp

theorem set_key_none (groups : List group_type) (idx k : Nat) (h : groups.length ≤ idx) :
    set_key groups idx k = none := by
  simp [set_key, List.getElem?_eq_none h]

theorem add_at_none (groups : List group_type) (idx k : Nat) (h : groups.length ≤ idx) :
    add_at groups idx k = none := by
  simp [add_at, List.getElem?_eq_none h]

/-! ## The scan of `order_based_grouping` writes the runs -/

theorem rle_go_length_pos (k c : Nat) (xs : List Nat) : 0 < (rle_go k c xs).length := by
  induction xs generalizing k c with
  | nil => simp [rle_go]
  | cons x xs ih =>
    unfold rle_go
    split
    · exact ih _ _
    · simp

theorem order_based_scan_eq (rest : List Nat) :
    ∀ (k c : Nat) (pre : List group_type) (r : Nat),
      order_based_scan rest k pre.length
          (pre ++ ({ key := some k, data := agg_of k c } : group_type) :: new_groups r)
        = if (rle_go k c rest).length ≤ r + 1 then
            some (pre ++ (rle_go k c rest).map run_group
              ++ new_groups (r + 1 - (rle_go k c rest).length))
          else none := by
  induction rest with
  | nil =>
    intro k c pre r
    simp [order_based_scan, rle_go, run_group]
  | cons p rest ih =>
    intro k c pre r
    by_cases hkp : k = p
    · subst hkp
      simp only [order_based_scan, rle_go, ne_eq, not_true_eq_false, if_false, if_true]
      rw [add_at_append]
      simp only [agg_of_add]
      exact ih k (c + 1) pre r
    · simp only [order_based_scan, rle_go, ne_eq, hkp, not_false_eq_true, if_true, if_false]
      cases r with
      | zero =>
        rw [set_key_none _ _ _ (by simp [new_groups])]
        have := rle_go_length_pos p 1 rest
        rw [if_neg (by simp only [List.length_cons]; omega)]
      | succ r =>
        have h1 : (pre ++ ({ key := some k, data := agg_of k c } : group_type)
              :: new_groups (r + 1))
            = (pre ++ [({ key := some k, data := agg_of k c } : group_type)])
                ++ ({} : group_type) :: new_groups r := by
          simp [new_groups, List.replicate_succ]
        have h2 : pre.length + 1
            = (pre ++ [({ key := some k, data := agg_of k c } : group_type)]).length := by
          simp
        rw [h1, h2, set_key_append]
        simp only []
        rw [add_at_append]
        simp only [default_add]
        rw [ih p 1 _ r]
        simp [run_group, Nat.add_sub_add_right]

theorem order_based_grouping_eq (x : Nat) (xs : List Nat) (num_groups : Nat) :
    order_based_grouping (x :: xs) num_groups
      = if (runs (x :: xs)).length ≤ num_groups then
          some ((runs (x :: xs)).map run_group
            ++ new_groups (num_groups - (runs (x :: xs)).length))
        else none := by
  simp only [order_based_grouping]
  cases num_groups with
  | zero =>
    have := rle_go_length_pos x 1 xs
    rw [set_key_none _ _ _ (by simp [new_groups])]
    rw [if_neg (by simp only [runs]; omega)]
  | succ r =>
    have h1 : set_key (new_groups (r + 1)) 0 x
        = some (({ key := some x, data := agg_of x 0 } : group_type) :: new_groups r) := by
      simp [set_key, new_groups, List.replicate_succ, agg_of_zero]
    rw [h1]
    have h3 := order_based_scan_eq (x :: xs) x 0 [] r
    simp only [List.length_nil, List.nil_append] at h3
    simp only [h3]
    simp [rle_go, runs]

/-! ## Runs of a sorted key array -/

theorem dedup_cons_sorted (x : Nat) (xs : List Nat) (h : List.Sorted (fun a b => a ≤ b) (x :: xs)) :
    (x :: xs).dedup = x :: (xs.filter fun y => decide (y ≠ x)).dedup := by
  induction xs with
  | nil => simp
  | cons y ys ih =>
    have hxy : x ≤ y := List.rel_of_sorted_cons h y (List.mem_cons_self _ _)
    have hys : List.Sorted (fun a b => a ≤ b) (y :: ys) := List.Sorted.of_cons h
    by_cases hyx : y = x
    · subst hyx
      rw [List.dedup_cons_of_mem (List.mem_cons_self _ _), ih hys]
      simp
    · have hlt : x < y := lt_of_le_of_ne hxy (Ne.symm hyx)
      have hnot : x ∉ y :: ys := by
        intro hmem
        rcases List.mem_cons.1 hmem with h1 | h1
        · omega
        · have := List.rel_of_sorted_cons hys x h1
          omega
      rw [List.dedup_cons_of_not_mem hnot]
      congr 1
      rw [List.filter_eq_self.2]
      intro a ha
      have : a ≠ x := fun e => hnot (e ▸ ha)
      simpa using this

theorem rle_go_sorted (xs : List Nat) :
    ∀ (k c : Nat), List.Sorted (fun a b => a ≤ b) (k :: xs) →
      rle_go k c xs = (k, c + xs.count k)
        :: ((xs.filter fun y => decide (y ≠ k)).dedup).map fun y => (y, xs.count y) := by
  induction xs with
  | nil => intro k c _; simp [rle_go]
  | cons x xs ih =>
    intro k c h
    have hkx : k ≤ x := List.rel_of_sorted_cons h x (List.mem_cons_self _ _)
    have hxs : List.Sorted (fun a b => a ≤ b) (x :: xs) := List.Sorted.of_cons h
    by_cases hk : k = x
    · subst hk
      simp only [rle_go, if_true]
      rw [ih k (c + 1) hxs]
      simp only [List.count_cons_self, ne_eq, decide_not, List.filter_cons_of_neg,
        decide_True, Bool.not_true, Bool.false_eq_true, not_false_eq_true]
      congr 1
      · congr 1; omega
      · apply List.map_congr_left
        intro y hy
        have hy1 : y ≠ k := by
          have := (List.mem_filter.1 (List.mem_dedup.1 hy)).2
          simpa using this
        rw [List.count_cons_of_ne hy1]
    · have hlt : k < x := lt_of_le_of_ne hkx hk
      have hnot : k ∉ x :: xs := by
        intro hmem
        rcases List.mem_cons.1 hmem with h1 | h1
        · omega
        · have := List.rel_of_sorted_cons hxs k h1
          omega
      simp only [rle_go, hk, if_false]
      rw [ih x 1 hxs, List.count_eq_zero_of_not_mem hnot]
      have hfil : ((x :: xs).filter fun y => decide (y ≠ k)) = x :: xs := by
        rw [List.filter_eq_self]
        intro a ha
        have : a ≠ k := fun e => hnot (e ▸ ha)
        simpa using this
      rw [hfil, dedup_cons_sorted x xs hxs]
      simp only [List.map_cons, List.count_cons_self, Nat.add_zero]
      congr 1
      congr 1
      · congr 1; omega
      · apply List.map_congr_left
        intro y hy
        have hy1 : y ≠ x := by
          have := (List.mem_filter.1 (List.mem_dedup.1 hy)).2
          simpa using this
        rw [List.count_cons_of_ne hy1]

theorem runs_sorted (data : List Nat) (h : List.Sorted (fun a b => a ≤ b) data) :
    runs data = data.dedup.map fun k => (k, data.count k) := by
  cases data with
  | nil => simp [runs]
  | cons x xs =>
    simp only [runs]
    rw [rle_go_sorted xs x 1 h, dedup_cons_sorted x xs h]
    simp only [List.map_cons, List.count_cons_self]
    congr 1
    · congr 1; omega
    · apply List.map_congr_left
      intro y hy
      have hy1 : y ≠ x := by
        have := (List.mem_filter.1 (List.mem_dedup.1 hy)).2
        simpa using this
      rw [List.count_cons_of_ne hy1]

theorem dedup_sorted_lt (data : List Nat) (h : List.Sorted (fun a b => a ≤ b) data) :
    List.Sorted (fun a b => a < b) data.dedup := by
  have h1 : List.Sorted (fun a b => a ≤ b) data.dedup :=
    List.Pairwise.sublist (List.dedup_sublist data) h
  have h2 : data.dedup.Nodup := List.nodup_dedup data
  exact List.Sorted.lt_of_le h1 h2

theorem count_mod_U64 (data : List Nat) (hsize : data.length < U64) (k : Nat) :
    data.count k % U64 = data.count k :=
  Nat.mod_eq_of_lt (lt_of_le_of_lt (List.count_le_length k data) hsize)

theorem key_group_eq (data : List Nat) (hsize : data.length < U64) (k : Nat) :
    key_group data k
      = { key := some k, data := { count := data.count k, sum := (k * data.count k) % U64 } } := by
  simp [key_group, agg_of, count_mod_U64 data hsize k]

theorem order_based_grouping_sorted_eq (data : List Nat) (num_groups : Nat)
    (hne : data ≠ []) (hsorted : List.Sorted (fun a b => a ≤ b) data)
    (hgroups : data.dedup.length = num_groups) :
    order_based_grouping data num_groups = some (data.dedup.map (key_group data)) := by
  cases data with
  | nil => exact absurd rfl hne
  | cons x xs =>
    rw [order_based_grouping_eq, runs_sorted _ hsorted]
    simp [hgroups, new_groups, run_group, key_group]

theorem order_based_grouping_replicate (n k : Nat) (hn : n ≠ 0) :
    order_based_grouping (List.replicate n k) 1
      = some [{ key := some k, data := { count := n % U64, sum := (k * n) % U64 } }] := by
  have hne : List.replicate n k ≠ [] := by
    intro h
    have := congrArg List.length h
    rw [List.length_replicate] at this
    exact hn this
  have hs : List.Sorted (fun a b => a ≤ b) (List.replicate n k) := by
    unfold List.Sorted
    rw [List.pairwise_replicate]
    right; exact le_refl k
  have hd : (List.replicate n k).dedup = [k] := List.replicate_dedup hn
  rw [order_based_grouping_sorted_eq _ 1 hne hs (by rw [hd]; rfl), hd]
  simp only [List.map_cons, List.map_nil, key_group, agg_of, List.count_replicate_self]

/-- What `order_based_grouping` computes on every non-empty, non-decreasing key array
`data` with exactly `num_groups` distinct keys: the table holds, in strictly ascending key
order, exactly one slot per distinct key `k`, with `count` the number of occurrences of
`k` in `data` and `sum` the residue modulo `2^64` of `k` times that count, which is the
product itself as long as it is below `2^64`. -/
theorem order_based_grouping_sorted (data : List Nat) (num_groups : Nat)
    (hne : data ≠ []) (hsize : data.length < U64)
    (hsorted : List.Sorted (fun a b => a ≤ b) data)
    (hgroups : data.dedup.length = num_groups) :
    List.Sorted (fun a b => a < b) data.dedup ∧
    order_based_grouping data num_groups
      = some (data.dedup.map fun k =>
          ({ key := some k,
             data := { count := data.count k, sum := (k * data.count k) % U64 } } : group_type)) := by
  refine ⟨dedup_sorted_lt data hsorted, ?_⟩
  rw [order_based_grouping_sorted_eq data num_groups hne hsorted hgroups]
  congr 1
  apply List.map_congr_left
  intro k _
  exact key_group_eq data hsize k

/-- The scenario of the specification: `[5,5,5,7,7,9]` with three groups yields
`(5, 3, 15)`, `(7, 2, 14)`, `(9, 1, 9)`. -/
theorem order_based_grouping_sorted_witness :
    ([5, 5, 5, 7, 7, 9] ≠ ([] : List Nat) ∧ [5, 5, 5, 7, 7, 9].length < U64
      ∧ List.Sorted (fun a b => a ≤ b) [5, 5, 5, 7, 7, 9]
      ∧ [5, 5, 5, 7, 7, 9].dedup.length = 3)
    ∧ (List.Sorted (fun a b => a < b) [5, 7, 9] ∧
      order_based_grouping [5, 5, 5, 7, 7, 9] 3
        = some [{ key := some 5, data := { count := 3, sum := 15 } },
                { key := some 7, data := { count := 2, sum := 14 } },
                { key := some 9, data := { count := 1, sum := 9 } }]) :=
  ⟨⟨by decide, by decide, by decide, by decide⟩,
   order_based_grouping_sorted [5, 5, 5, 7, 7, 9] 3 (by decide) (by decide) (by decide)
     (by decide)⟩

/-- C1, a defect of the code: the key array of `2^32 + 2` copies of the key `2^32 - 1` is
non-empty and non-decreasing, holds 32-bit keys and has one distinct key, yet the only slot
of `order_based_grouping` ends with `count = 2^32 + 2` and `sum = 2^32 - 2`.  The 64-bit
sum has wrapped: it is not the key times the count, and the assertion `sum / count == key`
of the debug block of the function is false on that slot. -/
theorem order_based_grouping_sum_wraps :
    List.replicate 4294967298 4294967295 ≠ []
    ∧ List.Sorted (fun a b => a ≤ b) (List.replicate 4294967298 4294967295)
    ∧ (List.replicate 4294967298 4294967295).dedup.length = 1
    ∧ (List.replicate 4294967298 4294967295).length < U64
    ∧ (∀ k ∈ List.replicate 4294967298 4294967295, k < U32)
    ∧ (List.replicate 4294967298 4294967295).count 4294967295 = 4294967298
    ∧ order_based_grouping (List.replicate 4294967298 4294967295) 1
        = some [{ key := some 4294967295, data := { count := 4294967298, sum := 4294967294 } }]
    ∧ 4294967294 ≠ 4294967295 * 4294967298
    ∧ assert_key { key := some 4294967295, data := { count := 4294967298, sum := 4294967294 } }
        = some false := by
  refine ⟨?_, ?_, ?_, ?_, ?_, ?_, ?_, by norm_num, by decide⟩
  · intro h
    have := congrArg List.length h
    rw [List.length_replicate] at this
    exact absurd this (by norm_num)
  · unfold List.Sorted
    rw [List.pairwise_replicate]
    right; exact le_refl _
  · rw [List.replicate_dedup (by norm_num)]; rfl
  · rw [List.length_replicate]; norm_num [U64]
  · intro k hk
    rw [List.eq_of_mem_replicate hk]; norm_num [U32]
  · exact List.count_replicate_self _ _
  · rw [order_based_grouping_replicate _ _ (by norm_num)]
    norm_num [U64]

/-! ## The loop of `hashing` -/

theorem map_keys_update (groups : unordered_map) (k : Nat)
    (f : aggregate_data → aggregate_data) :
    map_keys (groups.update k f) = map_keys groups := by
  simp only [map_keys, unordered_map.update, List.map_map]
  apply List.map_congr_left
  intro e _
  by_cases h : e.1 = k <;> simp [h]

theorem any_key_iff (groups : unordered_map) (k : Nat) :
    groups.any (fun e => e.1 == k) = true ↔ k ∈ map_keys groups := by
  simp only [map_keys, List.any_eq_true, List.mem_map, beq_iff_eq]

theorem index_of_mem (groups : unordered_map) (k : Nat) (h : k ∈ map_keys groups) :
    groups.index k = groups := by
  simp [unordered_map.index, (any_key_iff groups k).2 h]

theorem index_of_not_mem (groups : unordered_map) (k : Nat) (h : k ∉ map_keys groups) :
    groups.index k = groups ++ [(k, ({} : aggregate_data))] := by
  have : ¬ (groups.any (fun e => e.1 == k) = true) := fun h1 => h ((any_key_iff groups k).1 h1)
  simp [unordered_map.index, this]

theorem hash_inv_step (groups : unordered_map) (done : List Nat) (p : Nat)
    (h : hash_inv groups done) : hash_inv (hashing_step groups p) (done ++ [p]) := by
  obtain ⟨hnd, hmem, hval⟩ := h
  by_cases hp : p ∈ map_keys groups
  · have hpd : p ∈ done := (hmem p).1 hp
    refine ⟨?_, ?_, ?_⟩
    · rw [hashing_step, map_keys_update, index_of_mem _ _ hp]; exact hnd
    · intro k
      rw [hashing_step, map_keys_update, index_of_mem _ _ hp, hmem k]
      simp only [List.mem_append, List.mem_singleton]
      constructor
      · exact Or.inl
      · rintro (h1 | h1)
        · exact h1
        · exact h1 ▸ hpd
    · intro e he
      rw [hashing_step, index_of_mem _ _ hp, unordered_map.update] at he
      obtain ⟨e0, he0, rfl⟩ := List.mem_map.1 he
      by_cases hk : e0.1 = p
      · simp only [hk, if_true, List.count_append, List.count_singleton_self]
        rw [← hk, hval e0 he0, agg_of_add]
      · simp only [hk, if_false, List.count_append]
        rw [hval e0 he0, List.count_singleton]
        simp [Ne.symm hk]
  · have hpd : p ∉ done := fun h1 => hp ((hmem p).2 h1)
    have hkeys : map_keys (groups ++ [(p, ({} : aggregate_data))]) = map_keys groups ++ [p] := by
      simp [map_keys]
    refine ⟨?_, ?_, ?_⟩
    · rw [hashing_step, map_keys_update, index_of_not_mem _ _ hp, hkeys]
      rw [List.nodup_append]
      refine ⟨hnd, List.nodup_singleton p, ?_⟩
      intro a ha hb
      rw [List.mem_singleton] at hb
      exact hp (hb ▸ ha)
    · intro k
      rw [hashing_step, map_keys_update, index_of_not_mem _ _ hp, hkeys]
      simp only [List.mem_append, List.mem_singleton, hmem k]
    · intro e he
      rw [hashing_step, index_of_not_mem _ _ hp, unordered_map.update] at he
      obtain ⟨e0, he0, rfl⟩ := List.mem_map.1 he
      rcases List.mem_append.1 he0 with h0 | h0
      · have hk : e0.1 ≠ p := by
          intro e1
          apply hp
          rw [← e1]
          exact List.mem_map.2 ⟨e0, h0, rfl⟩
        simp only [hk, if_false, List.count_append]
        rw [hval e0 h0, List.count_singleton]
        simp [Ne.symm hk]
      · rw [List.mem_singleton] at h0
        subst h0
        simp only [if_true, List.count_append, List.count_singleton_self,
          List.count_eq_zero_of_not_mem hpd, Nat.zero_add]
        rw [default_add]

theorem hash_inv_foldl (data : List Nat) :
    ∀ (groups : unordered_map) (done : List Nat), hash_inv groups done →
      hash_inv (data.foldl hashing_step groups) (done ++ data) := by
  induction data with
  | nil => intro groups done h; simpa using h
  | cons p rest ih =>
    intro groups done h
    have := ih (hashing_step groups p) (done ++ [p]) (hash_inv_step groups done p h)
    simpa using this

theorem hash_inv_hashing (data : List Nat) : hash_inv (hashing_scan data []) data := by
  have h0 : hash_inv [] [] := by
    refine ⟨by simp [map_keys], by simp [map_keys], by simp⟩
  simpa [hashing_scan] using hash_inv_foldl data [] [] h0

/-- With a bucket count the map can be given, `hashing` returns the map after the loop. -/
theorem hashing_eq (data : List Nat) (num_groups : Nat) (h : num_groups ≤ max_bucket_count) :
    hashing data num_groups = some (hashing_scan data []) := by
  simp [hashing, unordered_map.construct, h]

/-- The function `hashing` returns no map exactly when the bucket count is too large. -/
theorem hashing_eq_none_iff (data : List Nat) (num_groups : Nat) :
    hashing data num_groups = none ↔ max_bucket_count < num_groups := by
  by_cases h : num_groups ≤ max_bucket_count
  · simp [hashing, unordered_map.construct, h]
  · simp only [hashing, unordered_map.construct, if_neg h, true_iff]
    omega

theorem U32_le_max_bucket_count : U32 ≤ max_bucket_count := by
  norm_num [U32, U64, max_bucket_count]

/-- A key array of 32-bit keys has at most `2^32` distinct keys. -/
theorem dedup_length_le_U32 (data : List Nat) (h32 : ∀ k ∈ data, k < U32) :
    data.dedup.length ≤ U32 := by
  have hsub : data.dedup.toFinset ⊆ Finset.range U32 := by
    intro k hk
    rw [List.mem_toFinset, List.mem_dedup] at hk
    exact Finset.mem_range.2 (h32 k hk)
  have hcard := Finset.card_le_card hsub
  rwa [List.toFinset_card_of_nodup (List.nodup_dedup data), Finset.card_range] at hcard

/-- A strictly increasing list of 32-bit keys has at most `2^32` elements. -/
theorem length_le_U32_of_sorted (elements : List Nat)
    (hsorted : List.Sorted (fun a b => a < b) elements) (h32 : ∀ e ∈ elements, e < U32) :
    elements.length ≤ U32 := by
  have h := dedup_length_le_U32 elements h32
  rwa [List.Nodup.dedup hsorted.nodup] at h

/-- The entries of a map that satisfies the invariant are, up to order, one entry per
distinct key. -/
theorem hash_inv_perm (groups : unordered_map) (data : List Nat) (h : hash_inv groups data) :
    List.Perm groups (data.dedup.map fun k => (k, agg_of k (data.count k))) := by
  obtain ⟨hnd, hmem, hval⟩ := h
  have h1 : groups = (map_keys groups).map fun k => (k, agg_of k (data.count k)) := by
    simp only [map_keys, List.map_map]
    conv => lhs; rw [← List.map_id groups]
    apply List.map_congr_left
    intro e he
    simp only [id, Function.comp]
    rw [← hval e he]
  have h2 : List.Perm (map_keys groups) data.dedup := by
    rw [List.perm_ext_iff_of_nodup hnd (List.nodup_dedup data)]
    intro k
    rw [hmem k, List.mem_dedup]
  rw [h1]
  exact List.Perm.map _ h2

theorem hashing_perm (data : List Nat) :
    List.Perm (hashing_scan data [])
      (data.dedup.map fun k => (k, agg_of k (data.count k))) :=
  hash_inv_perm _ _ (hash_inv_hashing data)

/-! ## The loop of `static_perfect_hashing` -/

theorem sph_table_nil (num_groups : Nat) : new_groups num_groups = sph_table num_groups [] := by
  apply List.ext_getElem
  · simp [new_groups, sph_table]
  · intro i h1 h2
    simp [new_groups, sph_table, sph_slot, agg_of_zero]

theorem sph_table_getElem? (num_groups : Nat) (done : List Nat) (k : Nat) (hk : k < num_groups) :
    (sph_table num_groups done)[k]? = some (sph_slot done k) := by
  simp [sph_table, List.getElem?_range hk]

theorem sph_table_set (num_groups : Nat) (done : List Nat) (k : Nat) :
    (sph_table num_groups done).set k (sph_slot (done ++ [k]) k)
      = sph_table num_groups (done ++ [k]) := by
  apply List.ext_getElem
  · simp [sph_table]
  · intro i h1 h2
    have hi : i < num_groups := by simpa [sph_table] using h2
    rw [List.getElem_set]
    by_cases hki : k = i
    · subst hki
      simp [sph_table]
    · have hik : i ≠ k := fun e => hki e.symm
      simp [sph_table, hki, sph_slot, hik, List.count_singleton]

theorem static_perfect_scan_cons (num_groups : Nat) (done rest : List Nat) (k : Nat)
    (hk : k < num_groups) :
    static_perfect_scan (k :: rest) (sph_table num_groups done)
      = static_perfect_scan rest (sph_table num_groups (done ++ [k])) := by
  have h1 : set_key (sph_table num_groups done) k k
      = some ((sph_table num_groups done).set k { sph_slot done k with key := some k }) := by
    simp [set_key, sph_table_getElem? _ _ _ hk]
  have h2 : add_at ((sph_table num_groups done).set k { sph_slot done k with key := some k }) k k
      = some ((sph_table num_groups done).set k (sph_slot (done ++ [k]) k)) := by
    have hlen : k < (sph_table num_groups done).length := by simpa [sph_table] using hk
    simp [add_at, List.getElem?_set, hlen, List.set_set, sph_slot, agg_of_add]
  simp only [static_perfect_scan, h1, h2, sph_table_set]

theorem static_perfect_scan_eq (num_groups : Nat) (data : List Nat) :
    ∀ done : List Nat, (∀ k ∈ data, k < num_groups) →
      static_perfect_scan data (sph_table num_groups done)
        = some (sph_table num_groups (done ++ data)) := by
  induction data with
  | nil => intro done _; simp [static_perfect_scan]
  | cons k rest ih =>
    intro done h
    rw [static_perfect_scan_cons _ _ _ _ (h k (List.mem_cons_self _ _))]
    rw [ih (done ++ [k]) (fun x hx => h x (List.mem_cons_of_mem _ hx))]
    simp

theorem static_perfect_hashing_eq (data : List Nat) (num_groups : Nat)
    (hkeys : ∀ k ∈ data, k < num_groups) :
    static_perfect_hashing data num_groups = some (sph_table num_groups data) := by
  rw [static_perfect_hashing, sph_table_nil, static_perfect_scan_eq _ _ [] hkeys]
  simp

theorem set_key_length (groups groups1 : List group_type) (idx k : Nat)
    (h : set_key groups idx k = some groups1) : groups1.length = groups.length := by
  unfold set_key at h
  split at h
  · exact absurd h (by simp)
  · rw [← Option.some.inj h, List.length_set]

theorem add_at_length (groups groups1 : List group_type) (idx k : Nat)
    (h : add_at groups idx k = some groups1) : groups1.length = groups.length := by
  unfold add_at at h
  split at h
  · exact absurd h (by simp)
  · rw [← Option.some.inj h, List.length_set]

/-- A key that is not an index of the table makes `static_perfect_hashing` access the
table out of bounds. -/
theorem static_perfect_scan_out_of_bounds (data : List Nat) :
    ∀ groups : List group_type, (∃ k ∈ data, groups.length ≤ k) →
      static_perfect_scan data groups = none := by
  induction data with
  | nil => intro groups h; obtain ⟨k, hk, _⟩ := h; exact absurd hk (List.not_mem_nil k)
  | cons x rest ih =>
    intro groups h
    by_cases hx : groups.length ≤ x
    · simp [static_perfect_scan, set_key_none groups x x hx]
    · obtain ⟨k, hk, hle⟩ := h
      have hk1 : k ∈ rest := by
        rcases List.mem_cons.1 hk with h1 | h1
        · exact absurd (h1 ▸ hle) hx
        · exact h1
      simp only [static_perfect_scan]
      cases h1 : set_key groups x x with
      | none => rfl
      | some groups1 =>
        simp only []
        cases h2 : add_at groups1 x x with
        | none => rfl
        | some groups2 =>
          simp only []
          apply ih
          refine ⟨k, hk1, ?_⟩
          rw [add_at_length _ _ _ _ h2, set_key_length _ _ _ _ h1]
          exact hle

theorem static_perfect_hashing_out_of_bounds (data : List Nat) (num_groups : Nat)
    (h : ∃ k ∈ data, num_groups ≤ k) : static_perfect_hashing data num_groups = none := by
  apply static_perfect_scan_out_of_bounds
  simpa [new_groups] using h

/-- When every key of `[0, num_groups)` occurs, the slots are the groups of the keys. -/
theorem sph_table_full (data : List Nat) (num_groups : Nat)
    (hall : ∀ k, k < num_groups → k ∈ data) :
    sph_table num_groups data = (List.range num_groups).map (key_group data) := by
  apply List.map_congr_left
  intro k hk
  simp [sph_slot, key_group, hall k (List.mem_range.1 hk)]

theorem hashing_groups_perm (data : List Nat) :
    List.Perm ((hashing_scan data []).map entry_group) (data.dedup.map (key_group data)) := by
  have h := List.Perm.map entry_group (hashing_perm data)
  simpa [entry_group, key_group, Function.comp] using h

theorem range_perm_dedup (data : List Nat) (num_groups : Nat)
    (hkeys : ∀ k ∈ data, k < num_groups) (hall : ∀ k, k < num_groups → k ∈ data) :
    List.Perm (List.range num_groups) data.dedup := by
  rw [List.perm_ext_iff_of_nodup (List.nodup_range _) (List.nodup_dedup data)]
  intro k
  rw [List.mem_range, List.mem_dedup]
  exact ⟨hall k, hkeys k⟩

/-! ## `std::lower_bound` on a table with ascending keys -/

theorem sorted_getElem?_lt (elements : List Nat)
    (hsorted : List.Sorted (fun a b => a < b) elements) (i j a b : Nat) (hij : i < j)
    (hi : elements[i]? = some a) (hj : elements[j]? = some b) : a < b := by
  obtain ⟨hi1, hi2⟩ := List.getElem?_eq_some.1 hi
  obtain ⟨hj1, hj2⟩ := List.getElem?_eq_some.1 hj
  have := (List.pairwise_iff_getElem.1 hsorted) i j hi1 hj1 hij
  rw [hi2, hj2] at this
  exact this

theorem sorted_getElem?_le (elements : List Nat)
    (hsorted : List.Sorted (fun a b => a < b) elements) (i j a b : Nat) (hij : i ≤ j)
    (hi : elements[i]? = some a) (hj : elements[j]? = some b) : a ≤ b := by
  rcases Nat.lt_or_eq_of_le hij with h | h
  · exact Nat.le_of_lt (sorted_getElem?_lt elements hsorted i j a b h hi hj)
  · subst h
    rw [hi] at hj
    exact Nat.le_of_eq (Option.some.inj hj)

theorem keys_getElem? (groups : List group_type) (elements : List Nat)
    (hkeys : groups.map (fun g => g.key) = elements.map some) (i e : Nat)
    (he : elements[i]? = some e) : ∃ g, groups[i]? = some g ∧ g.key = some e := by
  have h := congrArg (fun l => l[i]?) hkeys
  simp only [List.getElem?_map, he, Option.map_some'] at h
  cases hg : groups[i]? with
  | none => rw [hg] at h; simp at h
  | some g =>
    rw [hg] at h
    exact ⟨g, rfl, by simpa using h⟩

theorem lower_bound_loop_spec (groups : List group_type) (elements : List Nat) (k : Nat)
    (hkeys : groups.map (fun g => g.key) = elements.map some)
    (hsorted : List.Sorted (fun a b => a < b) elements) :
    ∀ (fuel first len : Nat), len ≤ fuel → first + len ≤ elements.length →
      (∀ i e, i < first → elements[i]? = some e → e < k) →
      (∀ i e, first + len ≤ i → elements[i]? = some e → k ≤ e) →
      lower_bound_loop groups { key := some k } fuel first len ≤ elements.length
      ∧ (∀ i e, i < lower_bound_loop groups { key := some k } fuel first len →
          elements[i]? = some e → e < k)
      ∧ (∀ i e, lower_bound_loop groups { key := some k } fuel first len ≤ i →
          elements[i]? = some e → k ≤ e) := by
  intro fuel
  induction fuel with
  | zero =>
    intro first len hlen hbound hlo hhi
    have h0 : len = 0 := Nat.le_zero.1 hlen
    subst h0
    simp only [lower_bound_loop]
    exact ⟨by omega, hlo, fun i e hi he => hhi i e (by omega) he⟩
  | succ fuel ih =>
    intro first len hlen hbound hlo hhi
    by_cases h0 : len = 0
    · subst h0
      simp only [lower_bound_loop, if_true]
      exact ⟨by omega, hlo, fun i e hi he => hhi i e (by omega) he⟩
    · have hhalf : len / 2 < len := Nat.div_lt_self (Nat.pos_of_ne_zero h0) (by decide)
      have hmid : first + len / 2 < elements.length := by omega
      have hem : elements[first + len / 2]? = some (elements[first + len / 2]) :=
        List.getElem?_eq_getElem hmid
      obtain ⟨g, hg, hgk⟩ := keys_getElem? groups elements hkeys _ _ hem
      simp only [lower_bound_loop, h0, if_false, hg]
      have hlt : g.lt { key := some k } = decide (elements[first + len / 2] < k) := by
        simp [group_type.lt, hgk]
      rw [hlt]
      by_cases hc : elements[first + len / 2] < k
      · simp only [hc, decide_True, if_true]
        apply ih (first + len / 2 + 1) (len - len / 2 - 1) (by omega) (by omega)
        · intro i e hi he
          have := sorted_getElem?_le elements hsorted i (first + len / 2) e _ (by omega) he hem
          omega
        · intro i e hi he
          exact hhi i e (by omega) he
      · simp only [hc, decide_False, if_false, Bool.false_eq_true]
        apply ih first (len / 2) (by omega) (by omega) hlo
        intro i e hi he
        have := sorted_getElem?_le elements hsorted (first + len / 2) i _ e hi hem he
        omega

/-- The contract of `std::lower_bound` on a table whose keys are the strictly increasing
`elements`: the index returned splits the table into the keys below `k` and the others. -/
theorem lower_bound_spec (groups : List group_type) (elements : List Nat) (k : Nat)
    (hkeys : groups.map (fun g => g.key) = elements.map some)
    (hsorted : List.Sorted (fun a b => a < b) elements) :
    lower_bound groups { key := some k } ≤ elements.length
    ∧ (∀ i e, i < lower_bound groups { key := some k } → elements[i]? = some e → e < k)
    ∧ (∀ i e, lower_bound groups { key := some k } ≤ i → elements[i]? = some e → k ≤ e) := by
  have hlen : groups.length = elements.length := by
    simpa using congrArg List.length hkeys
  unfold lower_bound
  rw [hlen]
  apply lower_bound_loop_spec groups elements k hkeys hsorted _ 0 _ (le_refl _) (by omega)
  · intro i e hi; omega
  · intro i e hi he
    have := (List.getElem?_eq_some.1 he).1
    omega

/-- Looking up an element returns its own index. -/
theorem lower_bound_of_mem (groups : List group_type) (elements : List Nat) (j k : Nat)
    (hkeys : groups.map (fun g => g.key) = elements.map some)
    (hsorted : List.Sorted (fun a b => a < b) elements)
    (hj : elements[j]? = some k) : lower_bound groups { key := some k } = j := by
  obtain ⟨hr, hlo, hhi⟩ := lower_bound_spec groups elements k hkeys hsorted
  have hjlen := (List.getElem?_eq_some.1 hj).1
  rcases Nat.lt_trichotomy (lower_bound groups { key := some k }) j with h | h | h
  · have her : elements[lower_bound groups { key := some k }]?
        = some (elements[lower_bound groups { key := some k }]) :=
      List.getElem?_eq_getElem (by omega)
    have h1 := hhi _ _ (le_refl _) her
    have h2 := sorted_getElem?_lt elements hsorted _ j _ k h her hj
    omega
  · exact h
  · have := hlo j k h hj
    omega

/-! ## The loops of `binary_search` -/

theorem init_keys_eq (elements : List Nat) :
    ∀ (m idx : Nat), idx + m ≤ elements.length →
      init_keys elements idx (new_groups m)
        = some (((elements.drop idx).take m).map (key_group [])) := by
  intro m
  induction m with
  | zero => intro idx _; simp [new_groups, init_keys]
  | succ m ih =>
    intro idx h
    have hidx : idx < elements.length := by omega
    have hd : elements.drop idx = elements[idx] :: elements.drop (idx + 1) :=
      List.drop_eq_getElem_cons hidx
    have hn : new_groups (m + 1) = ({} : group_type) :: new_groups m := by
      simp [new_groups, List.replicate_succ]
    rw [hn]
    simp only [init_keys, List.getElem?_eq_getElem hidx]
    rw [ih (idx + 1) (by omega), hd]
    simp only [List.take_succ_cons, List.map_cons, key_group, List.count_nil, agg_of_zero]

theorem init_keys_table (elements : List Nat) (num_groups : Nat)
    (hlen : elements.length = num_groups) :
    init_keys elements 0 (new_groups num_groups) = some (bs_table elements []) := by
  rw [init_keys_eq elements num_groups 0 (by omega)]
  simp [bs_table, ← hlen]

theorem bs_table_keys (elements done : List Nat) :
    (bs_table elements done).map (fun g => g.key) = elements.map some := by
  simp [bs_table, key_group, Function.comp]

theorem bs_table_set (elements done : List Nat) (j k : Nat)
    (hnodup : elements.Nodup) (hj : elements[j]? = some k) :
    (bs_table elements done).set j
        { key_group done k with data := (key_group done k).data.add k }
      = bs_table elements (done ++ [k]) := by
  obtain ⟨hj1, hj2⟩ := List.getElem?_eq_some.1 hj
  apply List.ext_getElem
  · simp [bs_table]
  · intro i h1 h2
    have hi : i < elements.length := by simpa [bs_table] using h2
    rw [List.getElem_set]
    by_cases hji : j = i
    · subst hji
      simp [bs_table, key_group, hj2, agg_of_add]
    · have hne : elements[i] ≠ k := by
        intro e
        apply hji
        have h3 : elements[j] = elements[i] := by rw [hj2, e]
        exact (List.Nodup.getElem_inj_iff hnodup).1 h3
      simp [bs_table, hji, key_group, hne, List.count_singleton]

theorem binary_search_scan_cons (elements done rest : List Nat) (k : Nat)
    (hsorted : List.Sorted (fun a b => a < b) elements) (hk : k ∈ elements) :
    binary_search_scan (k :: rest) (bs_table elements done)
      = binary_search_scan rest (bs_table elements (done ++ [k])) := by
  obtain ⟨j, hj1, hj2⟩ := List.getElem_of_mem hk
  have hj : elements[j]? = some k := by rw [List.getElem?_eq_getElem hj1, hj2]
  have hlb := lower_bound_of_mem (bs_table elements done) elements j k
    (bs_table_keys elements done) hsorted hj
  have hget : (bs_table elements done)[j]? = some (key_group done k) := by
    simp [bs_table, hj]
  simp only [binary_search_scan, hlb, add_at, hget]
  rw [bs_table_set elements done j k hsorted.nodup hj]

theorem binary_search_scan_eq (elements : List Nat)
    (hsorted : List.Sorted (fun a b => a < b) elements) (data : List Nat) :
    ∀ done : List Nat, (∀ k ∈ data, k ∈ elements) →
      binary_search_scan data (bs_table elements done)
        = some (bs_table elements (done ++ data)) := by
  induction data with
  | nil => intro done _; simp [binary_search_scan]
  | cons k rest ih =>
    intro done h
    rw [binary_search_scan_cons _ _ _ _ hsorted (h k (List.mem_cons_self _ _))]
    rw [ih (done ++ [k]) (fun x hx => h x (List.mem_cons_of_mem _ hx))]
    simp

theorem binary_search_eq (data elements : List Nat) (num_groups : Nat)
    (hlen : elements.length = num_groups)
    (hsorted : List.Sorted (fun a b => a < b) elements)
    (hkeys : ∀ k ∈ data, k ∈ elements) :
    binary_search data num_groups elements = some (bs_table elements data) := by
  simp only [binary_search, init_keys_table elements num_groups hlen]
  rw [binary_search_scan_eq elements hsorted data [] hkeys]
  simp

/-- The lookup of a key of `elements` in the table reached after the keys `done`. -/
theorem bs_lookup (elements done : List Nat) (k : Nat)
    (hsorted : List.Sorted (fun a b => a < b) elements) (hk : k ∈ elements) :
    lower_bound (bs_table elements done) { key := some k } < elements.length
    ∧ ∃ g, (bs_table elements done)[lower_bound (bs_table elements done) { key := some k }]?
          = some g ∧ g.key = some k := by
  obtain ⟨j, hj1, hj2⟩ := List.getElem_of_mem hk
  have hj : elements[j]? = some k := by rw [List.getElem?_eq_getElem hj1, hj2]
  rw [lower_bound_of_mem (bs_table elements done) elements j k
    (bs_table_keys elements done) hsorted hj]
  refine ⟨hj1, key_group done k, ?_, rfl⟩
  simp [bs_table, hj]

theorem elements_perm_dedup (data elements : List Nat) (hnodup : elements.Nodup)
    (hkeys : ∀ k ∈ data, k ∈ elements) (hall : ∀ e ∈ elements, e ∈ data) :
    List.Perm elements data.dedup := by
  rw [List.perm_ext_iff_of_nodup hnodup (List.nodup_dedup data)]
  intro k
  rw [List.mem_dedup]
  exact ⟨hall k, hkeys k⟩

/-! ## Claims on `hashing`, `static_perfect_hashing` and `binary_search` -/

theorem hashing_perm_of_perm (data data2 : List Nat) (h : List.Perm data2 data) :
    List.Perm (hashing_scan data2 []) (hashing_scan data []) := by
  refine (hashing_perm data2).trans (List.Perm.trans ?_ (hashing_perm data).symm)
  have h1 : (data2.dedup.map fun k => (k, agg_of k (data2.count k)))
      = data2.dedup.map fun k => (k, agg_of k (data.count k)) := by
    apply List.map_congr_left
    intro k _
    rw [h.count_eq k]
  rw [h1]
  exact List.Perm.map _ h.dedup

theorem hashing_replicate (n k : Nat) (hn : n ≠ 0) :
    hashing_scan (List.replicate n k) []
      = [(k, { count := n % U64, sum := (k * n) % U64 })] := by
  have h := hashing_perm (List.replicate n k)
  rw [List.replicate_dedup hn] at h
  simp only [List.map_cons, List.map_nil, List.count_replicate_self, agg_of] at h
  exact List.perm_singleton.1 h

theorem binary_search_scan_append (done rest : List Nat) :
    ∀ groups : List group_type,
      binary_search_scan (done ++ rest) groups
        = (binary_search_scan done groups).bind (binary_search_scan rest) := by
  induction done with
  | nil => intro groups; simp [binary_search_scan]
  | cons k done ih =>
    intro groups
    simp only [List.cons_append, binary_search_scan]
    cases add_at groups (lower_bound groups { key := some k }) k with
    | none => simp
    | some groups1 => exact ih groups1

/-- What `hashing` computes on every key array `data`, in any order, with a bucket count
the map can be given: the keys stored in the map are pairwise distinct and are exactly the
keys of `data`; the key `k` is mapped to `count` = number of occurrences of `k` and `sum` =
the residue modulo `2^64` of `k` times that count; and the map has the same entries for
every permutation of `data` and every such bucket count. -/
theorem hashing_correct (data : List Nat) (num_groups : Nat) (hsize : data.length < U64)
    (hbuckets : num_groups ≤ max_bucket_count) :
    ∃ groups, hashing data num_groups = some groups
      ∧ (map_keys groups).Nodup
      ∧ (∀ k, k ∈ map_keys groups ↔ k ∈ data)
      ∧ (∀ e ∈ groups, e.2.count = data.count e.1 ∧ e.2.sum = (e.1 * data.count e.1) % U64)
      ∧ (∀ (data2 : List Nat) (num_groups2 : Nat), List.Perm data2 data →
          num_groups2 ≤ max_bucket_count →
          ∃ groups2, hashing data2 num_groups2 = some groups2 ∧ List.Perm groups2 groups) := by
  obtain ⟨hnd, hmem, hval⟩ := hash_inv_hashing data
  refine ⟨_, hashing_eq data num_groups hbuckets, hnd, hmem, ?_, ?_⟩
  · intro e he
    rw [hval e he]
    exact ⟨count_mod_U64 data hsize e.1, rfl⟩
  · intro data2 num_groups2 h hbuckets2
    exact ⟨_, hashing_eq data2 num_groups2 hbuckets2, hashing_perm_of_perm data data2 h⟩

/-- The map of `hashing` on the unsorted key array `[5,7,5,9,7,5]`. -/
theorem hashing_correct_witness :
    ([5, 7, 5, 9, 7, 5].length < U64 ∧ 3 ≤ max_bucket_count)
    ∧ ∃ groups, hashing [5, 7, 5, 9, 7, 5] 3 = some groups
      ∧ (map_keys groups).Nodup
      ∧ (∀ k, k ∈ map_keys groups ↔ k ∈ [5, 7, 5, 9, 7, 5])
      ∧ (∀ e ∈ groups,
          e.2.count = [5, 7, 5, 9, 7, 5].count e.1
            ∧ e.2.sum = (e.1 * [5, 7, 5, 9, 7, 5].count e.1) % U64)
      ∧ (∀ (data2 : List Nat) (num_groups2 : Nat), List.Perm data2 [5, 7, 5, 9, 7, 5] →
          num_groups2 ≤ max_bucket_count →
          ∃ groups2, hashing data2 num_groups2 = some groups2 ∧ List.Perm groups2 groups) :=
  ⟨⟨by decide, by decide⟩, hashing_correct [5, 7, 5, 9, 7, 5] 3 (by decide) (by decide)⟩

/-- A bucket count of `2^61` cannot be allocated: the constructor of the map throws and
`hashing` returns no map, whatever the key array. -/
theorem hashing_bucket_count_too_large (data : List Nat) :
    hashing data 2305843009213693952 = none :=
  (hashing_eq_none_iff data 2305843009213693952).2 (by norm_num [max_bucket_count, U64])

/-- C2, a defect of the code: on the key array of `2^32 + 2` copies of the 32-bit key
`2^32 - 1`, with the bucket count 1, the map of `hashing` has the single entry with
`count = 2^32 + 2` and `sum = 2^32 - 2`.  The 64-bit sum has wrapped: it is not the key
times the count, and the assertion `sum / count == key` of the debug block of the function
is false on that entry. -/
theorem hashing_sum_wraps :
    (List.replicate 4294967298 4294967295).length < U64
    ∧ (∀ k ∈ List.replicate 4294967298 4294967295, k < U32)
    ∧ (List.replicate 4294967298 4294967295).count 4294967295 = 4294967298
    ∧ hashing (List.replicate 4294967298 4294967295) 1
        = some [(4294967295, { count := 4294967298, sum := 4294967294 })]
    ∧ 4294967294 ≠ 4294967295 * 4294967298
    ∧ assert_key (entry_group (4294967295, { count := 4294967298, sum := 4294967294 }))
        = some false := by
  refine ⟨?_, ?_, ?_, ?_, by norm_num, by decide⟩
  · rw [List.length_replicate]; norm_num [U64]
  · intro k hk
    rw [List.eq_of_mem_replicate hk]; norm_num [U32]
  · exact List.count_replicate_self _ _
  · rw [hashing_eq _ _ (by norm_num [max_bucket_count, U64]),
      hashing_replicate _ _ (by norm_num)]
    norm_num [U64]

/-- What `static_perfect_hashing` computes on every key array `data` all of whose keys are
smaller than `num_groups`: no access is outside the table; afterwards the table has
`num_groups` slots and slot `k` holds `count` = number of occurrences of `k` and `sum` =
the residue modulo `2^64` of `k` times that count, for every `k < num_groups`; and when
every key of `[0, num_groups)` occurs in `data`, the slots are, up to order, the entries of
the map of `hashing` on the same data. -/
theorem static_perfect_hashing_correct (data : List Nat) (num_groups : Nat)
    (hsize : data.length < U64) (hkeys : ∀ k ∈ data, k < num_groups) :
    ∃ groups, static_perfect_hashing data num_groups = some groups
      ∧ groups.length = num_groups
      ∧ (∀ k, k < num_groups → ∃ g, groups[k]? = some g
          ∧ g.data.count = data.count k ∧ g.data.sum = (k * data.count k) % U64)
      ∧ ((∀ k, k < num_groups → k ∈ data) → ∀ num_groups2, num_groups2 ≤ max_bucket_count →
          ∃ entries, hashing data num_groups2 = some entries
            ∧ List.Perm groups (entries.map entry_group)) := by
  refine ⟨sph_table num_groups data, static_perfect_hashing_eq data num_groups hkeys,
    by simp [sph_table], ?_, ?_⟩
  · intro k hk
    refine ⟨sph_slot data k, sph_table_getElem? _ _ _ hk, ?_, rfl⟩
    exact count_mod_U64 data hsize k
  · intro hall num_groups2 hbuckets
    refine ⟨_, hashing_eq data num_groups2 hbuckets, ?_⟩
    rw [sph_table_full data num_groups hall]
    exact (List.Perm.map _ (range_perm_dedup data num_groups hkeys hall)).trans
      (hashing_groups_perm data).symm

/-- The table of `static_perfect_hashing` on the shuffled dense key array `[0,2,1,1,0]`
with three groups. -/
theorem static_perfect_hashing_correct_witness :
    ([0, 2, 1, 1, 0].length < U64 ∧ ∀ k ∈ [0, 2, 1, 1, 0], k < 3)
    ∧ ∃ groups, static_perfect_hashing [0, 2, 1, 1, 0] 3 = some groups
      ∧ groups.length = 3
      ∧ (∀ k, k < 3 → ∃ g, groups[k]? = some g
          ∧ g.data.count = [0, 2, 1, 1, 0].count k
          ∧ g.data.sum = (k * [0, 2, 1, 1, 0].count k) % U64)
      ∧ ((∀ k, k < 3 → k ∈ [0, 2, 1, 1, 0]) → ∀ num_groups2, num_groups2 ≤ max_bucket_count →
          ∃ entries, hashing [0, 2, 1, 1, 0] num_groups2 = some entries
            ∧ List.Perm groups (entries.map entry_group)) :=
  ⟨⟨by decide, by decide⟩,
   static_perfect_hashing_correct [0, 2, 1, 1, 0] 3 (by decide) (by decide)⟩

/-- C3, a defect of the code: on the key array of `2^32 + 2` copies of the key `2^32 - 1`
with a table of `2^32` slots, every key is smaller than `num_groups` and every access is
inside the table, yet slot `2^32 - 1` ends with `count = 2^32 + 2` and `sum = 2^32 - 2`.
The 64-bit sum has wrapped: it is not the key times the count, and the assertion
`sum / count == key` of the debug block of the function is false on that slot. -/
theorem static_perfect_hashing_sum_wraps :
    (List.replicate 4294967298 4294967295).length < U64
    ∧ (∀ k ∈ List.replicate 4294967298 4294967295, k < 4294967296)
    ∧ (List.replicate 4294967298 4294967295).count 4294967295 = 4294967298
    ∧ (∃ groups,
        static_perfect_hashing (List.replicate 4294967298 4294967295) 4294967296 = some groups
        ∧ groups[4294967295]?
          = some { key := some 4294967295, data := { count := 4294967298, sum := 4294967294 } })
    ∧ 4294967294 ≠ 4294967295 * 4294967298
    ∧ assert_key { key := some 4294967295, data := { count := 4294967298, sum := 4294967294 } }
        = some false := by
  have hk : ∀ k ∈ List.replicate 4294967298 4294967295, k < 4294967296 := by
    intro k hk
    rw [List.eq_of_mem_replicate hk]; norm_num
  have hmem : 4294967295 ∈ List.replicate 4294967298 4294967295 :=
    List.mem_replicate.2 ⟨by norm_num, rfl⟩
  refine ⟨?_, hk, List.count_replicate_self _ _, ?_, by norm_num, by decide⟩
  · rw [List.length_replicate]; norm_num [U64]
  · refine ⟨_, static_perfect_hashing_eq _ _ hk, ?_⟩
    rw [sph_table_getElem? _ _ _ (by norm_num)]
    simp only [sph_slot, hmem, if_true, agg_of, List.count_replicate_self]
    norm_num [U64]

/-- What `binary_search` computes for every strictly increasing `elements` of length
`num_groups` and every key array `data`, in any order, all of whose keys occur in
`elements`: the head assertions hold; every lookup of the aggregation loop (the key `k`
looked up in the table reached after the keys `done` before it) returns an index inside
the table whose slot has the key `k`; afterwards slot `i` holds the key `elements[i]`,
`count` = number of occurrences of that element and `sum` = the residue modulo `2^64` of
the element times that count; and when every element occurs in `data`, the slots are, up
to order, the entries of the map of `hashing` on the same data. -/
theorem binary_search_correct (data elements : List Nat) (num_groups : Nat)
    (hsize : data.length < U64) (hlen : elements.length = num_groups)
    (hsorted : List.Sorted (fun a b => a < b) elements)
    (hkeys : ∀ k ∈ data, k ∈ elements) :
    binary_search_asserts num_groups elements = true
    ∧ (∀ (done rest : List Nat) (k : Nat), data = done ++ k :: rest →
      ∃ groups g, binary_search done num_groups elements = some groups
        ∧ lower_bound groups { key := some k } < num_groups
        ∧ groups[lower_bound groups { key := some k }]? = some g ∧ g.key = some k)
    ∧ binary_search data num_groups elements
        = some (elements.map fun e =>
            ({ key := some e,
               data := { count := data.count e, sum := (e * data.count e) % U64 } } : group_type))
    ∧ ((∀ e ∈ elements, e ∈ data) → ∀ num_groups2, num_groups2 ≤ max_bucket_count →
        ∃ entries, hashing data num_groups2 = some entries
          ∧ List.Perm (elements.map fun e =>
            ({ key := some e,
               data := { count := data.count e, sum := (e * data.count e) % U64 } } : group_type))
          (entries.map entry_group)) := by
  have htab : bs_table elements data = elements.map fun e =>
      ({ key := some e,
         data := { count := data.count e, sum := (e * data.count e) % U64 } } : group_type) := by
    apply List.map_congr_left
    intro e _
    exact key_group_eq data hsize e
  refine ⟨?_, ?_, ?_, ?_⟩
  · simp only [binary_search_asserts, hlen, decide_True, Bool.true_and, decide_eq_true_eq]
    exact hsorted.le_of_lt
  · intro done rest k hdata
    have hdone : ∀ x ∈ done, x ∈ elements := by
      intro x hx
      exact hkeys x (by rw [hdata]; exact List.mem_append_left _ hx)
    have hk : k ∈ elements :=
      hkeys k (by rw [hdata]; exact List.mem_append_right _ (List.mem_cons_self _ _))
    obtain ⟨h1, g, h2, h3⟩ := bs_lookup elements done k hsorted hk
    exact ⟨bs_table elements done, g,
      binary_search_eq done elements num_groups hlen hsorted hdone, hlen ▸ h1, h2, h3⟩
  · rw [binary_search_eq data elements num_groups hlen hsorted hkeys, htab]
  · intro hall num_groups2 hbuckets
    refine ⟨_, hashing_eq data num_groups2 hbuckets, ?_⟩
    rw [← htab]
    exact (List.Perm.map _ (elements_perm_dedup data elements hsorted.nodup hkeys hall)).trans
      (hashing_groups_perm data).symm

/-- The table of `binary_search` on the shuffled sparse key array `[5,7,5,9,7,5]` with
elements `[5,7,9]`. -/
theorem binary_search_correct_witness :
    ([5, 7, 5, 9, 7, 5].length < U64 ∧ [5, 7, 9].length = 3
      ∧ List.Sorted (fun a b => a < b) [5, 7, 9] ∧ ∀ k ∈ [5, 7, 5, 9, 7, 5], k ∈ [5, 7, 9])
    ∧ binary_search_asserts 3 [5, 7, 9] = true
    ∧ (∀ (done rest : List Nat) (k : Nat), [5, 7, 5, 9, 7, 5] = done ++ k :: rest →
      ∃ groups g, binary_search done 3 [5, 7, 9] = some groups
        ∧ lower_bound groups { key := some k } < 3
        ∧ groups[lower_bound groups { key := some k }]? = some g ∧ g.key = some k)
    ∧ binary_search [5, 7, 5, 9, 7, 5] 3 [5, 7, 9]
        = some [{ key := some 5, data := { count := 3, sum := 15 } },
                { key := some 7, data := { count := 2, sum := 14 } },
                { key := some 9, data := { count := 1, sum := 9 } }]
    ∧ ((∀ e ∈ [5, 7, 9], e ∈ [5, 7, 5, 9, 7, 5]) → ∀ num_groups2,
        num_groups2 ≤ max_bucket_count →
        ∃ entries, hashing [5, 7, 5, 9, 7, 5] num_groups2 = some entries
          ∧ List.Perm [{ key := some 5, data := { count := 3, sum := 15 } },
                { key := some 7, data := { count := 2, sum := 14 } },
                { key := some 9, data := { count := 1, sum := 9 } }]
          (entries.map entry_group)) :=
  ⟨⟨by decide, by decide, by decide, by decide⟩,
   binary_search_correct [5, 7, 5, 9, 7, 5] [5, 7, 9] 3 (by decide) (by decide) (by decide)
      (by decide)⟩

/-- C4, a defect of the code: on the key array of `2^32 + 2` copies of the key `2^32 - 1`
with that key as the only element, `elements` is strictly increasing of length
`num_groups = 1` and every key occurs in it, yet the slot ends with `count = 2^32 + 2`
and `sum = 2^32 - 2`.  The 64-bit sum has wrapped: it is not the element times the count,
and the assertion `sum / count == key` of the debug block of the function is false on that
slot. -/
theorem binary_search_sum_wraps :
    (List.replicate 4294967298 4294967295).length < U64
    ∧ List.Sorted (fun a b => a < b) [4294967295]
    ∧ binary_search_asserts 1 [4294967295] = true
    ∧ (∀ k ∈ List.replicate 4294967298 4294967295, k ∈ [4294967295])
    ∧ (List.replicate 4294967298 4294967295).count 4294967295 = 4294967298
    ∧ binary_search (List.replicate 4294967298 4294967295) 1 [4294967295]
        = some [{ key := some 4294967295, data := { count := 4294967298, sum := 4294967294 } }]
    ∧ 4294967294 ≠ 4294967295 * 4294967298
    ∧ assert_key { key := some 4294967295, data := { count := 4294967298, sum := 4294967294 } }
        = some false := by
  have hk : ∀ k ∈ List.replicate 4294967298 4294967295, k ∈ [4294967295] := by
    intro k hk
    rw [List.eq_of_mem_replicate hk]; exact List.mem_singleton.2 rfl
  have hs : List.Sorted (fun a b => a < b) [4294967295] := List.sorted_singleton _
  refine ⟨?_, hs, by decide, hk, List.count_replicate_self _ _, ?_, by norm_num, by decide⟩
  · rw [List.length_replicate]; norm_num [U64]
  · rw [binary_search_eq (List.replicate 4294967298 4294967295) [4294967295] 1 rfl hs hk]
    simp only [bs_table, List.map_cons, List.map_nil, key_group, agg_of,
      List.count_replicate_self]
    norm_num [U64]

/-! ## Sorting first -/

theorem sort_perm (data : List Nat) : List.Perm (sort data) data :=
  List.perm_insertionSort _ data

theorem sort_sorted (data : List Nat) : List.Sorted (fun a b => a ≤ b) (sort data) :=
  List.sorted_insertionSort _ data

theorem key_group_perm (data data2 : List Nat) (h : List.Perm data2 data) :
    key_group data2 = key_group data := by
  funext k
  simp [key_group, h.count_eq k]

theorem ne_nil_of_perm (data data2 : List Nat) (h : List.Perm data2 data) (hne : data ≠ []) :
    data2 ≠ [] := by
  intro h2
  rw [h2] at h
  exact hne (List.nil_perm.1 h)

theorem sort_and_order_based_grouping_eq (data : List Nat) (num_groups : Nat)
    (hne : data ≠ []) (hgroups : data.dedup.length = num_groups) :
    sort_and_order_based_grouping data num_groups
      = some ((sort data).dedup.map (key_group data)) := by
  have hp := sort_perm data
  rw [sort_and_order_based_grouping,
    order_based_grouping_sorted_eq (sort data) num_groups (ne_nil_of_perm _ _ hp hne)
      (sort_sorted data) (by rw [hp.dedup.length_eq, hgroups]),
    key_group_perm data (sort data) hp]

/-- C5: for every non-empty key array `data` of 32-bit keys, sorted or not, with exactly
`num_groups` distinct keys, sorting `data` and running `order_based_grouping` succeeds,
`hashing` returns its map, and the groups of the former are, up to order, the entries of
the latter: the two sets of (key, count, sum) triples are equal. -/
theorem sort_and_order_based_grouping_agrees (data : List Nat) (num_groups : Nat)
    (hne : data ≠ []) (h32 : ∀ k ∈ data, k < U32) (hgroups : data.dedup.length = num_groups) :
    ∃ groups entries, sort_and_order_based_grouping data num_groups = some groups
      ∧ hashing data num_groups = some entries
      ∧ List.Perm groups (entries.map entry_group)
      ∧ ∀ g, g ∈ groups ↔ g ∈ entries.map entry_group := by
  have hperm : List.Perm ((sort data).dedup.map (key_group data))
      ((hashing_scan data []).map entry_group) :=
    (List.Perm.map _ (sort_perm data).dedup).trans (hashing_groups_perm data).symm
  have hbuckets : num_groups ≤ max_bucket_count := by
    rw [← hgroups]
    exact le_trans (dedup_length_le_U32 data h32) U32_le_max_bucket_count
  exact ⟨_, _, sort_and_order_based_grouping_eq data num_groups hne hgroups,
    hashing_eq data num_groups hbuckets, hperm, fun g => hperm.mem_iff⟩

/-- C5 on the unsorted key array `[7,5,9,5,7,5]` with three distinct keys. -/
theorem sort_and_order_based_grouping_agrees_witness :
    ([7, 5, 9, 5, 7, 5] ≠ ([] : List Nat) ∧ (∀ k ∈ [7, 5, 9, 5, 7, 5], k < U32)
      ∧ [7, 5, 9, 5, 7, 5].dedup.length = 3)
    ∧ ∃ groups entries, sort_and_order_based_grouping [7, 5, 9, 5, 7, 5] 3 = some groups
      ∧ hashing [7, 5, 9, 5, 7, 5] 3 = some entries
      ∧ List.Perm groups (entries.map entry_group)
      ∧ ∀ g, g ∈ groups ↔ g ∈ entries.map entry_group :=
  ⟨⟨by decide, by decide, by decide⟩,
   sort_and_order_based_grouping_agrees [7, 5, 9, 5, 7, 5] 3 (by decide) (by decide)
     (by decide)⟩

/-! ## The fill loops of the generators -/

theorem dense_inner_eq (size : Nat) :
    ∀ (todo i : Nat) (buf : List Nat), buf.length ≤ size →
      dense_inner size todo i buf
        = buf ++ (List.range' i (min todo (size - buf.length))).map fun j => j % U32 := by
  intro todo
  induction todo with
  | zero => intro i buf _; simp [dense_inner]
  | succ todo ih =>
    intro i buf hle
    by_cases h : buf.length = size
    · simp [dense_inner, h]
    · have hlt : buf.length < size := lt_of_le_of_ne hle h
      simp only [dense_inner, ne_eq, h, not_false_eq_true, if_true]
      rw [ih (i + 1) (buf ++ [i % U32]) (by simp; omega)]
      have hmin : min (todo + 1) (size - buf.length)
          = min todo (size - (buf ++ [i % U32]).length) + 1 := by
        simp only [List.length_append, List.length_singleton]
        omega
      rw [hmin, List.range'_succ]
      simp

theorem dense_cycle_add (num_groups start m : Nat) (hdvd : num_groups ∣ start)
    (hm : m ≤ num_groups) :
    dense_cycle num_groups (start + m)
      = dense_cycle num_groups start ++ (List.range' 0 m).map fun j => j % U32 := by
  simp only [dense_cycle, List.range_add, List.map_append, List.map_map,
    ← List.range_eq_range']
  congr 1
  apply List.map_congr_left
  intro t ht
  have ht1 : t < num_groups := lt_of_lt_of_le (List.mem_range.1 ht) hm
  obtain ⟨q, rfl⟩ := hdvd
  simp [Function.comp, Nat.mul_add_mod, Nat.mod_eq_of_lt ht1]

theorem dense_cycle_length (num_groups size : Nat) : (dense_cycle num_groups size).length = size := by
  simp [dense_cycle]

theorem dense_fill_eq (size num_groups : Nat) (hpos : 1 ≤ num_groups) :
    ∀ (fuel start : Nat), start ≤ size → (num_groups ∣ start ∨ start = size) →
      size - start < fuel →
      dense_fill size num_groups fuel (dense_cycle num_groups start)
        = some (dense_cycle num_groups size) := by
  intro fuel
  induction fuel with
  | zero => intro start _ _ h; omega
  | succ fuel ih =>
    intro start hle hinv hfuel
    by_cases h : start = size
    · simp [dense_fill, dense_cycle_length, h]
    · have hlt : start < size := lt_of_le_of_ne hle h
      have hdvd : num_groups ∣ start := hinv.resolve_right h
      simp only [dense_fill, dense_cycle_length, ne_eq, h, not_false_eq_true, if_true]
      rw [dense_inner_eq size num_groups 0 _ (by rw [dense_cycle_length]; exact hle),
        dense_cycle_length,
        ← dense_cycle_add num_groups start _ hdvd (Nat.min_le_left _ _)]
      apply ih
      · omega
      · by_cases hc : num_groups ≤ size - start
        · left
          rw [Nat.min_eq_left hc]
          exact Dvd.dvd.add hdvd (dvd_refl _)
        · right
          rw [Nat.min_eq_right (by omega)]
          omega
      · have : 1 ≤ min num_groups (size - start) := by
          rw [Nat.le_min]; omega
        omega

theorem create_uniform_dense_eq (fuel size num_groups : Nat) (hpos : 1 ≤ num_groups)
    (hfuel : size < fuel) :
    create_uniform_dense fuel size num_groups = some (sort (dense_cycle num_groups size)) := by
  have h := dense_fill_eq size num_groups hpos fuel 0 (Nat.zero_le _) (Or.inl (dvd_zero _))
    (by omega)
  have h0 : dense_cycle num_groups 0 = [] := by simp [dense_cycle]
  rw [h0] at h
  simp [create_uniform_dense, h]

theorem sparse_inner_eq (size : Nat) :
    ∀ (todo buf : List Nat), buf.length ≤ size →
      sparse_inner size todo buf = buf ++ todo.take (size - buf.length) := by
  intro todo
  induction todo with
  | nil => intro buf _; simp [sparse_inner]
  | cons v todo ih =>
    intro buf hle
    by_cases h : buf.length = size
    · simp [sparse_inner, h]
    · have hlt : buf.length < size := lt_of_le_of_ne hle h
      simp only [sparse_inner, ne_eq, h, not_false_eq_true, if_true]
      rw [ih (buf ++ [v]) (by simp; omega)]
      have hsub : size - buf.length = (size - (buf ++ [v]).length) + 1 := by
        simp only [List.length_append, List.length_singleton]
        omega
      rw [hsub, List.take_succ_cons]
      simp

theorem take_eq_map_range (vec : List Nat) (m : Nat) (hm : m ≤ vec.length) :
    vec.take m = (List.range m).map fun t => vec[t]?.getD 0 := by
  apply List.ext_getElem
  · simp [hm]
  · intro i h1 h2
    have hi : i < vec.length := by
      have : i < m := by simpa using h2
      omega
    simp [List.getElem?_eq_getElem hi]

theorem sparse_cycle_add (vec : List Nat) (start m : Nat) (hdvd : vec.length ∣ start)
    (hm : m ≤ vec.length) :
    sparse_cycle vec (start + m) = sparse_cycle vec start ++ vec.take m := by
  rw [take_eq_map_range vec m hm]
  simp only [sparse_cycle, List.range_add, List.map_append, List.map_map]
  congr 1
  apply List.map_congr_left
  intro t ht
  have ht1 : t < vec.length := lt_of_lt_of_le (List.mem_range.1 ht) hm
  obtain ⟨q, hq⟩ := hdvd
  simp [Function.comp, hq, Nat.mul_add_mod, Nat.mod_eq_of_lt ht1]

theorem sparse_cycle_length (vec : List Nat) (size : Nat) : (sparse_cycle vec size).length = size := by
  simp [sparse_cycle]

theorem sparse_fill_eq (size : Nat) (vec : List Nat) (hpos : vec ≠ []) :
    ∀ (fuel start : Nat), start ≤ size → (vec.length ∣ start ∨ start = size) →
      size - start < fuel →
      sparse_fill size vec fuel (sparse_cycle vec start) = some (sparse_cycle vec size) := by
  have hlen : 1 ≤ vec.length := List.length_pos.2 hpos
  intro fuel
  induction fuel with
  | zero => intro start _ _ h; omega
  | succ fuel ih =>
    intro start hle hinv hfuel
    by_cases h : start = size
    · simp [sparse_fill, sparse_cycle_length, h]
    · have hlt : start < size := lt_of_le_of_ne hle h
      have hdvd : vec.length ∣ start := hinv.resolve_right h
      simp only [sparse_fill, sparse_cycle_length, ne_eq, h, not_false_eq_true, if_true]
      rw [sparse_inner_eq size vec _ (by rw [sparse_cycle_length]; exact hle),
        sparse_cycle_length]
      by_cases hc : vec.length ≤ size - start
      · rw [List.take_of_length_le hc]
        have h2 := sparse_cycle_add vec start vec.length hdvd (le_refl _)
        rw [List.take_of_length_le (le_refl _)] at h2
        rw [← h2]
        exact ih _ (by omega) (Or.inl (Dvd.dvd.add hdvd (dvd_refl _))) (by omega)
      · rw [← sparse_cycle_add vec start (size - start) hdvd (by omega)]
        exact ih _ (by omega) (Or.inr (by omega)) (by omega)

theorem create_uniform_sparse_eq (fuel size : Nat) (vec : List Nat) (hpos : vec ≠ [])
    (hfuel : size < fuel) :
    create_uniform_sparse fuel size vec = some (sort (sparse_cycle vec size)) := by
  have h := sparse_fill_eq size vec hpos fuel 0 (Nat.zero_le _) (Or.inl (dvd_zero _))
    (by omega)
  have h0 : sparse_cycle vec 0 = [] := by simp [sparse_cycle]
  rw [h0] at h
  simp [create_uniform_sparse, h]

/-! ## The keys of the generated data -/

theorem mem_dense_cycle (num_groups size x : Nat) (hpos : 1 ≤ num_groups) :
    x ∈ dense_cycle num_groups size ↔ x < min size (min num_groups U32) := by
  simp only [dense_cycle, List.mem_map, List.mem_range]
  constructor
  · rintro ⟨j, hj, rfl⟩
    have h1 : j % num_groups < num_groups := Nat.mod_lt _ (by omega)
    have h2 : j % num_groups ≤ j := Nat.mod_le _ _
    have h3 : j % num_groups % U32 ≤ j % num_groups := Nat.mod_le _ _
    have h4 : j % num_groups % U32 < U32 := Nat.mod_lt _ (by norm_num [U32])
    simp only [lt_min_iff]
    omega
  · intro hx
    simp only [lt_min_iff] at hx
    exact ⟨x, hx.1, by rw [Nat.mod_eq_of_lt hx.2.1, Nat.mod_eq_of_lt hx.2.2]⟩

theorem dense_cycle_dedup_length (num_groups size : Nat) (hpos : 1 ≤ num_groups) :
    (dense_cycle num_groups size).dedup.length = min size (min num_groups U32) := by
  have hperm : List.Perm (dense_cycle num_groups size).dedup
      (List.range (min size (min num_groups U32))) := by
    rw [List.perm_ext_iff_of_nodup (List.nodup_dedup _) (List.nodup_range _)]
    intro x
    rw [List.mem_dedup, mem_dense_cycle _ _ _ hpos, List.mem_range]
  rw [hperm.length_eq, List.length_range]

theorem div_mod_succ (s n k : Nat) (hpos : 1 ≤ n) (hk : k < n) :
    (s + 1) / n + (if k < (s + 1) % n then 1 else 0)
      = s / n + (if k < s % n then 1 else 0) + (if s % n = k then 1 else 0) := by
  have hr : s % n < n := Nat.mod_lt _ (by omega)
  have hs : s % n + n * (s / n) = s := Nat.mod_add_div s n
  by_cases hc : s % n + 1 = n
  · have h1 : (s + 1) / n = s / n + 1 ∧ (s + 1) % n = 0 := by
      rw [Nat.div_mod_unique (by omega)]
      refine ⟨?_, by omega⟩
      rw [Nat.mul_add, Nat.mul_one]
      omega
    rw [h1.1, h1.2]
    by_cases hk1 : k < s % n
    · have : ¬ s % n = k := by omega
      simp [hk1, this]
    · have : s % n = k := by omega
      simp [hk1, this]
  · have h1 : (s + 1) / n = s / n ∧ (s + 1) % n = s % n + 1 := by
      rw [Nat.div_mod_unique (by omega)]
      refine ⟨by omega, by omega⟩
    rw [h1.1, h1.2]
    by_cases hk1 : k < s % n
    · have h2 : k < s % n + 1 := by omega
      have h3 : ¬ s % n = k := by omega
      simp [hk1, h2, h3]
    · by_cases hk2 : s % n = k
      · have h2 : k < s % n + 1 := by omega
        simp [hk1, h2, hk2]
      · have h2 : ¬ k < s % n + 1 := by omega
        simp [hk1, h2, hk2]

theorem dense_cycle_count (num_groups k : Nat) (hpos : 1 ≤ num_groups)
    (h32 : num_groups ≤ U32) (hk : k < num_groups) :
    ∀ size, (dense_cycle num_groups size).count k
      = size / num_groups + (if k < size % num_groups then 1 else 0) := by
  intro size
  induction size with
  | zero => simp [dense_cycle]
  | succ s ih =>
    have hstep : dense_cycle num_groups (s + 1)
        = dense_cycle num_groups s ++ [s % num_groups] := by
      have h1 : s % num_groups < U32 := lt_of_lt_of_le (Nat.mod_lt _ (by omega)) h32
      simp [dense_cycle, List.range_succ, Nat.mod_eq_of_lt h1]
    rw [hstep, List.count_append, ih, div_mod_succ s num_groups k hpos hk, List.count_singleton]
    simp

theorem mem_sparse_cycle (vec : List Nat) (size x : Nat) (hpos : vec ≠ []) :
    x ∈ sparse_cycle vec size ↔ x ∈ vec.take size := by
  have hlen : 0 < vec.length := List.length_pos.2 hpos
  simp only [sparse_cycle, List.mem_map, List.mem_range]
  constructor
  · rintro ⟨j, hj, rfl⟩
    have h1 : j % vec.length < vec.length := Nat.mod_lt _ hlen
    have h2 : j % vec.length ≤ j := Nat.mod_le _ _
    rw [List.getElem?_eq_getElem h1, Option.getD_some]
    rw [List.mem_iff_getElem]
    refine ⟨j % vec.length, by simp; omega, by simp⟩
  · intro hx
    obtain ⟨t, ht, hxt⟩ := List.mem_iff_getElem.1 hx
    have ht1 : t < size ∧ t < vec.length := by simpa using ht
    refine ⟨t, ht1.1, ?_⟩
    rw [Nat.mod_eq_of_lt ht1.2, List.getElem?_eq_getElem ht1.2, Option.getD_some, ← hxt]
    simp

/-! ## Claims on the generators -/

theorem sort_length (data : List Nat) : (sort data).length = data.length :=
  (sort_perm data).length_eq

theorem sort_dedup_length (data : List Nat) : (sort data).dedup.length = data.dedup.length :=
  (sort_perm data).dedup.length_eq

theorem mem_sort (data : List Nat) (x : Nat) : x ∈ sort data ↔ x ∈ data :=
  (sort_perm data).mem_iff

/-- C8 (amended): for every `size` and every `num_groups >= 1`, `create_uniform_dense`
returns (with more than `size` rounds of fuel) exactly `size` keys, every one of them in
`[0, num_groups)`, and the number of distinct keys is the minimum of `size`, `num_groups`
and `2^32`; it equals `num_groups` when `num_groups <= size` and `num_groups <= 2^32`. -/
theorem create_uniform_dense_distinct (fuel size num_groups : Nat) (hpos : 1 ≤ num_groups)
    (hfuel : size < fuel) :
    ∃ data, create_uniform_dense fuel size num_groups = some data
      ∧ data.length = size
      ∧ (∀ x ∈ data, x < num_groups)
      ∧ data.dedup.length = min size (min num_groups U32)
      ∧ (num_groups ≤ size → num_groups ≤ U32 → data.dedup.length = num_groups) := by
  have hd : (sort (dense_cycle num_groups size)).dedup.length
      = min size (min num_groups U32) := by
    rw [sort_dedup_length, dense_cycle_dedup_length _ _ hpos]
  refine ⟨_, create_uniform_dense_eq fuel size num_groups hpos hfuel, ?_, ?_, hd, ?_⟩
  · rw [sort_length, dense_cycle_length]
  · intro x hx
    have := (mem_dense_cycle num_groups size x hpos).1 ((mem_sort _ x).1 hx)
    simp only [lt_min_iff] at this
    exact this.2.1
  · intro h1 h2
    rw [hd, Nat.min_eq_left h2, Nat.min_eq_right h1]

/-- C8 with seven keys over three groups. -/
theorem create_uniform_dense_distinct_witness :
    (1 ≤ 3 ∧ 7 < 8)
    ∧ ∃ data, create_uniform_dense 8 7 3 = some data
      ∧ data.length = 7
      ∧ (∀ x ∈ data, x < 3)
      ∧ data.dedup.length = min 7 (min 3 U32)
      ∧ (3 ≤ 7 → 3 ≤ U32 → data.dedup.length = 3) :=
  ⟨⟨by decide, by decide⟩, create_uniform_dense_distinct 8 7 3 (by decide) (by decide)⟩

/-- C8 as stated fails: with `size = 2` and `num_groups = 3` the output is `[0, 1]`, which
has two distinct keys, not three. -/
theorem create_uniform_dense_too_short :
    1 ≤ 3 ∧ create_uniform_dense 3 2 3 = some [0, 1] ∧ [0, 1].dedup.length ≠ 3 := by
  decide

/-- C9: for every `size` and every `num_groups` with `1 <= num_groups <= 2^32` (in
particular when also `num_groups <= size`), `create_uniform_dense` returns (with more than
`size` rounds of fuel) the non-decreasing sequence of length `size` over the keys of
`[0, num_groups)` in which each key `k` occurs
`size / num_groups + (1 if k < size mod num_groups else 0)` times, so that the
frequencies of two keys differ by at most 1. -/
theorem create_uniform_dense_frequencies (fuel size num_groups : Nat) (hpos : 1 ≤ num_groups)
    (h32 : num_groups ≤ U32) (hfuel : size < fuel) :
    ∃ data, create_uniform_dense fuel size num_groups = some data
      ∧ List.Sorted (fun a b => a ≤ b) data
      ∧ data.length = size
      ∧ (∀ x ∈ data, x < num_groups)
      ∧ (∀ k, k < num_groups →
          data.count k = size / num_groups + (if k < size % num_groups then 1 else 0))
      ∧ (∀ k1 k2, k1 < num_groups → k2 < num_groups → data.count k1 ≤ data.count k2 + 1) := by
  have hcount : ∀ k, k < num_groups →
      (sort (dense_cycle num_groups size)).count k
        = size / num_groups + (if k < size % num_groups then 1 else 0) := by
    intro k hk
    rw [(sort_perm _).count_eq k, dense_cycle_count num_groups k hpos h32 hk]
  refine ⟨_, create_uniform_dense_eq fuel size num_groups hpos hfuel, sort_sorted _, ?_, ?_,
    hcount, ?_⟩
  · rw [sort_length, dense_cycle_length]
  · intro x hx
    have := (mem_dense_cycle num_groups size x hpos).1 ((mem_sort _ x).1 hx)
    simp only [lt_min_iff] at this
    exact this.2.1
  · intro k1 k2 hk1 hk2
    rw [hcount k1 hk1, hcount k2 hk2]
    split <;> split <;> omega

/-- C9 with seven keys over three groups: the output is `[0,0,0,1,1,2,2]`. -/
theorem create_uniform_dense_frequencies_witness :
    (1 ≤ 3 ∧ 3 ≤ 7 ∧ 3 ≤ U32 ∧ 7 < 8)
    ∧ ∃ data, create_uniform_dense 8 7 3 = some data
      ∧ List.Sorted (fun a b => a ≤ b) data
      ∧ data.length = 7
      ∧ (∀ x ∈ data, x < 3)
      ∧ (∀ k, k < 3 → data.count k = 7 / 3 + (if k < 7 % 3 then 1 else 0))
      ∧ (∀ k1 k2, k1 < 3 → k2 < 3 → data.count k1 ≤ data.count k2 + 1) :=
  ⟨⟨by decide, by decide, by decide, by decide⟩,
   create_uniform_dense_frequencies 8 7 3 (by decide) (by decide) (by decide)⟩

/-- C10 (amended): for every `size` and every non-empty `elements` (strictly increasing
or not), `create_uniform_sparse` returns (with more than `size` rounds of fuel) a non-decreasing
sequence of exactly `size` keys whose values are exactly the first `min(size, length)`
values of `elements`; they are all the values of `elements` when `elements` is not longer
than `size`. -/
theorem create_uniform_sparse_elements (fuel size : Nat) (elements : List Nat)
    (hne : elements ≠ []) (hfuel : size < fuel) :
    ∃ data, create_uniform_sparse fuel size elements = some data
      ∧ List.Sorted (fun a b => a ≤ b) data
      ∧ data.length = size
      ∧ (∀ x, x ∈ data ↔ x ∈ elements.take size)
      ∧ (elements.length ≤ size → ∀ x, x ∈ data ↔ x ∈ elements) := by
  have hmem : ∀ x, x ∈ sort (sparse_cycle elements size) ↔ x ∈ elements.take size := by
    intro x
    rw [mem_sort, mem_sparse_cycle elements size x hne]
  refine ⟨_, create_uniform_sparse_eq fuel size elements hne hfuel, sort_sorted _, ?_, hmem, ?_⟩
  · rw [sort_length, sparse_cycle_length]
  · intro hlen x
    rw [hmem x, List.take_of_length_le hlen]

/-- C10 with seven keys over the elements `[3, 10, 20]`. -/
theorem create_uniform_sparse_elements_witness :
    ([3, 10, 20] ≠ ([] : List Nat) ∧ List.Sorted (fun a b => a < b) [3, 10, 20] ∧ 7 < 8)
    ∧ ∃ data, create_uniform_sparse 8 7 [3, 10, 20] = some data
      ∧ List.Sorted (fun a b => a ≤ b) data
      ∧ data.length = 7
      ∧ (∀ x, x ∈ data ↔ x ∈ [3, 10, 20].take 7)
      ∧ ([3, 10, 20].length ≤ 7 → ∀ x, x ∈ data ↔ x ∈ [3, 10, 20]) :=
  ⟨⟨by decide, by decide, by decide⟩,
   create_uniform_sparse_elements 8 7 [3, 10, 20] (by decide) (by decide)⟩

/-- C10 as stated fails: with `size = 1` and the elements `[1, 2]` the output is `[1]`; the
element `2` is not among its values. -/
theorem create_uniform_sparse_too_short :
    [1, 2] ≠ ([] : List Nat) ∧ List.Sorted (fun a b => a < b) [1, 2]
    ∧ create_uniform_sparse 2 1 [1, 2] = some [1] ∧ 2 ∈ [1, 2] ∧ 2 ∉ [1] := by
  decide

/-! ## The debug block on generated data -/

theorem n_grps_foldl (groups : List group_type) :
    ∀ a : Nat, groups.foldl (fun n _ => (n + 1) % U64) (a % U64) = (a + groups.length) % U64 := by
  induction groups with
  | nil => intro a; simp
  | cons g rest ih =>
    intro a
    simp only [List.foldl_cons, List.length_cons]
    rw [Nat.mod_add_mod, ih (a + 1)]
    congr 1
    omega

theorem n_grps_eq (groups : List group_type) : n_grps groups = groups.length % U64 := by
  have h := n_grps_foldl groups 0
  simpa [n_grps] using h

theorem sum_count_foldl (groups : List group_type) :
    ∀ a : Nat, groups.foldl (fun s g => (s + g.data.count) % U64) (a % U64)
      = (a + (groups.map fun g => g.data.count).sum) % U64 := by
  induction groups with
  | nil => intro a; simp
  | cons g rest ih =>
    intro a
    simp only [List.foldl_cons, List.map_cons, List.sum_cons]
    rw [Nat.mod_add_mod, ih (a + g.data.count)]
    congr 1
    omega

theorem sum_count_eq (groups : List group_type) :
    sum_count groups = (groups.map fun g => g.data.count).sum % U64 := by
  have h := sum_count_foldl groups 0
  simpa [sum_count] using h

/-- A table that lists, in some order, one group per distinct key passes the debug block. -/
theorem debug_ok_of_perm (data : List Nat) (hsize : data.length < U64)
    (groups : List group_type)
    (h : List.Perm groups (data.dedup.map (key_group data))) :
    debug_ok groups data.dedup.length data.length := by
  have hlen : groups.length = data.dedup.length := by
    rw [h.length_eq, List.length_map]
  have hdl : data.dedup.length ≤ data.length := List.Sublist.length_le (List.dedup_sublist data)
  have hcnt : ∀ g ∈ groups, 1 ≤ g.data.count := by
    intro g hg
    obtain ⟨k, hk, rfl⟩ := List.mem_map.1 (h.mem_iff.1 hg)
    simp only [key_group, agg_of, count_mod_U64 data hsize k]
    exact List.count_pos_iff.2 (List.mem_dedup.1 hk)
  have hsum : (groups.map fun g => g.data.count).sum = data.length := by
    rw [(List.Perm.map _ h).sum_eq, List.map_map]
    have h1 : (data.dedup.map ((fun g : group_type => g.data.count) ∘ key_group data))
        = data.dedup.map fun k => data.count k := by
      apply List.map_congr_left
      intro k _
      simp [key_group, agg_of, count_mod_U64 data hsize k]
    rw [h1, List.sum_map_count_dedup_eq_length]
  refine ⟨hlen, hcnt, hsum, ?_, ?_, ?_⟩
  · rw [n_grps_eq, hlen, Nat.mod_eq_of_lt (by omega)]
  · rw [sum_count_eq, hsum, Nat.mod_eq_of_lt hsize]
  · intro g hg
    have := hcnt g hg
    simp only [assert_key]
    rw [if_neg (by omega)]
    simp

theorem debug_ok_hashing (data : List Nat) (num_groups : Nat) (hsize : data.length < U64)
    (hbuckets : num_groups ≤ max_bucket_count) :
    ∃ entries, hashing data num_groups = some entries
      ∧ debug_ok (entries.map entry_group) data.dedup.length data.length :=
  ⟨_, hashing_eq data num_groups hbuckets,
    debug_ok_of_perm data hsize _ (hashing_groups_perm data)⟩

theorem debug_ok_order_based (data : List Nat) (hsize : data.length < U64) (hne : data ≠ [])
    (hsorted : List.Sorted (fun a b => a ≤ b) data) :
    ∃ groups, order_based_grouping data data.dedup.length = some groups
      ∧ debug_ok groups data.dedup.length data.length :=
  ⟨_, order_based_grouping_sorted_eq data _ hne hsorted rfl,
    debug_ok_of_perm data hsize _ (List.Perm.refl _)⟩

theorem debug_ok_sort_and_order_based (data : List Nat) (hsize : data.length < U64)
    (hne : data ≠ []) :
    ∃ groups, sort_and_order_based_grouping data data.dedup.length = some groups
      ∧ debug_ok groups data.dedup.length data.length :=
  ⟨_, sort_and_order_based_grouping_eq data _ hne rfl,
    debug_ok_of_perm data hsize _ (List.Perm.map _ (sort_perm data).dedup)⟩

theorem debug_ok_static_perfect (data : List Nat) (num_groups : Nat)
    (hsize : data.length < U64) (hkeys : ∀ k, k ∈ data ↔ k < num_groups) :
    ∃ groups, static_perfect_hashing data num_groups = some groups
      ∧ debug_ok groups data.dedup.length data.length := by
  refine ⟨_, static_perfect_hashing_eq data num_groups (fun k hk => (hkeys k).1 hk), ?_⟩
  rw [sph_table_full data num_groups (fun k hk => (hkeys k).2 hk)]
  exact debug_ok_of_perm data hsize _ (List.Perm.map _
    (range_perm_dedup data num_groups (fun k hk => (hkeys k).1 hk) (fun k hk => (hkeys k).2 hk)))

theorem debug_ok_binary_search (data elements : List Nat)
    (hsize : data.length < U64) (hsorted : List.Sorted (fun a b => a < b) elements)
    (hkeys : ∀ k, k ∈ data ↔ k ∈ elements) :
    ∃ groups, binary_search data elements.length elements = some groups
      ∧ debug_ok groups data.dedup.length data.length := by
  refine ⟨_, binary_search_eq data elements _ rfl hsorted (fun k hk => (hkeys k).1 hk), ?_⟩
  exact debug_ok_of_perm data hsize _ (List.Perm.map _
    (elements_perm_dedup data elements hsorted.nodup (fun k hk => (hkeys k).1 hk)
      (fun k hk => (hkeys k).2 hk)))

theorem dedup_length_of_mem_iff (data l : List Nat) (hnodup : l.Nodup)
    (h : ∀ k, k ∈ data ↔ k ∈ l) : data.dedup.length = l.length := by
  have hp : List.Perm data.dedup l := by
    rw [List.perm_ext_iff_of_nodup (List.nodup_dedup data) hnodup]
    intro k
    rw [List.mem_dedup, h k]
  exact hp.length_eq

/-- The algorithms applicable to dense data pass the debug block on every rearrangement of
a key array of `size` keys whose keys are exactly those of `[0, num_groups)`. -/
theorem debug_ok_dense (data : List Nat) (size num_groups : Nat) (hsize : size < U64)
    (hpos : 1 ≤ num_groups) (h32 : num_groups ≤ U32) (hlen : data.length = size)
    (hkeys : ∀ k, k ∈ data ↔ k < num_groups) :
    (∃ entries, hashing data num_groups = some entries
        ∧ debug_ok (entries.map entry_group) num_groups size)
    ∧ (∃ groups, sort_and_order_based_grouping data num_groups = some groups
        ∧ debug_ok groups num_groups size)
    ∧ (∃ groups, static_perfect_hashing data num_groups = some groups
        ∧ debug_ok groups num_groups size)
    ∧ (List.Sorted (fun a b => a ≤ b) data →
        ∃ groups, order_based_grouping data num_groups = some groups
          ∧ debug_ok groups num_groups size) := by
  have hd : data.dedup.length = num_groups := by
    rw [dedup_length_of_mem_iff data (List.range num_groups) (List.nodup_range _)
      (fun k => by rw [hkeys k, List.mem_range]), List.length_range]
  have hne : data ≠ [] := by
    intro h
    have := (hkeys 0).2 (by omega)
    rw [h] at this
    exact List.not_mem_nil _ this
  have hs : data.length < U64 := by omega
  have h1 := debug_ok_hashing data num_groups hs (le_trans h32 U32_le_max_bucket_count)
  have h2 := debug_ok_sort_and_order_based data hs hne
  have h3 := debug_ok_static_perfect data num_groups hs hkeys
  rw [hd, hlen] at h1 h2 h3
  refine ⟨h1, h2, h3, ?_⟩
  intro hsorted
  have h4 := debug_ok_order_based data hs hne hsorted
  rw [hd, hlen] at h4
  exact h4

/-- The algorithms applicable to sparse data pass the debug block on every rearrangement
of a key array of `size` keys whose keys are exactly the `elements`. -/
theorem debug_ok_sparse (data elements : List Nat) (size : Nat) (hsize : size < U64)
    (hne : elements ≠ []) (hsorted : List.Sorted (fun a b => a < b) elements)
    (h32 : ∀ e ∈ elements, e < U32)
    (hlen : data.length = size) (hkeys : ∀ k, k ∈ data ↔ k ∈ elements) :
    (∃ entries, hashing data elements.length = some entries
        ∧ debug_ok (entries.map entry_group) elements.length size)
    ∧ (∃ groups, sort_and_order_based_grouping data elements.length = some groups
        ∧ debug_ok groups elements.length size)
    ∧ (∃ groups, binary_search data elements.length elements = some groups
        ∧ debug_ok groups elements.length size)
    ∧ (List.Sorted (fun a b => a ≤ b) data →
        ∃ groups, order_based_grouping data elements.length = some groups
          ∧ debug_ok groups elements.length size) := by
  have hd : data.dedup.length = elements.length :=
    dedup_length_of_mem_iff data elements hsorted.nodup hkeys
  have hne2 : data ≠ [] := by
    intro h
    obtain ⟨e, he⟩ := List.exists_mem_of_ne_nil elements hne
    have := (hkeys e).2 he
    rw [h] at this
    exact List.not_mem_nil _ this
  have hs : data.length < U64 := by omega
  have h1 := debug_ok_hashing data elements.length hs
    (le_trans (length_le_U32_of_sorted elements hsorted h32) U32_le_max_bucket_count)
  have h2 := debug_ok_sort_and_order_based data hs hne2
  have h3 := debug_ok_binary_search data elements hs hsorted hkeys
  rw [hd, hlen] at h1 h2
  rw [hd, hlen] at h3
  refine ⟨h1, h2, h3, ?_⟩
  intro hsorted2
  have h4 := debug_ok_order_based data hs hne2 hsorted2
  rw [hd, hlen] at h4
  exact h4

/-- C6 (amended): for every `size` and `num_groups` with `1 <= num_groups <= size`
(`size` a `std::size_t`): when moreover `num_groups <= 2^32`, on every permutation `data`
of `create_uniform_dense(size, num_groups)`, `hashing`, `sort_and_order_based_grouping`
and `static_perfect_hashing`, and on a sorted one also `order_based_grouping`, end without
an access outside the table and with exactly `num_groups` groups, each with count at least
1 (no division by zero in the assertion), whose counts add up to `size`, so that
`n_grps == num_groups` and `sum_count == size` hold; and for every strictly increasing
vector `elements` of 32-bit keys of length `num_groups` the same holds on every permutation
of `create_uniform_sparse(size, elements)` for `hashing`, `sort_and_order_based_grouping`,
`binary_search` and, on a sorted one, `order_based_grouping`. -/
theorem generated_data_debug_ok (fuel size num_groups : Nat) (hsize : size < U64)
    (hpos : 1 ≤ num_groups) (hle : num_groups ≤ size) (hfuel : size < fuel) :
    (num_groups ≤ U32 →
      ∃ dense, create_uniform_dense fuel size num_groups = some dense
        ∧ List.Sorted (fun a b => a ≤ b) dense
        ∧ ∀ data, List.Perm data dense →
            (∃ entries, hashing data num_groups = some entries
                ∧ debug_ok (entries.map entry_group) num_groups size)
            ∧ (∃ groups, sort_and_order_based_grouping data num_groups = some groups
                ∧ debug_ok groups num_groups size)
            ∧ (∃ groups, static_perfect_hashing data num_groups = some groups
                ∧ debug_ok groups num_groups size)
            ∧ (List.Sorted (fun a b => a ≤ b) data →
                ∃ groups, order_based_grouping data num_groups = some groups
                  ∧ debug_ok groups num_groups size))
    ∧ (∀ elements, List.Sorted (fun a b => a < b) elements → (∀ e ∈ elements, e < U32) →
      elements.length = num_groups →
      ∃ sparse, create_uniform_sparse fuel size elements = some sparse
        ∧ List.Sorted (fun a b => a ≤ b) sparse
        ∧ ∀ data, List.Perm data sparse →
            (∃ entries, hashing data num_groups = some entries
                ∧ debug_ok (entries.map entry_group) num_groups size)
            ∧ (∃ groups, sort_and_order_based_grouping data num_groups = some groups
                ∧ debug_ok groups num_groups size)
            ∧ (∃ groups, binary_search data num_groups elements = some groups
                ∧ debug_ok groups num_groups size)
            ∧ (List.Sorted (fun a b => a ≤ b) data →
                ∃ groups, order_based_grouping data num_groups = some groups
                  ∧ debug_ok groups num_groups size)) := by
  constructor
  · intro h32
    refine ⟨_, create_uniform_dense_eq fuel size num_groups hpos hfuel, sort_sorted _, ?_⟩
    intro data hperm
    apply debug_ok_dense data size num_groups hsize hpos h32
    · rw [hperm.length_eq, sort_length, dense_cycle_length]
    · intro k
      rw [hperm.mem_iff, mem_sort, mem_dense_cycle _ _ _ hpos, Nat.min_eq_left h32,
        Nat.min_eq_right hle]
  · intro elements hsorted helts hlen
    have hne : elements ≠ [] := by
      intro h
      rw [h] at hlen
      simp at hlen
      omega
    refine ⟨_, create_uniform_sparse_eq fuel size elements hne hfuel, sort_sorted _, ?_⟩
    intro data hperm
    rw [← hlen]
    apply debug_ok_sparse data elements size hsize hne hsorted helts
    · rw [hperm.length_eq, sort_length, sparse_cycle_length]
    · intro k
      rw [hperm.mem_iff, mem_sort, mem_sparse_cycle _ _ _ hne,
        List.take_of_length_le (by omega)]

/-- C6 with seven keys over three groups, dense and over the elements `[3, 10, 20]`. -/
theorem generated_data_debug_ok_witness :
    (7 < U64 ∧ 1 ≤ 3 ∧ 3 ≤ 7 ∧ 7 < 8 ∧ 3 ≤ U32
      ∧ List.Sorted (fun a b => a < b) [3, 10, 20] ∧ (∀ e ∈ [3, 10, 20], e < U32)
      ∧ [3, 10, 20].length = 3)
    ∧ (∃ dense, create_uniform_dense 8 7 3 = some dense
        ∧ List.Sorted (fun a b => a ≤ b) dense
        ∧ ∀ data, List.Perm data dense →
            (∃ entries, hashing data 3 = some entries
                ∧ debug_ok (entries.map entry_group) 3 7)
            ∧ (∃ groups, sort_and_order_based_grouping data 3 = some groups
                ∧ debug_ok groups 3 7)
            ∧ (∃ groups, static_perfect_hashing data 3 = some groups
                ∧ debug_ok groups 3 7)
            ∧ (List.Sorted (fun a b => a ≤ b) data →
                ∃ groups, order_based_grouping data 3 = some groups
                  ∧ debug_ok groups 3 7))
    ∧ (∃ sparse, create_uniform_sparse 8 7 [3, 10, 20] = some sparse
        ∧ List.Sorted (fun a b => a ≤ b) sparse
        ∧ ∀ data, List.Perm data sparse →
            (∃ entries, hashing data 3 = some entries
                ∧ debug_ok (entries.map entry_group) 3 7)
            ∧ (∃ groups, sort_and_order_based_grouping data 3 = some groups
                ∧ debug_ok groups 3 7)
            ∧ (∃ groups, binary_search data 3 [3, 10, 20] = some groups
                ∧ debug_ok groups 3 7)
            ∧ (List.Sorted (fun a b => a ≤ b) data →
                ∃ groups, order_based_grouping data 3 = some groups
                  ∧ debug_ok groups 3 7)) :=
  ⟨⟨by decide, by decide, by decide, by decide, by decide, by decide, by decide, by decide⟩,
   (generated_data_debug_ok 8 7 3 (by decide) (by decide) (by decide) (by decide)).1
     (by decide),
   (generated_data_debug_ok 8 7 3 (by decide) (by decide) (by decide) (by decide)).2
     [3, 10, 20] (by decide) (by decide) (by decide)⟩

/-- C6 as stated fails: with `size = num_groups = 2^32 + 1` the loop index is truncated
when stored as a 32-bit key, the output of `create_uniform_dense` holds only `2^32`
distinct keys, and `hashing` ends with `2^32` groups, so `n_grps == num_groups` fails. -/
theorem generated_data_truncated :
    (1 ≤ 4294967297 ∧ 4294967297 ≤ 4294967297 ∧ 4294967297 < U64)
    ∧ ∃ dense entries, create_uniform_dense 4294967298 4294967297 4294967297 = some dense
      ∧ hashing dense 4294967297 = some entries
      ∧ (entries.map entry_group).length = 4294967296
      ∧ n_grps (entries.map entry_group) = 4294967296
      ∧ 4294967296 ≠ 4294967297 := by
  have hlen : ((hashing_scan (sort (dense_cycle 4294967297 4294967297)) []).map
      entry_group).length = 4294967296 := by
    rw [(hashing_groups_perm _).length_eq, List.length_map, sort_dedup_length,
      dense_cycle_dedup_length _ _ (by norm_num)]
    norm_num [U32]
  refine ⟨⟨by norm_num, le_refl _, by norm_num [U64]⟩, _, _,
    create_uniform_dense_eq _ _ _ (by norm_num) (by norm_num),
    hashing_eq _ _ (by norm_num [max_bucket_count, U64]), hlen, ?_, by norm_num⟩
  rw [n_grps_eq, hlen]
  norm_num [U64]

/-! ## No wrap below `2^32` keys -/

theorem exact_of_agg (data : List Nat) (k : Nat) (g : group_type)
    (h32 : ∀ x ∈ data, x < U32) (hsize : data.length < U32)
    (hk : k ∈ data) (hkey : g.key = some k) (hdata : g.data = agg_of k (data.count k)) :
    exact_group data g := by
  have hc1 : 0 < data.count k := List.count_pos_iff.2 hk
  have hc2 : data.count k < U32 := lt_of_le_of_lt (List.count_le_length k data) hsize
  have hk32 : k < U32 := h32 k hk
  have hprod : k * data.count k < U64 := by
    have : k * data.count k < U32 * U32 := Nat.mul_lt_mul'' hk32 hc2
    simpa [U32, U64] using this
  have hcount : g.data.count = data.count k := by
    rw [hdata]
    simp only [agg_of]
    exact Nat.mod_eq_of_lt (lt_trans hc2 (by norm_num [U32, U64]))
  have hsum : g.data.sum = k * data.count k := by
    rw [hdata]
    simp only [agg_of]
    exact Nat.mod_eq_of_lt hprod
  have hdiv : g.data.sum / g.data.count = k := by
    rw [hsum, hcount]
    exact Nat.mul_div_cancel k hc1
  have hassert : assert_key g = some true := by
    simp only [assert_key]
    rw [if_neg (by omega), hdiv, hkey]
    simp
  simp only [exact_group, hkey]
  exact ⟨hcount, by rw [hsum, hcount], hdiv, hassert⟩

theorem agg_of_count_pos (data : List Nat) (k : Nat) (h : 0 < (agg_of k (data.count k)).count) :
    k ∈ data := by
  by_contra hk
  rw [List.count_eq_zero_of_not_mem hk] at h
  simp [agg_of] at h

/-- C7: on a key array of 32-bit keys with `size < 2^32`, each of `order_based_grouping`,
`hashing`, `static_perfect_hashing` and `binary_search` returns under its precondition
(for `hashing`: a bucket count the map can be given), and every group with `count > 0`
that it produces has a key `k`, `count` = number of occurrences of `k`,
`sum = k * count` in exact arithmetic (nothing has wrapped modulo `2^64`), and the integer
quotient `sum / count` equals `k`, so the assertion `sum / count == key` holds. -/
theorem sum_div_count_eq_key (data : List Nat) (num_groups : Nat)
    (h32 : ∀ x ∈ data, x < U32) (hsize : data.length < U32) :
    (data ≠ [] → List.Sorted (fun a b => a ≤ b) data → data.dedup.length = num_groups →
      ∃ groups, order_based_grouping data num_groups = some groups
        ∧ ∀ g ∈ groups, 0 < g.data.count → exact_group data g)
    ∧ (num_groups ≤ max_bucket_count →
      ∃ entries, hashing data num_groups = some entries
        ∧ ∀ g ∈ entries.map entry_group, 0 < g.data.count → exact_group data g)
    ∧ ((∀ k ∈ data, k < num_groups) →
      ∃ groups, static_perfect_hashing data num_groups = some groups
        ∧ ∀ g ∈ groups, 0 < g.data.count → exact_group data g)
    ∧ (∀ elements, List.Sorted (fun a b => a < b) elements → elements.length = num_groups →
      (∀ k ∈ data, k ∈ elements) →
      ∃ groups, binary_search data num_groups elements = some groups
        ∧ ∀ g ∈ groups, 0 < g.data.count → exact_group data g) := by
  refine ⟨?_, ?_, ?_, ?_⟩
  · intro hne hsorted hgroups
    refine ⟨_, order_based_grouping_sorted_eq data num_groups hne hsorted hgroups, ?_⟩
    intro g hg _
    obtain ⟨k, hk, rfl⟩ := List.mem_map.1 hg
    exact exact_of_agg data k _ h32 hsize (List.mem_dedup.1 hk) rfl rfl
  · intro hbuckets
    refine ⟨_, hashing_eq data num_groups hbuckets, ?_⟩
    intro g hg _
    obtain ⟨k, hk, rfl⟩ := List.mem_map.1 ((hashing_groups_perm data).mem_iff.1 hg)
    exact exact_of_agg data k _ h32 hsize (List.mem_dedup.1 hk) rfl rfl
  · intro hkeys
    refine ⟨_, static_perfect_hashing_eq data num_groups hkeys, ?_⟩
    intro g hg hpos
    obtain ⟨k, _, rfl⟩ := List.mem_map.1 hg
    have hk : k ∈ data := agg_of_count_pos data k hpos
    exact exact_of_agg data k _ h32 hsize hk (by simp [sph_slot, hk]) rfl
  · intro elements hsorted hlen hkeys
    refine ⟨_, binary_search_eq data elements num_groups hlen hsorted hkeys, ?_⟩
    intro g hg hpos
    obtain ⟨k, _, rfl⟩ := List.mem_map.1 hg
    have hk : k ∈ data := agg_of_count_pos data k hpos
    exact exact_of_agg data k _ h32 hsize hk rfl rfl

/-- C7 on the key array `[0,0,1,2,2]`, which meets the precondition of all four
algorithms with three groups and the elements `[0,1,2]`. -/
theorem sum_div_count_eq_key_witness :
    ((∀ x ∈ [0, 0, 1, 2, 2], x < U32) ∧ [0, 0, 1, 2, 2].length < U32
      ∧ ([0, 0, 1, 2, 2] : List Nat) ≠ [] ∧ List.Sorted (fun a b => a ≤ b) [0, 0, 1, 2, 2]
      ∧ [0, 0, 1, 2, 2].dedup.length = 3 ∧ (∀ k ∈ [0, 0, 1, 2, 2], k < 3)
      ∧ List.Sorted (fun a b => a < b) [0, 1, 2] ∧ [0, 1, 2].length = 3
      ∧ (∀ k ∈ [0, 0, 1, 2, 2], k ∈ [0, 1, 2]) ∧ 3 ≤ max_bucket_count)
    ∧ (∃ groups, order_based_grouping [0, 0, 1, 2, 2] 3 = some groups
        ∧ ∀ g ∈ groups, 0 < g.data.count → exact_group [0, 0, 1, 2, 2] g)
    ∧ (∃ entries, hashing [0, 0, 1, 2, 2] 3 = some entries
        ∧ ∀ g ∈ entries.map entry_group, 0 < g.data.count → exact_group [0, 0, 1, 2, 2] g)
    ∧ (∃ groups, static_perfect_hashing [0, 0, 1, 2, 2] 3 = some groups
        ∧ ∀ g ∈ groups, 0 < g.data.count → exact_group [0, 0, 1, 2, 2] g)
    ∧ (∃ groups, binary_search [0, 0, 1, 2, 2] 3 [0, 1, 2] = some groups
        ∧ ∀ g ∈ groups, 0 < g.data.count → exact_group [0, 0, 1, 2, 2] g) :=
  ⟨⟨by decide, by decide, by decide, by decide, by decide, by decide, by decide, by decide,
      by decide, by decide⟩,
   (sum_div_count_eq_key [0, 0, 1, 2, 2] 3 (by decide) (by decide)).1
     (by decide) (by decide) (by decide),
   (sum_div_count_eq_key [0, 0, 1, 2, 2] 3 (by decide) (by decide)).2.1 (by decide),
   (sum_div_count_eq_key [0, 0, 1, 2, 2] 3 (by decide) (by decide)).2.2.1 (by decide),
   (sum_div_count_eq_key [0, 0, 1, 2, 2] 3 (by decide) (by decide)).2.2.2
     [0, 1, 2] (by decide) (by decide) (by decide)⟩

/-! ## `std::shuffle` rearranges -/

theorem swap_at_perm (data : List Nat) (i j : Nat) : List.Perm (swap_at data i j) data := by
  unfold swap_at
  cases hi : data[i]? with
  | none => exact List.Perm.refl _
  | some a =>
    cases hj : data[j]? with
    | none => exact List.Perm.refl _
    | some b =>
      simp only []
      obtain ⟨hi1, hi2⟩ := List.getElem?_eq_some.1 hi
      obtain ⟨hj1, hj2⟩ := List.getElem?_eq_some.1 hj
      rw [List.perm_iff_count]
      intro x
      have hj3 : j < (data.set i b).length := by rw [List.length_set]; exact hj1
      have hget : (data.set i b)[j] = b := by
        rw [List.getElem_set]
        split
        · rfl
        · exact hj2
      rw [List.count_set a x _ j hj3, List.count_set b x data i hi1, hget, hi2]
      have hpos : (if (a == x) = true then 1 else 0) ≤ data.count x := by
        split
        · rename_i h
          have hax : a = x := by simpa using h
          have : x ∈ data := by rw [← hax, ← hi2]; exact List.getElem_mem hi1
          exact List.count_pos_iff.2 this
        · exact Nat.zero_le _
      omega

theorem shuffle_loop_perm :
    ∀ (steps i : Nat) (g : Nat → Nat) (data : List Nat),
      List.Perm (shuffle_loop steps i g data) data := by
  intro steps
  induction steps with
  | zero => intro i g data; exact List.Perm.refl _
  | succ steps ih =>
    intro i g data
    exact (ih (i + 1) _ _).trans (swap_at_perm data i _)

theorem shuffle_perm (g : Nat → Nat) (data : List Nat) : List.Perm (shuffle g data) data :=
  shuffle_loop_perm _ _ _ _

theorem sort_eq_of_perm (data data2 : List Nat) (h : List.Perm data2 data) :
    sort data2 = sort data :=
  List.eq_of_perm_of_sorted ((sort_perm data2).trans (h.trans (sort_perm data).symm))
    (sort_sorted data2) (sort_sorted data)

theorem sort_shuffle (g : Nat → Nat) (data : List Nat) : sort (shuffle g data) = sort data :=
  sort_eq_of_perm data _ (shuffle_perm g data)

theorem sort_sort (data : List Nat) : sort (sort data) = sort data :=
  sort_eq_of_perm data _ (sort_perm data)

theorem sparse_fill_some (fuel size : Nat) (vec : List Nat) (hne : vec ≠ [])
    (hfuel : size < fuel) : sparse_fill size vec fuel [] = some (sparse_cycle vec size) := by
  have h := sparse_fill_eq size vec hne fuel 0 (Nat.zero_le _) (Or.inl (dvd_zero _)) (by omega)
  have h0 : sparse_cycle vec 0 = [] := by simp [sparse_cycle]
  rw [h0] at h
  exact h

/-- C11: with `std::shuffle` applying the rearrangement that the generator `g` chooses, for
every `size`, `num_groups`, `vec`, generator and amount of fuel, sorting the output of
`create_uniform_dense_shuffled` gives the output of `create_uniform_dense`, and sorting
the output of `create_uniform_sparse_shuffled` gives the output of
`create_uniform_sparse`; for `num_groups >= 1`, a non-empty `vec` and more than `size`
rounds of fuel all four outputs exist, and each shuffled output is a rearrangement of the
sorted one (same multiset of keys). -/
theorem shuffled_round_trip (fuel size num_groups : Nat) (vec : List Nat) (g : Nat → Nat)
    (hpos : 1 ≤ num_groups) (hvec : vec ≠ []) (hfuel : size < fuel) :
    (create_uniform_dense_shuffled fuel size num_groups g).map sort
        = create_uniform_dense fuel size num_groups
    ∧ (create_uniform_sparse_shuffled fuel size vec g).map sort
        = create_uniform_sparse fuel size vec
    ∧ (∃ shuffled sorted, create_uniform_dense_shuffled fuel size num_groups g = some shuffled
        ∧ create_uniform_dense fuel size num_groups = some sorted
        ∧ sort shuffled = sorted ∧ List.Perm shuffled sorted)
    ∧ (∃ shuffled sorted, create_uniform_sparse_shuffled fuel size vec g = some shuffled
        ∧ create_uniform_sparse fuel size vec = some sorted
        ∧ sort shuffled = sorted ∧ List.Perm shuffled sorted) := by
  have hd := create_uniform_dense_eq fuel size num_groups hpos hfuel
  have hs := create_uniform_sparse_eq fuel size vec hvec hfuel
  have hf := sparse_fill_some fuel size vec hvec hfuel
  refine ⟨?_, ?_, ?_, ?_⟩
  · simp only [create_uniform_dense_shuffled, hd, Option.map_some', sort_shuffle, sort_sort]
  · simp only [create_uniform_sparse_shuffled, hf, hs, Option.map_some', sort_shuffle]
  · refine ⟨_, _, by simp only [create_uniform_dense_shuffled, hd, Option.map_some'], hd, ?_,
      shuffle_perm g _⟩
    rw [sort_shuffle, sort_sort]
  · refine ⟨_, _, by simp only [create_uniform_sparse_shuffled, hf, Option.map_some'], hs, ?_,
      (shuffle_perm g _).trans (sort_perm _).symm⟩
    rw [sort_shuffle]

/-- The round trip holds whatever the arguments, also when the fill loops do not finish
within the fuel (then no output exists on either side). -/
theorem shuffled_round_trip_option (fuel size num_groups : Nat) (vec : List Nat)
    (g : Nat → Nat) :
    (create_uniform_dense_shuffled fuel size num_groups g).map sort
        = create_uniform_dense fuel size num_groups
    ∧ (create_uniform_sparse_shuffled fuel size vec g).map sort
        = create_uniform_sparse fuel size vec := by
  constructor
  · simp only [create_uniform_dense_shuffled, create_uniform_dense, Option.map_map]
    cases dense_fill size num_groups fuel [] with
    | none => rfl
    | some buf => simp [sort_shuffle, sort_sort]
  · simp only [create_uniform_sparse_shuffled, create_uniform_sparse, Option.map_map]
    cases sparse_fill size vec fuel [] with
    | none => rfl
    | some buf => simp [sort_shuffle]

/-- C11 with seven keys, three groups, the elements `[3, 10, 20]` and the generator
yielding `3, 10, 17, ...`. -/
theorem shuffled_round_trip_witness :
    (1 ≤ 3 ∧ [3, 10, 20] ≠ ([] : List Nat) ∧ 7 < 8)
    ∧ (create_uniform_dense_shuffled 8 7 3 (fun i => i * 7 + 3)).map sort
        = create_uniform_dense 8 7 3
    ∧ (create_uniform_sparse_shuffled 8 7 [3, 10, 20] (fun i => i * 7 + 3)).map sort
        = create_uniform_sparse 8 7 [3, 10, 20]
    ∧ (∃ shuffled sorted,
        create_uniform_dense_shuffled 8 7 3 (fun i => i * 7 + 3) = some shuffled
        ∧ create_uniform_dense 8 7 3 = some sorted
        ∧ sort shuffled = sorted ∧ List.Perm shuffled sorted)
    ∧ (∃ shuffled sorted,
        create_uniform_sparse_shuffled 8 7 [3, 10, 20] (fun i => i * 7 + 3) = some shuffled
        ∧ create_uniform_sparse 8 7 [3, 10, 20] = some sorted
        ∧ sort shuffled = sorted ∧ List.Perm shuffled sorted) :=
  ⟨⟨by decide, by decide, by decide⟩,
   shuffled_round_trip 8 7 3 [3, 10, 20] (fun i => i * 7 + 3) (by decide) (by decide)
     (by decide)⟩

/-! ## The progression of `num_groups` -/

theorem inc_num_groups_exact (n : Nat) (h : n < U64 - 1000) :
    inc_num_groups n
      = if n < 100 then n + 1 else if n < 1000 then n + 10
        else if n < 10000 then n + 100 else n + 1000 := by
  simp only [inc_num_groups, U64] at *
  norm_num at h ⊢
  split_ifs <;> omega

theorem progression_loop_mono :
    ∀ (fuel num_groups : Nat) (l : List Nat), progression_loop fuel num_groups = some l →
      progression_loop (fuel + 1) num_groups = some l := by
  intro fuel
  induction fuel with
  | zero => intro n l h; simp [progression_loop] at h
  | succ fuel ih =>
    intro n l h
    rw [progression_loop] at h ⊢
    by_cases hn : n ≤ MAX_GROUPS
    · simp only [hn, if_true] at h ⊢
      cases hrest : progression_loop fuel (inc_num_groups n) with
      | none => rw [hrest] at h; simp at h
      | some rest =>
        rw [hrest] at h
        rw [ih _ _ hrest]
        exact h
    · simp only [hn, if_false] at h ⊢
      exact h

theorem progression_loop_mono_le (fuel fuel2 num_groups : Nat) (l : List Nat)
    (hle : fuel ≤ fuel2) (h : progression_loop fuel num_groups = some l) :
    progression_loop fuel2 num_groups = some l := by
  induction hle with
  | refl => exact h
  | step _ ih => exact progression_loop_mono _ _ _ ih

set_option maxRecDepth 20000 in
theorem progression_311 : progression 311 = some progression_values := by
  decide

set_option maxRecDepth 20000 in
theorem progression_310 : progression 310 = none := by
  decide

theorem progression_loop_none_mono :
    ∀ (fuel num_groups : Nat), progression_loop (fuel + 1) num_groups = none →
      progression_loop fuel num_groups = none := by
  intro fuel n h
  cases hl : progression_loop fuel n with
  | none => rfl
  | some l => rw [progression_loop_mono fuel n l hl] at h; simp at h

theorem progression_le_310 (fuel : Nat) (h : fuel ≤ 310) : progression fuel = none := by
  have key : ∀ d, progression (310 - d) = none := by
    intro d
    induction d with
    | zero => exact progression_310
    | succ d ih =>
      by_cases hd : d < 310
      · have e : 310 - d = (310 - (d + 1)) + 1 := by omega
        rw [e] at ih
        exact progression_loop_none_mono _ _ ih
      · have e : 310 - (d + 1) = 310 - d := by omega
        rw [e]; exact ih
  have := key (310 - fuel)
  have e : 310 - (310 - fuel) = fuel := by omega
  rw [e] at this
  exact this

set_option maxRecDepth 20000 in
theorem progression_values_facts :
    progression_values.length = 310 ∧ progression_values.head? = some 1
    ∧ progression_values.getLast? = some 40000 ∧ progression_values.Nodup := by
  decide

/-- C12 (amended): `inc_num_groups(n)` equals `n+1` for `n < 100`, `n+10` for
`100 <= n < 1000`, `n+100` for `1000 <= n < 10000` and `n+1000` otherwise, as long as
`n < 2^64 - 1000` (the `std::size_t` sum does not wrap), and on that range it is strictly
increasing; iterating it from 1 while `num_groups <= MAX_GROUPS` terminates (311 tests of
the loop condition are enough and needed) and visits exactly the 310 values `1..99` by 1,
`100..990` by 10, `1000..9900` by 100 and `10000..40000` by 1000, the last one being
40000. -/
theorem inc_num_groups_progression (fuel : Nat) (hfuel : 311 ≤ fuel) :
    (∀ n, n < U64 - 1000 →
      inc_num_groups n
        = if n < 100 then n + 1 else if n < 1000 then n + 10
          else if n < 10000 then n + 100 else n + 1000)
    ∧ (∀ n, n < U64 - 1000 → n < inc_num_groups n)
    ∧ (∀ m n, m < n → n < U64 - 1000 → inc_num_groups m < inc_num_groups n)
    ∧ progression fuel = some progression_values
    ∧ (∀ fuel2, fuel2 ≤ 310 → progression fuel2 = none)
    ∧ progression_values.length = 310
    ∧ progression_values.getLast? = some 40000 := by
  refine ⟨inc_num_groups_exact, ?_, ?_,
    progression_loop_mono_le 311 fuel 1 _ hfuel progression_311, progression_le_310,
    progression_values_facts.1, progression_values_facts.2.2.1⟩
  · intro n h
    rw [inc_num_groups_exact n h]
    split_ifs <;> omega
  · intro m n hmn h
    have hm : m < U64 - 1000 := lt_trans hmn h
    rw [inc_num_groups_exact n h, inc_num_groups_exact m hm]
    split_ifs <;> omega

/-- C12 with 311 tests of the loop condition. -/
theorem inc_num_groups_progression_witness :
    311 ≤ 311
    ∧ (∀ n, n < U64 - 1000 →
      inc_num_groups n
        = if n < 100 then n + 1 else if n < 1000 then n + 10
          else if n < 10000 then n + 100 else n + 1000)
    ∧ (∀ n, n < U64 - 1000 → n < inc_num_groups n)
    ∧ (∀ m n, m < n → n < U64 - 1000 → inc_num_groups m < inc_num_groups n)
    ∧ progression 311 = some progression_values
    ∧ (∀ fuel2, fuel2 ≤ 310 → progression fuel2 = none)
    ∧ progression_values.length = 310
    ∧ progression_values.getLast? = some 40000 :=
  ⟨le_refl _, inc_num_groups_progression 311 (le_refl _)⟩

/-- C12 as stated fails: for `n = 2^64 - 1` the `std::size_t` sum wraps, `inc_num_groups`
returns 999, which is neither `n + 1000` nor larger than `n`. -/
theorem inc_num_groups_wraps :
    18446744073709551615 < U64
    ∧ inc_num_groups 18446744073709551615 = 999
    ∧ 999 ≠ 18446744073709551615 + 1000
    ∧ ¬ (18446744073709551615 < inc_num_groups 18446744073709551615) := by
  decide

/-! ## The timed runs -/

theorem run_once_foldl_out (Q : algorithm) (S : sortedness) (D : density) (num_groups : Nat)
    (is : List Nat) :
    ∀ st : driver_state,
      (is.foldl (run_once Q S D num_groups) st).out
          = st.out ++ is.map (fun i =>
              ({ groups := num_groups, order := S, dens := D, alg := Q, num_run := i } : row)) := by
  induction is with
  | nil => intro st; simp
  | cons i is ih =>
    intro st
    simp only [List.foldl_cons, ih]
    simp [run_once]

theorem run_once_foldl (Q : algorithm) (S : sortedness) (D : density) (num_groups : Nat)
    (hQ : Q ≠ algorithm.sort_and_order_based_grouping) (is : List Nat) :
    ∀ st : driver_state,
      (is.foldl (run_once Q S D num_groups) st).data = st.data
      ∧ (is.foldl (run_once Q S D num_groups) st).copy_data = st.copy_data
      ∧ (is.foldl (run_once Q S D num_groups) st).calls
          = st.calls ++ List.replicate is.length (Q, st.data) := by
  have heff : ∀ buf, call_effect Q buf = buf := by
    intro buf
    cases Q <;> first | rfl | exact absurd rfl hQ
  induction is with
  | nil => intro st; simp
  | cons i is ih =>
    intro st
    obtain ⟨h1, h2, h3⟩ := ih (run_once Q S D num_groups st i)
    simp only [List.foldl_cons, h1, h2, h3]
    simp [run_once, heff, List.replicate_succ]

theorem run_sog_once_foldl (Q : algorithm) (S : sortedness) (D : density) (num_groups : Nat)
    (is : List Nat) :
    ∀ st : driver_state,
      (is.foldl (run_sog_once Q S D num_groups) st).data = st.data
      ∧ (is.foldl (run_sog_once Q S D num_groups) st).copy_data
          = (if is = [] then st.copy_data else call_effect Q st.data)
      ∧ (is.foldl (run_sog_once Q S D num_groups) st).out
          = st.out ++ is.map (fun i =>
              ({ groups := num_groups, order := S, dens := D, alg := Q, num_run := i } : row))
      ∧ (is.foldl (run_sog_once Q S D num_groups) st).calls
          = st.calls ++ List.replicate is.length (Q, st.data) := by
  induction is with
  | nil => intro st; simp
  | cons i is ih =>
    intro st
    obtain ⟨h1, h2, h3, h4⟩ := ih (run_sog_once Q S D num_groups st i)
    simp only [List.foldl_cons, h1, h2, h3, h4]
    refine ⟨by simp [run_sog_once], ?_, by simp [run_sog_once],
      by simp [run_sog_once, List.replicate_succ]⟩
    by_cases hnil : is = []
    · simp [hnil, run_sog_once]
    · simp [hnil, run_sog_once]

theorem RUN_out (Q : algorithm) (S : sortedness) (D : density) (num_groups : Nat)
    (st : driver_state) :
    (RUN Q S D num_groups st).out
      = st.out ++ (List.range NUM_RUNS).map (fun i =>
          ({ groups := num_groups, order := S, dens := D, alg := Q, num_run := i } : row)) :=
  run_once_foldl_out Q S D num_groups _ st

theorem RUN_BSG_out (Q : algorithm) (S : sortedness) (D : density) (num_groups : Nat)
    (st : driver_state) :
    (RUN_BSG Q S D num_groups st).out
      = st.out ++ (List.range NUM_RUNS).map (fun i =>
          ({ groups := num_groups, order := S, dens := D, alg := Q, num_run := i } : row)) :=
  run_once_foldl_out Q S D num_groups _ st

theorem RUN_SOG_out (Q : algorithm) (S : sortedness) (D : density) (num_groups : Nat)
    (st : driver_state) :
    (RUN_SOG Q S D num_groups st).out
      = st.out ++ (List.range NUM_RUNS).map (fun i =>
          ({ groups := num_groups, order := S, dens := D, alg := Q, num_run := i } : row)) :=
  (run_sog_once_foldl Q S D num_groups _ st).2.2.1

theorem config_runs_out (num_groups : Nat) (d : datasets) (st : driver_state) :
    (config_runs num_groups d st).out = st.out ++ matrix_rows num_groups := by
  simp only [config_runs, RUN_out, RUN_BSG_out, RUN_SOG_out, matrix_rows, matrix,
    List.flatMap_cons, List.flatMap_nil, List.append_assoc, List.append_nil]

theorem main_loop_out (gen : Nat → datasets) :
    ∀ (fuel num_groups : Nat) (st : driver_state) (l : List Nat),
      progression_loop fuel num_groups = some l →
      ∃ st2, main_loop gen fuel num_groups st = some st2
        ∧ st2.out = st.out ++ l.flatMap matrix_rows := by
  intro fuel
  induction fuel with
  | zero => intro n st l h; simp [progression_loop] at h
  | succ fuel ih =>
    intro n st l h
    rw [progression_loop] at h
    rw [main_loop]
    by_cases hn : n ≤ MAX_GROUPS
    · simp only [hn, if_true] at h ⊢
      cases hrest : progression_loop fuel (inc_num_groups n) with
      | none => rw [hrest] at h; simp at h
      | some rest =>
        rw [hrest] at h
        have hl : l = n :: rest := by simpa using h.symm
        obtain ⟨st2, h1, h2⟩ := ih (inc_num_groups n) (config_runs n (gen n) st) rest hrest
        refine ⟨st2, h1, ?_⟩
        rw [h2, config_runs_out, hl, List.flatMap_cons, List.append_assoc]
    · simp only [hn, if_false] at h ⊢
      have hl : l = [] := by simpa using h.symm
      exact ⟨st, rfl, by simp [hl]⟩

theorem main_loop_none (gen : Nat → datasets) :
    ∀ (fuel num_groups : Nat) (st : driver_state),
      progression_loop fuel num_groups = none → main_loop gen fuel num_groups st = none := by
  intro fuel
  induction fuel with
  | zero => intro n st _; rfl
  | succ fuel ih =>
    intro n st h
    rw [progression_loop] at h
    rw [main_loop]
    by_cases hn : n ≤ MAX_GROUPS
    · simp only [hn, if_true] at h ⊢
      apply ih
      cases hrest : progression_loop fuel (inc_num_groups n) with
      | none => rfl
      | some rest => rw [hrest] at h; simp at h
    · simp only [hn, if_false] at h
      simp at h

theorem driver_rows_eq (gen : Nat → datasets) (fuel : Nat) (hfuel : 311 ≤ fuel) :
    driver_rows gen fuel = some (progression_values.flatMap matrix_rows) := by
  have hp : progression_loop fuel 1 = some progression_values :=
    progression_loop_mono_le 311 fuel 1 _ hfuel progression_311
  obtain ⟨st2, h1, h2⟩ := main_loop_out gen fuel 1
    { data := [], copy_data := [], out := [], calls := [] } _ hp
  simp only [driver_rows, h1, Option.map_some', h2, List.nil_append]

/-! ## The rows of a full run -/

theorem mem_matrix_rows (num_groups : Nat) (r : row) :
    r ∈ matrix_rows num_groups
      ↔ r.groups = num_groups ∧ (r.order, r.dens, r.alg) ∈ matrix ∧ r.num_run < NUM_RUNS := by
  simp only [matrix_rows, List.mem_flatMap, List.mem_map, List.mem_range]
  constructor
  · rintro ⟨c, hc, i, hi, rfl⟩
    exact ⟨rfl, hc, hi⟩
  · rintro ⟨h1, h2, h3⟩
    refine ⟨(r.order, r.dens, r.alg), h2, r.num_run, h3, ?_⟩
    cases r
    simp only at h1
    simp [h1]

theorem matrix_rows_length (num_groups : Nat) : (matrix_rows num_groups).length = 70 := by
  simp [matrix_rows, matrix, NUM_RUNS]

theorem matrix_nodup : matrix.Nodup := by
  decide

theorem matrix_rows_nodup (num_groups : Nat) : (matrix_rows num_groups).Nodup := by
  unfold matrix_rows
  rw [List.nodup_flatMap]
  constructor
  · intro c _
    apply List.Nodup.map _ (List.nodup_range _)
    intro i j h
    simpa using congrArg row.num_run h
  · apply List.Pairwise.imp _ matrix_nodup
    intro c1 c2 hne
    simp only [Function.onFun]
    rw [List.disjoint_left]
    intro r h1 h2
    obtain ⟨i, _, rfl⟩ := List.mem_map.1 h1
    obtain ⟨j, _, hj⟩ := List.mem_map.1 h2
    apply hne
    have e1 := congrArg row.order hj
    have e2 := congrArg row.dens hj
    have e3 := congrArg row.alg hj
    simp only at e1 e2 e3
    exact Prod.ext e1.symm (Prod.ext e2.symm e3.symm)

theorem mem_full_rows (r : row) :
    r ∈ progression_values.flatMap matrix_rows
      ↔ r.groups ∈ progression_values ∧ (r.order, r.dens, r.alg) ∈ matrix
        ∧ r.num_run < NUM_RUNS := by
  simp only [List.mem_flatMap, mem_matrix_rows]
  constructor
  · rintro ⟨n, hn, h1, h2, h3⟩
    exact ⟨h1 ▸ hn, h2, h3⟩
  · rintro ⟨h1, h2, h3⟩
    exact ⟨r.groups, h1, rfl, h2, h3⟩

theorem full_rows_length : (progression_values.flatMap matrix_rows).length = 21700 := by
  rw [List.length_flatMap]
  have h : (List.map (List.length ∘ matrix_rows) progression_values)
      = List.replicate progression_values.length 70 := by
    rw [List.eq_replicate_iff]
    refine ⟨by simp, ?_⟩
    intro x hx
    obtain ⟨n, _, rfl⟩ := List.mem_map.1 hx
    exact matrix_rows_length n
  rw [h, List.sum_replicate, progression_values_facts.1]
  rfl

theorem full_rows_nodup : (progression_values.flatMap matrix_rows).Nodup := by
  rw [List.nodup_flatMap]
  constructor
  · intro n _
    exact matrix_rows_nodup n
  · apply List.Pairwise.imp _ progression_values_facts.2.2.2
    intro n1 n2 hne
    simp only [Function.onFun]
    rw [List.disjoint_left]
    intro r h1 h2
    exact hne (((mem_matrix_rows n1 r).1 h1).1.symm.trans ((mem_matrix_rows n2 r).1 h2).1)

theorem RUN_data (Q : algorithm) (S : sortedness) (D : density) (num_groups : Nat)
    (st : driver_state) (hQ : Q ≠ algorithm.sort_and_order_based_grouping) :
    (RUN Q S D num_groups st).data = st.data :=
  (run_once_foldl Q S D num_groups hQ _ st).1

theorem RUN_calls (Q : algorithm) (S : sortedness) (D : density) (num_groups : Nat)
    (st : driver_state) (hQ : Q ≠ algorithm.sort_and_order_based_grouping) :
    (RUN Q S D num_groups st).calls = st.calls ++ List.replicate NUM_RUNS (Q, st.data) := by
  have h := (run_once_foldl Q S D num_groups hQ (List.range NUM_RUNS) st).2.2
  rw [List.length_range] at h
  exact h

theorem RUN_BSG_data (Q : algorithm) (S : sortedness) (D : density) (num_groups : Nat)
    (st : driver_state) (hQ : Q ≠ algorithm.sort_and_order_based_grouping) :
    (RUN_BSG Q S D num_groups st).data = st.data :=
  (run_once_foldl Q S D num_groups hQ _ st).1

theorem RUN_BSG_calls (Q : algorithm) (S : sortedness) (D : density) (num_groups : Nat)
    (st : driver_state) (hQ : Q ≠ algorithm.sort_and_order_based_grouping) :
    (RUN_BSG Q S D num_groups st).calls = st.calls ++ List.replicate NUM_RUNS (Q, st.data) := by
  have h := (run_once_foldl Q S D num_groups hQ (List.range NUM_RUNS) st).2.2
  rw [List.length_range] at h
  exact h

theorem RUN_SOG_data (Q : algorithm) (S : sortedness) (D : density) (num_groups : Nat)
    (st : driver_state) : (RUN_SOG Q S D num_groups st).data = st.data :=
  (run_sog_once_foldl Q S D num_groups _ st).1

theorem RUN_SOG_calls (Q : algorithm) (S : sortedness) (D : density) (num_groups : Nat)
    (st : driver_state) :
    (RUN_SOG Q S D num_groups st).calls = st.calls ++ List.replicate NUM_RUNS (Q, st.data) := by
  have h := (run_sog_once_foldl Q S D num_groups (List.range NUM_RUNS) st).2.2.2
  rw [List.length_range] at h
  exact h

theorem RUN_SOG_copy_data (Q : algorithm) (S : sortedness) (D : density) (num_groups : Nat)
    (st : driver_state) : (RUN_SOG Q S D num_groups st).copy_data = call_effect Q st.data := by
  have h := (run_sog_once_foldl Q S D num_groups (List.range NUM_RUNS) st).2.1
  rw [if_neg (by decide)] at h
  exact h

theorem config_runs_calls (num_groups : Nat) (d : datasets) (st : driver_state) :
    (config_runs num_groups d st).calls = st.calls ++ matrix_calls d := by
  simp only [config_runs, RUN_calls, RUN_BSG_calls, RUN_SOG_calls, RUN_data, RUN_BSG_data,
    RUN_SOG_data, ne_eq, reduceCtorEq, not_false_eq_true, matrix_calls, matrix, dataset_of,
    List.flatMap_cons, List.flatMap_nil, List.append_assoc, List.append_nil]

theorem config_runs_data (num_groups : Nat) (d : datasets) (st : driver_state) :
    (config_runs num_groups d st).data = d.sparse_shuffled := by
  simp only [config_runs, RUN_data, RUN_BSG_data, RUN_SOG_data, ne_eq, reduceCtorEq,
    not_false_eq_true]

/-- C13: one full run of the driver (311 tests of the loop condition are enough) writes,
for every `num_groups` of the progression and in this order, exactly the rows of the
applicability matrix, each combination with the run indices `0, 1, 2, 3, 4`: a row is
written if and only if its `num_groups` is visited, its combination is in the matrix and
its run index is below 5, and no row is written twice; so no row has
`order_based_grouping` on an unsorted data set, and there are `310 * 14 * 5 = 21700`
rows. -/
theorem driver_sample_rows (gen : Nat → datasets) (fuel : Nat) (hfuel : 311 ≤ fuel) :
    ∃ rows, driver_rows gen fuel = some rows
      ∧ progression fuel = some progression_values
      ∧ rows = progression_values.flatMap matrix_rows
      ∧ (∀ r, r ∈ rows ↔ r.groups ∈ progression_values ∧ (r.order, r.dens, r.alg) ∈ matrix
          ∧ r.num_run < 5)
      ∧ rows.Nodup
      ∧ (∀ r ∈ rows, r.alg = algorithm.order_based_grouping → r.order = sortedness.sorted)
      ∧ rows.length = 310 * 14 * 5
      ∧ rows.length = 21700 := by
  refine ⟨_, driver_rows_eq gen fuel hfuel,
    progression_loop_mono_le 311 fuel 1 _ hfuel progression_311, rfl, mem_full_rows,
    full_rows_nodup, ?_, full_rows_length, full_rows_length⟩
  intro r hr halg
  have hm := ((mem_full_rows r).1 hr).2.1
  rw [halg] at hm
  cases ho : r.order with
  | sorted => rfl
  | unsorted =>
    rw [ho] at hm
    cases hd : r.dens <;> rw [hd] at hm <;> exact absurd hm (by decide)

/-- C13 with 311 tests of the loop condition and empty data sets. -/
theorem driver_sample_rows_witness :
    311 ≤ 311
    ∧ ∃ rows, driver_rows (fun _ => ⟨[], [], [], []⟩) 311 = some rows
      ∧ progression 311 = some progression_values
      ∧ rows = progression_values.flatMap matrix_rows
      ∧ (∀ r, r ∈ rows ↔ r.groups ∈ progression_values ∧ (r.order, r.dens, r.alg) ∈ matrix
          ∧ r.num_run < 5)
      ∧ rows.Nodup
      ∧ (∀ r ∈ rows, r.alg = algorithm.order_based_grouping → r.order = sortedness.sorted)
      ∧ rows.length = 310 * 14 * 5
      ∧ rows.length = 21700 :=
  ⟨le_refl _, driver_sample_rows _ 311 (le_refl _)⟩

/-- C14: in the driver, every invocation of a function other than
`sort_and_order_based_grouping` (that is `hashing`, `static_perfect_hashing`,
`order_based_grouping`, `binary_search`) by `RUN` or `RUN_BSG` leaves `data` and `copy_data`
as they were; every repetition of `RUN_SOG(sort_and_order_based_grouping)` leaves `data` as
it was, is called on a fresh copy of `data` whatever `copy_data` held before, and leaves
the sorted copy in `copy_data`; so all `NUM_RUNS` repetitions sort the same input, and
over a whole configuration every timed call is made on the data set of its
configuration. -/
theorem canonical_dataset_unaltered (Q : algorithm) (S : sortedness) (D : density)
    (num_groups : Nat) (d : datasets) (st : driver_state)
    (hQ : Q ≠ algorithm.sort_and_order_based_grouping) :
    (∀ i, (run_once Q S D num_groups st i).data = st.data
        ∧ (run_once Q S D num_groups st i).copy_data = st.copy_data)
    ∧ (RUN Q S D num_groups st).data = st.data
    ∧ (RUN Q S D num_groups st).copy_data = st.copy_data
    ∧ (RUN_BSG Q S D num_groups st).data = st.data
    ∧ (RUN_BSG Q S D num_groups st).copy_data = st.copy_data
    ∧ (∀ i,
        (run_sog_once algorithm.sort_and_order_based_grouping S D num_groups st i).data
          = st.data
        ∧ (run_sog_once algorithm.sort_and_order_based_grouping S D num_groups st i).copy_data
          = sort st.data
        ∧ (run_sog_once algorithm.sort_and_order_based_grouping S D num_groups st i).calls
          = st.calls ++ [(algorithm.sort_and_order_based_grouping, st.data)])
    ∧ (RUN_SOG algorithm.sort_and_order_based_grouping S D num_groups st).data = st.data
    ∧ (RUN_SOG algorithm.sort_and_order_based_grouping S D num_groups st).copy_data
        = sort st.data
    ∧ (RUN_SOG algorithm.sort_and_order_based_grouping S D num_groups st).calls
        = st.calls ++ List.replicate NUM_RUNS (algorithm.sort_and_order_based_grouping, st.data)
    ∧ (config_runs num_groups d st).calls = st.calls ++ matrix_calls d := by
  have heff : ∀ buf, call_effect Q buf = buf := by
    intro buf
    cases Q <;> first | rfl | exact absurd rfl hQ
  refine ⟨?_, RUN_data Q S D num_groups st hQ,
    (run_once_foldl Q S D num_groups hQ _ st).2.1, RUN_BSG_data Q S D num_groups st hQ,
    (run_once_foldl Q S D num_groups hQ _ st).2.1, ?_, RUN_SOG_data _ S D num_groups st,
    RUN_SOG_copy_data _ S D num_groups st, RUN_SOG_calls _ S D num_groups st,
    config_runs_calls num_groups d st⟩
  · intro i
    simp [run_once, heff]
  · intro i
    simp [run_sog_once, call_effect]

/-- C14 for `hashing` on the unsorted buffer `[7, 5, 9, 5]`, `copy_data` holding other
keys. -/
theorem canonical_dataset_unaltered_witness :
    algorithm.hashing ≠ algorithm.sort_and_order_based_grouping
    ∧ (RUN algorithm.hashing sortedness.unsorted density.sparse 3
        { data := [7, 5, 9, 5], copy_data := [1, 2, 3, 4], out := [], calls := [] }).data
        = [7, 5, 9, 5]
    ∧ (RUN_SOG algorithm.sort_and_order_based_grouping sortedness.unsorted density.sparse 3
        { data := [7, 5, 9, 5], copy_data := [1, 2, 3, 4], out := [], calls := [] }).data
        = [7, 5, 9, 5]
    ∧ (RUN_SOG algorithm.sort_and_order_based_grouping sortedness.unsorted density.sparse 3
        { data := [7, 5, 9, 5], copy_data := [1, 2, 3, 4], out := [], calls := [] }).copy_data
        = [5, 5, 7, 9]
    ∧ (RUN_SOG algorithm.sort_and_order_based_grouping sortedness.unsorted density.sparse 3
        { data := [7, 5, 9, 5], copy_data := [1, 2, 3, 4], out := [], calls := [] }).calls
        = List.replicate 5 (algorithm.sort_and_order_based_grouping, [7, 5, 9, 5]) :=
  ⟨by decide,
   (canonical_dataset_unaltered algorithm.hashing sortedness.unsorted density.sparse 3
      ⟨[], [], [], []⟩
      { data := [7, 5, 9, 5], copy_data := [1, 2, 3, 4], out := [], calls := [] }
      (by decide)).2.1,
   (canonical_dataset_unaltered algorithm.hashing sortedness.unsorted density.sparse 3
      ⟨[], [], [], []⟩
      { data := [7, 5, 9, 5], copy_data := [1, 2, 3, 4], out := [], calls := [] }
      (by decide)).2.2.2.2.2.2.1,
   (canonical_dataset_unaltered algorithm.hashing sortedness.unsorted density.sparse 3
      ⟨[], [], [], []⟩
      { data := [7, 5, 9, 5], copy_data := [1, 2, 3, 4], out := [], calls := [] }
      (by decide)).2.2.2.2.2.2.2.1,
   (canonical_dataset_unaltered algorithm.hashing sortedness.unsorted density.sparse 3
      ⟨[], [], [], []⟩
      { data := [7, 5, 9, 5], copy_data := [1, 2, 3, 4], out := [], calls := [] }
      (by decide)).2.2.2.2.2.2.2.2.1⟩

/-! ## The runs of a key array -/

theorem rle_go_head (xs : List Nat) :
    ∀ (k c : Nat), ∃ c2, (rle_go k c xs).head? = some (k, c2) := by
  induction xs with
  | nil => intro k c; exact ⟨c, rfl⟩
  | cons x xs ih =>
    intro k c
    by_cases h : k = x
    · simp only [rle_go, h, if_true]
      exact ih x (c + 1)
    · simp only [rle_go, h, if_false]
      exact ⟨c, rfl⟩

theorem rle_go_chain (xs : List Nat) :
    ∀ (k c : Nat), List.Chain' (fun a b : Nat × Nat => a.1 ≠ b.1) (rle_go k c xs) := by
  induction xs with
  | nil => intro k c; simp [rle_go]
  | cons x xs ih =>
    intro k c
    by_cases h : k = x
    · simp only [rle_go, h, if_true]
      exact ih x (c + 1)
    · simp only [rle_go, h, if_false]
      rw [List.chain'_cons']
      refine ⟨?_, ih x 1⟩
      intro y hy
      obtain ⟨c2, hc2⟩ := rle_go_head xs x 1
      rw [hc2] at hy
      have : y = (x, c2) := by simpa using hy.symm
      rw [this]
      exact h

theorem rle_go_expand (xs : List Nat) :
    ∀ (k c : Nat), expand_runs (rle_go k c xs) = List.replicate c k ++ xs := by
  induction xs with
  | nil => intro k c; simp [rle_go, expand_runs]
  | cons x xs ih =>
    intro k c
    by_cases h : k = x
    · simp only [rle_go, h, if_true]
      rw [ih x (c + 1)]
      rw [List.replicate_succ', List.append_assoc]
      rfl
    · simp only [rle_go, h, if_false]
      have := ih x 1
      simp only [expand_runs, List.flatMap_cons] at this ⊢
      rw [this]
      simp

theorem rle_go_pos (xs : List Nat) :
    ∀ (k c : Nat), 1 ≤ c → ∀ r ∈ rle_go k c xs, 1 ≤ r.2 := by
  induction xs with
  | nil =>
    intro k c hc r hr
    simp only [rle_go, List.mem_singleton] at hr
    rw [hr]; exact hc
  | cons x xs ih =>
    intro k c hc r hr
    by_cases h : k = x
    · simp only [rle_go, h, if_true] at hr
      exact ih x (c + 1) (by omega) r hr
    · simp only [rle_go, h, if_false, List.mem_cons] at hr
      rcases hr with hr | hr
      · rw [hr]; exact hc
      · exact ih x 1 (le_refl _) r hr

theorem rle_go_keys_mem (xs : List Nat) :
    ∀ (k c k2 : Nat), k2 ∈ (rle_go k c xs).map Prod.fst ↔ k2 = k ∨ k2 ∈ xs := by
  induction xs with
  | nil => intro k c k2; simp [rle_go]
  | cons x xs ih =>
    intro k c k2
    by_cases h : k = x
    · simp only [rle_go, h, if_true]
      rw [ih x (c + 1) k2]
      simp
    · simp only [rle_go, h, if_false, List.map_cons, List.mem_cons]
      rw [ih x 1 k2]

theorem rle_go_nodup_iff (xs : List Nat) :
    ∀ (k c : Nat), ((rle_go k c xs).map Prod.fst).Nodup ↔ contiguous (k :: xs) := by
  induction xs with
  | nil => intro k c; simp [rle_go, contiguous]
  | cons x xs ih =>
    intro k c
    by_cases h : k = x
    · subst h
      simp only [rle_go, if_true]
      rw [ih k (c + 1)]
      simp only [contiguous, List.mem_cons, true_or, List.head?_cons, forall_const, true_and]
    · simp only [rle_go, h, if_false, List.map_cons, List.nodup_cons]
      rw [rle_go_keys_mem xs x 1 k, ih x 1]
      have hne : ¬ (some x = some k) := fun e => h (Option.some.inj e).symm
      have hcont : contiguous (k :: x :: xs) ↔ (k ∉ x :: xs) ∧ contiguous (x :: xs) := by
        rw [contiguous, List.head?_cons]
        constructor
        · intro hc
          exact ⟨fun hm => hne (hc.1 hm), hc.2⟩
        · intro hc
          exact ⟨fun hm => absurd hm hc.1, hc.2⟩
      rw [hcont]
      simp only [List.mem_cons, not_or]

theorem runs_keys_nodup_iff (data : List Nat) :
    ((runs data).map Prod.fst).Nodup ↔ contiguous data := by
  cases data with
  | nil => simp [runs, contiguous]
  | cons x xs =>
    have h := rle_go_nodup_iff (x :: xs) x 0
    simp only [rle_go, if_true] at h
    rw [runs, h]
    simp only [contiguous, List.mem_cons, true_or, List.head?_cons, forall_const, true_and]

theorem runs_keys_mem (data : List Nat) (k : Nat) :
    k ∈ (runs data).map Prod.fst ↔ k ∈ data := by
  cases data with
  | nil => simp [runs]
  | cons x xs =>
    rw [runs, rle_go_keys_mem xs x 1 k]
    simp

theorem runs_expand (data : List Nat) : expand_runs (runs data) = data := by
  cases data with
  | nil => simp [runs, expand_runs]
  | cons x xs =>
    rw [runs, rle_go_expand xs x 1]
    rfl

theorem runs_chain (data : List Nat) :
    List.Chain' (fun a b : Nat × Nat => a.1 ≠ b.1) (runs data) := by
  cases data with
  | nil => simp [runs]
  | cons x xs => exact rle_go_chain xs x 1

theorem runs_pos (data : List Nat) : ∀ r ∈ runs data, 1 ≤ r.2 := by
  cases data with
  | nil => intro r hr; simp [runs] at hr
  | cons x xs => exact rle_go_pos xs x 1 (le_refl _)

theorem run_le_expand (rs : List (Nat × Nat)) : ∀ r ∈ rs, r.2 ≤ (expand_runs rs).length := by
  induction rs with
  | nil => intro r hr; exact absurd hr (List.not_mem_nil r)
  | cons a rs ih =>
    intro r hr
    simp only [expand_runs, List.flatMap_cons, List.length_append, List.length_replicate]
    rcases List.mem_cons.1 hr with h | h
    · rw [h]; omega
    · have := ih r h
      simp only [expand_runs] at this
      omega

theorem run_le_length (data : List Nat) : ∀ r ∈ runs data, r.2 ≤ data.length := by
  intro r hr
  have := run_le_expand (runs data) r hr
  rw [runs_expand] at this
  exact this

theorem dedup_length_le_runs (data : List Nat) :
    data.dedup.length ≤ (runs data).length
    ∧ (data.dedup.length = (runs data).length ↔ ((runs data).map Prod.fst).Nodup) := by
  have hperm : List.Perm ((runs data).map Prod.fst).dedup data.dedup := by
    rw [List.perm_ext_iff_of_nodup (List.nodup_dedup _) (List.nodup_dedup _)]
    intro k
    rw [List.mem_dedup, List.mem_dedup, runs_keys_mem]
  have hsub : List.Sublist ((runs data).map Prod.fst).dedup ((runs data).map Prod.fst) :=
    List.dedup_sublist _
  have hle := hsub.length_le
  rw [hperm.length_eq, List.length_map] at hle
  refine ⟨hle, ?_⟩
  constructor
  · intro h
    have hlen : ((runs data).map Prod.fst).dedup.length = ((runs data).map Prod.fst).length := by
      rw [hperm.length_eq, List.length_map, h]
    have := hsub.eq_of_length hlen
    exact List.dedup_eq_self.1 this
  · intro h
    rw [← hperm.length_eq, List.dedup_eq_self.2 h, List.length_map]

/-! ## `order_based_grouping` on any input -/

theorem order_based_scan_idx_snd (rest : List Nat) :
    ∀ (k idx : Nat) (groups : List group_type),
      (order_based_scan_idx rest k idx groups).map Prod.snd
        = order_based_scan rest k idx groups := by
  induction rest with
  | nil => intro k idx groups; rfl
  | cons p rest ih =>
    intro k idx groups
    by_cases h : k = p
    · simp only [order_based_scan_idx, order_based_scan, h, ne_eq, not_true_eq_false, if_false]
      cases add_at groups idx p with
      | none => rfl
      | some groups1 => exact ih p idx groups1
    · simp only [order_based_scan_idx, order_based_scan, h, ne_eq, not_false_eq_true, if_true]
      cases set_key groups (idx + 1) p with
      | none => rfl
      | some groups1 =>
        simp only []
        cases add_at groups1 (idx + 1) p with
        | none => rfl
        | some groups2 => exact ih p (idx + 1) groups2

theorem rle_go_length_count (xs : List Nat) :
    ∀ (k c c2 : Nat), (rle_go k c xs).length = (rle_go k c2 xs).length := by
  induction xs with
  | nil => intro k c c2; rfl
  | cons x xs ih =>
    intro k c c2
    by_cases h : k = x
    · simp only [rle_go, h, if_true]
      exact ih x _ _
    · simp only [rle_go, h, if_false, List.length_cons]

theorem order_based_scan_idx_fst (rest : List Nat) :
    ∀ (k idx : Nat) (groups : List group_type) (i : Nat) (gs : List group_type) (c : Nat),
      order_based_scan_idx rest k idx groups = some (i, gs) →
      i + 1 = idx + (rle_go k c rest).length := by
  induction rest with
  | nil =>
    intro k idx groups i gs c h
    simp only [order_based_scan_idx, Option.some.injEq, Prod.mk.injEq] at h
    simp [rle_go, h.1]
  | cons p rest ih =>
    intro k idx groups i gs c h
    by_cases hk : k = p
    · simp only [order_based_scan_idx, hk, ne_eq, not_true_eq_false, if_false] at h
      simp only [rle_go, hk, if_true]
      cases h1 : add_at groups idx p with
      | none => rw [h1] at h; simp at h
      | some groups1 =>
        rw [h1] at h
        exact ih p idx groups1 i gs (c + 1) h
    · simp only [order_based_scan_idx, hk, ne_eq, not_false_eq_true, if_true] at h
      simp only [rle_go, hk, if_false, List.length_cons]
      cases h1 : set_key groups (idx + 1) p with
      | none => rw [h1] at h; simp at h
      | some groups1 =>
        rw [h1] at h
        simp only [] at h
        cases h2 : add_at groups1 (idx + 1) p with
        | none => rw [h2] at h; simp at h
        | some groups2 =>
          rw [h2] at h
          have := ih p (idx + 1) groups2 i gs 1 h
          omega

theorem order_based_grouping_idx_snd (data : List Nat) (num_groups : Nat) :
    (order_based_grouping_idx data num_groups).map Prod.snd
      = order_based_grouping data num_groups := by
  cases data with
  | nil => rfl
  | cons x xs =>
    simp only [order_based_grouping_idx, order_based_grouping]
    cases set_key (new_groups num_groups) 0 x with
    | none => rfl
    | some groups => exact order_based_scan_idx_snd _ _ _ _

theorem order_based_grouping_idx_fst (data : List Nat) (num_groups i : Nat)
    (gs : List group_type) (h : order_based_grouping_idx data num_groups = some (i, gs)) :
    i + 1 = (runs data).length := by
  cases data with
  | nil => simp [order_based_grouping_idx] at h
  | cons x xs =>
    simp only [order_based_grouping_idx] at h
    cases h1 : set_key (new_groups num_groups) 0 x with
    | none => rw [h1] at h; simp at h
    | some groups =>
      rw [h1] at h
      have := order_based_scan_idx_fst (x :: xs) x 0 groups i gs 0 h
      simp only [rle_go, if_true, Nat.zero_add] at this
      rw [this, runs]

theorem order_based_grouping_table (data : List Nat) (num_groups : Nat) (hne : data ≠ [])
    (hle : (runs data).length ≤ num_groups) :
    order_based_grouping data num_groups
      = some ((runs data).map run_group ++ new_groups (num_groups - (runs data).length)) := by
  cases data with
  | nil => exact absurd rfl hne
  | cons x xs => rw [order_based_grouping_eq, if_pos hle]

theorem order_based_grouping_none_iff (data : List Nat) (num_groups : Nat) (hne : data ≠ []) :
    order_based_grouping data num_groups = none ↔ num_groups < (runs data).length := by
  cases data with
  | nil => exact absurd rfl hne
  | cons x xs =>
    rw [order_based_grouping_eq]
    by_cases h : (runs (x :: xs)).length ≤ num_groups
    · simp only [h, if_true]
      constructor
      · intro h1; simp at h1
      · intro h1; omega
    · simp only [h, if_false, true_iff]
      omega

theorem run_group_eq (data : List Nat) (hsize : data.length < U64) (r : Nat × Nat)
    (hr : r ∈ runs data) :
    run_group r = { key := some r.1, data := { count := r.2, sum := (r.1 * r.2) % U64 } } := by
  have h1 := run_le_length data r hr
  simp [run_group, agg_of, Nat.mod_eq_of_lt (lt_of_le_of_lt h1 hsize)]

theorem runs_ne_nil (data : List Nat) (hne : data ≠ []) : 1 ≤ (runs data).length := by
  cases data with
  | nil => exact absurd rfl hne
  | cons x xs => exact rle_go_length_pos x 1 xs

theorem table_filled_iff (rs : List (Nat × Nat)) (m : Nat) :
    (∀ g ∈ rs.map run_group ++ new_groups m, g.key ≠ none) ↔ m = 0 := by
  constructor
  · intro h
    by_contra hm
    have hmem : ({} : group_type) ∈ rs.map run_group ++ new_groups m := by
      apply List.mem_append_right
      simp only [new_groups]
      exact List.mem_replicate.2 ⟨hm, rfl⟩
    exact h _ hmem rfl
  · intro h g hg
    subst h
    simp only [new_groups, List.replicate_zero, List.append_nil] at hg
    obtain ⟨r, _, rfl⟩ := List.mem_map.1 hg
    simp [run_group]

theorem table_keys (rs : List (Nat × Nat)) :
    (rs.map run_group).map (fun g => g.key) = (rs.map Prod.fst).map some := by
  simp [run_group, Function.comp]

theorem correct_grouping_iff (data : List Nat) (num_groups : Nat) (hne : data ≠ [])
    (groups : List group_type) (h : order_based_grouping data num_groups = some groups) :
    correct_grouping groups data
      ↔ (runs data).length = num_groups ∧ contiguous data := by
  have hle : (runs data).length ≤ num_groups := by
    by_contra hc
    have := (order_based_grouping_none_iff data num_groups hne).2 (by omega)
    rw [this] at h
    simp at h
  rw [order_based_grouping_table data num_groups hne hle] at h
  have hg : groups = (runs data).map run_group
      ++ new_groups (num_groups - (runs data).length) := (Option.some.inj h).symm
  constructor
  · rintro ⟨h1, h2, _⟩
    rw [hg] at h1
    have hm := (table_filled_iff _ _).1 h1
    have hlen : (runs data).length = num_groups := by omega
    refine ⟨hlen, ?_⟩
    rw [hg, hm] at h2
    simp only [new_groups, List.replicate_zero, List.append_nil] at h2
    rw [table_keys] at h2
    exact (runs_keys_nodup_iff data).1 (List.Nodup.of_map _ h2)
  · rintro ⟨hlen, hc⟩
    have hm : num_groups - (runs data).length = 0 := by omega
    have hg2 : groups = (runs data).map run_group := by
      rw [hg, hm]
      simp [new_groups]
    refine ⟨?_, ?_, ?_⟩
    · rw [hg]
      exact (table_filled_iff _ _).2 hm
    · rw [hg2, table_keys]
      exact List.Nodup.map (Option.some_injective _) ((runs_keys_nodup_iff data).2 hc)
    · intro k
      rw [hg2, table_keys, List.mem_map_of_injective (Option.some_injective _),
        runs_keys_mem]

/-- C15: for every non-empty key array `data`, sorted or not (`size` a `std::size_t`):
`runs data` lists the maximal runs of equal adjacent keys (it expands to `data`, adjacent
runs have different keys, every run has at least one key); all accesses of
`order_based_grouping` stay inside the `num_groups` slots if and only if `num_groups >= 1`
and the number of runs is at most `num_groups`; in that case the final slot index `idx`
satisfies `idx + 1` = number of runs, slot `j` holds the key and the length of the `j`-th
run (and its key times its length modulo `2^64` as sum), and the slots after the runs are
untouched; the result is a correct grouping (all slots filled, one slot per distinct key)
if and only if the number of runs equals `num_groups` and equal keys are contiguous, so
only when the number of runs equals `num_groups`; and for an input with `num_groups`
distinct keys the number of runs equals `num_groups` exactly when equal keys are
contiguous. -/
theorem order_based_grouping_one_slot_per_run (data : List Nat) (num_groups : Nat)
    (hne : data ≠ []) (hsize : data.length < U64) :
    expand_runs (runs data) = data
    ∧ List.Chain' (fun a b : Nat × Nat => a.1 ≠ b.1) (runs data)
    ∧ (∀ r ∈ runs data, 1 ≤ r.2)
    ∧ ((∃ groups, order_based_grouping data num_groups = some groups)
        ↔ 1 ≤ num_groups ∧ (runs data).length ≤ num_groups)
    ∧ ((runs data).length ≤ num_groups →
        ∃ idx groups, order_based_grouping_idx data num_groups = some (idx, groups)
          ∧ order_based_grouping data num_groups = some groups
          ∧ idx + 1 = (runs data).length
          ∧ groups.length = num_groups
          ∧ (∀ (j : Nat) (r : Nat × Nat), (runs data)[j]? = some r →
              groups[j]? = some ({ key := some r.1,
                                   data := { count := r.2, sum := (r.1 * r.2) % U64 } } :
                                 group_type))
          ∧ (∀ j : Nat, (runs data).length ≤ j → j < num_groups →
              groups[j]? = some ({} : group_type)))
    ∧ (∀ groups, order_based_grouping data num_groups = some groups →
        (correct_grouping groups data
          ↔ (runs data).length = num_groups ∧ contiguous data))
    ∧ (∀ groups, order_based_grouping data num_groups = some groups →
        correct_grouping groups data → (runs data).length = num_groups)
    ∧ (data.dedup.length = num_groups →
        ((runs data).length = num_groups ↔ contiguous data)) := by
  have hpos := runs_ne_nil data hne
  refine ⟨runs_expand data, runs_chain data, runs_pos data, ?_, ?_,
    correct_grouping_iff data num_groups hne, ?_, ?_⟩
  · constructor
    · rintro ⟨groups, hg⟩
      have : ¬ num_groups < (runs data).length := by
        intro hlt
        rw [(order_based_grouping_none_iff data num_groups hne).2 hlt] at hg
        simp at hg
      omega
    · rintro ⟨_, hle⟩
      exact ⟨_, order_based_grouping_table data num_groups hne hle⟩
  · intro hle
    have htab := order_based_grouping_table data num_groups hne hle
    have hsnd := order_based_grouping_idx_snd data num_groups
    cases hidx : order_based_grouping_idx data num_groups with
    | none => rw [hidx, htab] at hsnd; simp at hsnd
    | some p =>
      obtain ⟨idx, groups⟩ := p
      rw [hidx, htab] at hsnd
      have hgroups : groups = (runs data).map run_group
          ++ new_groups (num_groups - (runs data).length) := by
        simpa using hsnd
      refine ⟨idx, groups, rfl, by rw [htab, hgroups],
        order_based_grouping_idx_fst data num_groups idx groups hidx, ?_, ?_, ?_⟩
      · rw [hgroups]
        simp only [List.length_append, List.length_map, new_groups, List.length_replicate]
        omega
      · intro j r hj
        have hjlt : j < ((runs data).map run_group).length := by
          rw [List.length_map]
          exact (List.getElem?_eq_some.1 hj).1
        rw [hgroups, List.getElem?_append_left hjlt, List.getElem?_map, hj, Option.map_some',
          run_group_eq data hsize r (List.mem_iff_getElem?.2 ⟨j, hj⟩)]
      · intro j hj1 hj2
        have hjge : ((runs data).map run_group).length ≤ j := by
          rw [List.length_map]; exact hj1
        rw [hgroups, List.getElem?_append_right hjge, List.length_map]
        simp only [new_groups]
        rw [List.getElem?_replicate, if_pos (by omega)]
  · intro groups hg hc
    exact ((correct_grouping_iff data num_groups hne groups hg).1 hc).1
  · intro hd
    rw [← hd, ← runs_keys_nodup_iff]
    have h := (dedup_length_le_runs data).2
    constructor
    · intro h1
      exact h.1 h1.symm
    · intro h1
      exact (h.2 h1).symm

/-- C15 on the unsorted key array `[1, 1, 2, 1]`, which has three runs and two distinct
keys, with three slots. -/
theorem order_based_grouping_one_slot_per_run_witness :
    ([1, 1, 2, 1] ≠ ([] : List Nat) ∧ [1, 1, 2, 1].length < U64)
    ∧ runs [1, 1, 2, 1] = [(1, 2), (2, 1), (1, 1)]
    ∧ order_based_grouping_idx [1, 1, 2, 1] 3
        = some (2, [{ key := some 1, data := { count := 2, sum := 2 } },
                    { key := some 2, data := { count := 1, sum := 2 } },
                    { key := some 1, data := { count := 1, sum := 1 } }])
    ∧ order_based_grouping [1, 1, 2, 1] 2 = none
    ∧ ((∃ groups, order_based_grouping [1, 1, 2, 1] 3 = some groups)
        ↔ 1 ≤ 3 ∧ (runs [1, 1, 2, 1]).length ≤ 3)
    ∧ [1, 1, 2, 1].dedup.length = 2
    ∧ ((runs [1, 1, 2, 1]).length = 2 ↔ contiguous [1, 1, 2, 1]) :=
  ⟨⟨by decide, by decide⟩, by decide, by decide, by decide,
   (order_based_grouping_one_slot_per_run [1, 1, 2, 1] 3 (by decide) (by decide)).2.2.2.1,
   by decide,
   (order_based_grouping_one_slot_per_run [1, 1, 2, 1] 2 (by decide)
      (by decide)).2.2.2.2.2.2.2 (by decide)⟩

/-! ## The rejection loop that samples the sparse keys -/

theorem sample_loop_inv (num_groups : Nat) :
    ∀ (fuel : Nat) (g : Nat → Nat) (elements : List Nat) (num_elements : Nat)
      (result : List Nat),
      elements.length = num_elements → num_elements ≤ num_groups → elements.Nodup →
      sample_loop num_groups fuel g elements num_elements = some result →
      result.length = num_groups ∧ result.Nodup
        ∧ ∀ v ∈ result, v ∈ elements ∨ ∃ i, g i = v := by
  intro fuel
  induction fuel with
  | zero => intro g elements m result _ _ _ h; simp [sample_loop] at h
  | succ fuel ih =>
    intro g elements m result hlen hle hnd h
    rw [sample_loop] at h
    by_cases hm : m < num_groups
    · simp only [hm, if_true] at h
      by_cases hv : g 0 ∈ elements
      · simp only [hv, if_true] at h
        obtain ⟨h1, h2, h3⟩ := ih _ elements m result hlen hle hnd h
        refine ⟨h1, h2, ?_⟩
        intro v hvr
        rcases h3 v hvr with h4 | ⟨i, hi⟩
        · exact Or.inl h4
        · exact Or.inr ⟨i + 1, hi⟩
      · simp only [hv, if_false] at h
        have hnd2 : (elements ++ [g 0]).Nodup := by
          rw [List.nodup_append]
          refine ⟨hnd, List.nodup_singleton _, ?_⟩
          intro a ha hb
          rw [List.mem_singleton] at hb
          exact hv (hb ▸ ha)
        obtain ⟨h1, h2, h3⟩ := ih _ (elements ++ [g 0]) (m + 1) result
          (by simp [hlen]) (by omega) hnd2 h
        refine ⟨h1, h2, ?_⟩
        intro v hvr
        rcases h3 v hvr with h4 | ⟨i, hi⟩
        · rcases List.mem_append.1 h4 with h5 | h5
          · exact Or.inl h5
          · rw [List.mem_singleton] at h5
            exact Or.inr ⟨0, h5.symm⟩
        · exact Or.inr ⟨i + 1, hi⟩
    · simp only [hm, if_false] at h
      have hr : result = elements := (Option.some.inj h).symm
      rw [hr]
      exact ⟨by omega, hnd, fun v hv => Or.inl hv⟩

theorem sample_loop_skip (num_groups fuel : Nat) (g : Nat → Nat) (elements : List Nat)
    (num_elements : Nat) (hlt : num_elements < num_groups) (hv : g 0 ∈ elements) :
    sample_loop num_groups (fuel + 1) g elements num_elements
      = sample_loop num_groups fuel (fun t => g (t + 1)) elements num_elements := by
  simp [sample_loop, hlt, hv]

theorem sample_loop_push (num_groups fuel : Nat) (g : Nat → Nat) (elements : List Nat)
    (num_elements : Nat) (hlt : num_elements < num_groups) (hv : g 0 ∉ elements) :
    sample_loop num_groups (fuel + 1) g elements num_elements
      = sample_loop num_groups fuel (fun t => g (t + 1)) (elements ++ [g 0])
          (num_elements + 1) := by
  simp [sample_loop, hlt, hv]

/-- The loop exits as soon as the stream has yielded enough values that are not yet in
`elements`. -/
theorem sample_loop_exits (num_groups : Nat) :
    ∀ (fuel : Nat) (g : Nat → Nat) (elements : List Nat) (num_elements : Nat),
      num_groups - num_elements
        ≤ (((Finset.range fuel).image g) \ elements.toFinset).card →
      ∃ result, sample_loop num_groups (fuel + 1) g elements num_elements = some result := by
  intro fuel
  induction fuel with
  | zero =>
    intro g elements m h
    simp only [Finset.range_zero, Finset.image_empty, Finset.empty_sdiff, Finset.card_empty,
      Nat.le_zero] at h
    have hm : ¬ m < num_groups := by omega
    exact ⟨elements, by simp [sample_loop, hm]⟩
  | succ fuel ih =>
    intro g elements m h
    by_cases hm : m < num_groups
    · have himg : (Finset.range (fuel + 1)).image g
          = insert (g 0) ((Finset.range fuel).image fun t => g (t + 1)) := by
        ext v
        simp only [Finset.mem_image, Finset.mem_range, Finset.mem_insert]
        constructor
        · rintro ⟨i, hi, rfl⟩
          cases i with
          | zero => exact Or.inl rfl
          | succ i => exact Or.inr ⟨i, by omega, rfl⟩
        · rintro (h1 | ⟨i, hi, rfl⟩)
          · exact ⟨0, by omega, h1.symm⟩
          · exact ⟨i + 1, by omega, rfl⟩
      by_cases hv : g 0 ∈ elements
      · rw [sample_loop_skip num_groups (fuel + 1) g elements m hm hv]
        apply ih
        have hsub : (insert (g 0) ((Finset.range fuel).image fun t => g (t + 1)))
            \ elements.toFinset
            = ((Finset.range fuel).image fun t => g (t + 1)) \ elements.toFinset := by
          ext v
          simp only [Finset.mem_sdiff, Finset.mem_insert, List.mem_toFinset]
          constructor
          · rintro ⟨h1 | h1, h2⟩
            · exact absurd (h1 ▸ hv) h2
            · exact ⟨h1, h2⟩
          · rintro ⟨h1, h2⟩
            exact ⟨Or.inr h1, h2⟩
        rw [himg, hsub] at h
        exact h
      · rw [sample_loop_push num_groups (fuel + 1) g elements m hm hv]
        apply ih
        have hsub : (insert (g 0) ((Finset.range fuel).image fun t => g (t + 1)))
            \ elements.toFinset
            ⊆ insert (g 0) (((Finset.range fuel).image fun t => g (t + 1))
                \ (elements ++ [g 0]).toFinset) := by
          intro v
          simp only [Finset.mem_sdiff, Finset.mem_insert, List.mem_toFinset, List.mem_append,
            List.mem_singleton, not_or]
          rintro ⟨h1 | h1, h2⟩
          · exact Or.inl h1
          · by_cases hvg : v = g 0
            · exact Or.inl hvg
            · exact Or.inr ⟨h1, h2, hvg⟩
        have hcard := Finset.card_le_card hsub
        have hins := Finset.card_insert_le (g 0)
          (((Finset.range fuel).image fun t => g (t + 1)) \ (elements ++ [g 0]).toFinset)
        rw [himg] at h
        omega
    · exact ⟨elements, by simp [sample_loop, hm]⟩

theorem sort_strict (elements : List Nat) (hnd : elements.Nodup) :
    List.Sorted (fun a b => a < b) (sort elements) :=
  List.Sorted.lt_of_le (sort_sorted elements) ((sort_perm elements).nodup_iff.2 hnd)

/-- C16: for every stream `g` of drawn values and every `num_groups`, whenever the
rejection loop exits, `elements` holds exactly `num_groups` pairwise distinct values, all
of them drawn from the stream (32-bit when the draws are); a drawn value that is already
present is skipped without changing `elements` or `num_elements`; after the sort
`elements` is strictly increasing with the same length, so both assertions at the head of
`binary_search` hold; and the loop does exit once the stream has yielded `num_groups`
distinct values. -/
theorem sparse_key_sampling (fuel num_groups : Nat) (g : Nat → Nat) (elements : List Nat)
    (h : sample_elements fuel num_groups g = some elements) :
    elements.length = num_groups
    ∧ elements.Nodup
    ∧ (∀ v ∈ elements, ∃ i, g i = v)
    ∧ ((∀ i, g i < U32) → ∀ v ∈ sort elements, v < U32)
    ∧ (∀ (fuel2 : Nat) (g2 : Nat → Nat) (elements2 : List Nat) (num_elements : Nat),
        num_elements < num_groups → g2 0 ∈ elements2 →
        sample_loop num_groups (fuel2 + 1) g2 elements2 num_elements
          = sample_loop num_groups fuel2 (fun t => g2 (t + 1)) elements2 num_elements)
    ∧ List.Sorted (fun a b => a < b) (sort elements)
    ∧ (sort elements).length = num_groups
    ∧ binary_search_asserts num_groups (sort elements) = true
    ∧ (∀ (fuel2 : Nat) (g2 : Nat → Nat),
        num_groups ≤ ((Finset.range fuel2).image g2).card →
        ∃ elements2, sample_elements (fuel2 + 1) num_groups g2 = some elements2) := by
  obtain ⟨h1, h2, h3⟩ := sample_loop_inv num_groups fuel g [] 0 elements rfl (Nat.zero_le _)
    List.nodup_nil h
  have hdrawn : ∀ v ∈ elements, ∃ i, g i = v := by
    intro v hv
    rcases h3 v hv with h4 | h4
    · exact absurd h4 (List.not_mem_nil v)
    · exact h4
  have hlen : (sort elements).length = num_groups := by rw [sort_length, h1]
  refine ⟨h1, h2, hdrawn, ?_, ?_, sort_strict elements h2, hlen, ?_, ?_⟩
  · intro h32 v hv
    obtain ⟨i, hi⟩ := hdrawn v ((mem_sort elements v).1 hv)
    rw [← hi]
    exact h32 i
  · intro fuel2 g2 elements2 m hm hv
    exact sample_loop_skip num_groups fuel2 g2 elements2 m hm hv
  · simp only [binary_search_asserts, hlen, decide_True, Bool.true_and, decide_eq_true_eq]
    exact sort_sorted elements
  · intro fuel2 g2 hcard
    apply sample_loop_exits
    simpa using hcard

/-- C16 on the stream `5, 3, 5, 9, 0, 0, ...` with three groups: the second `5` is
skipped. -/
theorem sparse_key_sampling_witness :
    sample_elements 5 3 (fun i => [5, 3, 5, 9].getD i 0) = some [5, 3, 9]
    ∧ [5, 3, 9].length = 3
    ∧ [5, 3, 9].Nodup
    ∧ List.Sorted (fun a b => a < b) (sort [5, 3, 9])
    ∧ (sort [5, 3, 9]).length = 3
    ∧ binary_search_asserts 3 (sort [5, 3, 9]) = true :=
  ⟨by decide,
   (sparse_key_sampling 5 3 (fun i => [5, 3, 5, 9].getD i 0) [5, 3, 9] (by decide)).1,
   (sparse_key_sampling 5 3 (fun i => [5, 3, 5, 9].getD i 0) [5, 3, 9] (by decide)).2.1,
   (sparse_key_sampling 5 3 (fun i => [5, 3, 5, 9].getD i 0) [5, 3, 9]
      (by decide)).2.2.2.2.2.1,
   (sparse_key_sampling 5 3 (fun i => [5, 3, 5, 9].getD i 0) [5, 3, 9]
      (by decide)).2.2.2.2.2.2.1,
   (sparse_key_sampling 5 3 (fun i => [5, 3, 5, 9].getD i 0) [5, 3, 9]
      (by decide)).2.2.2.2.2.2.2.1⟩

/-! ## Termination of the fill loops -/

theorem dense_fill_some (fuel size num_groups : Nat) (hpos : 1 ≤ num_groups)
    (hfuel : size < fuel) :
    dense_fill size num_groups fuel [] = some (dense_cycle num_groups size) := by
  have h := dense_fill_eq size num_groups hpos fuel 0 (Nat.zero_le _) (Or.inl (dvd_zero _))
    (by omega)
  have h0 : dense_cycle num_groups 0 = [] := by simp [dense_cycle]
  rw [h0] at h
  exact h

theorem dense_cycle_getElem? (num_groups size j : Nat) (hj : j < size) :
    (dense_cycle num_groups size)[j]? = some ((j % num_groups) % U32) := by
  simp [dense_cycle, List.getElem?_range hj]

theorem sparse_cycle_getElem? (vec : List Nat) (size j : Nat) (hj : j < size)
    (hne : vec ≠ []) :
    (sparse_cycle vec size)[j]? = vec[j % vec.length]? := by
  have hlt : j % vec.length < vec.length := Nat.mod_lt _ (List.length_pos.2 hne)
  simp [sparse_cycle, List.getElem?_range hj, List.getElem?_eq_getElem hlt]

theorem dense_fill_no_progress (size : Nat) :
    ∀ (fuel : Nat) (buf : List Nat), buf.length ≠ size → dense_fill size 0 fuel buf = none := by
  intro fuel
  induction fuel with
  | zero => intro buf _; rfl
  | succ fuel ih =>
    intro buf h
    simp only [dense_fill, ne_eq, h, not_false_eq_true, if_true, dense_inner]
    exact ih buf h

theorem sparse_fill_no_progress (size : Nat) :
    ∀ (fuel : Nat) (buf : List Nat), buf.length ≠ size → sparse_fill size [] fuel buf = none := by
  intro fuel
  induction fuel with
  | zero => intro buf _; rfl
  | succ fuel ih =>
    intro buf h
    simp only [sparse_fill, ne_eq, h, not_false_eq_true, if_true, sparse_inner]
    exact ih buf h

/-- C17 (amended): for every `size`, every `num_groups >= 1` and every non-empty `vec`, the
nested fill loop of `create_uniform_dense` ends (more than `size` rounds of fuel are
enough) after writing exactly `size` elements, position `j` receiving `j mod num_groups`
stored as a 32-bit key, that is `(j mod num_groups) mod 2^32`, which is `j mod num_groups`
when `num_groups <= 2^32`; likewise the fill loop of `create_uniform_sparse` writes
`vec[j mod vec.size()]` at position `j`; but for `num_groups = 0` (respectively an empty
`vec`) and a buffer that is not yet full, a round of the outer loop writes nothing, and
from an empty buffer with `size > 0` the loop does not end within any amount of fuel. -/
theorem fill_loops_terminate (fuel size num_groups : Nat) (vec : List Nat)
    (hpos : 1 ≤ num_groups) (hvec : vec ≠ []) (hfuel : size < fuel) :
    (∃ buf, dense_fill size num_groups fuel [] = some buf
      ∧ buf.length = size
      ∧ (∀ j, j < size → buf[j]? = some ((j % num_groups) % U32))
      ∧ (num_groups ≤ U32 → ∀ j, j < size → buf[j]? = some (j % num_groups)))
    ∧ (∃ buf, sparse_fill size vec fuel [] = some buf
      ∧ buf.length = size
      ∧ (∀ j, j < size → buf[j]? = vec[j % vec.length]?))
    ∧ (∀ buf : List Nat, dense_inner size 0 0 buf = buf ∧ sparse_inner size [] buf = buf)
    ∧ (0 < size → ∀ fuel2, dense_fill size 0 fuel2 [] = none
        ∧ create_uniform_dense fuel2 size 0 = none)
    ∧ (0 < size → ∀ fuel2, sparse_fill size [] fuel2 [] = none
        ∧ create_uniform_sparse fuel2 size [] = none) := by
  refine ⟨⟨_, dense_fill_some fuel size num_groups hpos hfuel, dense_cycle_length _ _,
      fun j hj => dense_cycle_getElem? num_groups size j hj, ?_⟩,
    ⟨_, sparse_fill_some fuel size vec hvec hfuel, sparse_cycle_length _ _,
      fun j hj => sparse_cycle_getElem? vec size j hj hvec⟩, ?_, ?_, ?_⟩
  · intro h32 j hj
    rw [dense_cycle_getElem? num_groups size j hj]
    have : j % num_groups < U32 := lt_of_lt_of_le (Nat.mod_lt _ (by omega)) h32
    rw [Nat.mod_eq_of_lt this]
  · intro buf
    exact ⟨rfl, rfl⟩
  · intro hsize fuel2
    have h := dense_fill_no_progress size fuel2 [] (by simp; omega)
    exact ⟨h, by simp [create_uniform_dense, h]⟩
  · intro hsize fuel2
    have h := sparse_fill_no_progress size fuel2 [] (by simp; omega)
    exact ⟨h, by simp [create_uniform_sparse, h]⟩

/-- C17 with seven keys, three groups and the elements `[3, 10, 20]`. -/
theorem fill_loops_terminate_witness :
    (1 ≤ 3 ∧ [3, 10, 20] ≠ ([] : List Nat) ∧ 7 < 8)
    ∧ (∃ buf, dense_fill 7 3 8 [] = some buf
      ∧ buf.length = 7
      ∧ (∀ j, j < 7 → buf[j]? = some ((j % 3) % U32))
      ∧ (3 ≤ U32 → ∀ j, j < 7 → buf[j]? = some (j % 3)))
    ∧ (∃ buf, sparse_fill 7 [3, 10, 20] 8 [] = some buf
      ∧ buf.length = 7
      ∧ (∀ j, j < 7 → buf[j]? = [3, 10, 20][j % [3, 10, 20].length]?))
    ∧ (∀ buf : List Nat, dense_inner 7 0 0 buf = buf ∧ sparse_inner 7 [] buf = buf)
    ∧ (0 < 7 → ∀ fuel2, dense_fill 7 0 fuel2 [] = none
        ∧ create_uniform_dense fuel2 7 0 = none)
    ∧ (0 < 7 → ∀ fuel2, sparse_fill 7 [] fuel2 [] = none
        ∧ create_uniform_sparse fuel2 7 [] = none) :=
  ⟨⟨by decide, by decide, by decide⟩,
   fill_loops_terminate 8 7 3 [3, 10, 20] (by decide) (by decide) (by decide)⟩

/-- C17 as stated fails: with `size = num_groups = 2^32 + 1` the fill loop of
`create_uniform_dense` ends, but position `2^32` receives 0, not
`2^32 mod (2^32 + 1) = 2^32`: the loop index is truncated to 32 bits. -/
theorem fill_loop_truncates :
    1 ≤ 4294967297
    ∧ (∃ buf, dense_fill 4294967297 4294967297 4294967298 [] = some buf
        ∧ buf[4294967296]? = some 0)
    ∧ 4294967296 % 4294967297 = 4294967296
    ∧ (0 : Nat) ≠ 4294967296 := by
  refine ⟨by norm_num, ⟨_, dense_fill_some _ _ _ (by norm_num) (by norm_num), ?_⟩,
    by norm_num, by norm_num⟩
  rw [dense_cycle_getElem? _ _ _ (by norm_num)]
  norm_num [U32]

/-! ## `binary_search` on a key that is not an element -/

theorem binary_search_after (done rest elements : List Nat) (num_groups : Nat)
    (hlen : elements.length = num_groups)
    (hsorted : List.Sorted (fun a b => a < b) elements)
    (hdone : ∀ x ∈ done, x ∈ elements) :
    binary_search (done ++ rest) num_groups elements
      = binary_search_scan rest (bs_table elements done) := by
  simp only [binary_search, init_keys_table elements num_groups hlen]
  rw [binary_search_scan_append, binary_search_scan_eq elements hsorted done [] hdone]
  simp

theorem lower_bound_foreign_below (elements done : List Nat) (k : Nat)
    (hsorted : List.Sorted (fun a b => a < b) elements) (hk : k ∉ elements)
    (hex : ∃ e ∈ elements, k < e) :
    ∃ e, elements[lower_bound (bs_table elements done) { key := some k }]? = some e
      ∧ k < e ∧ ∀ e2 ∈ elements, k < e2 → e ≤ e2 := by
  obtain ⟨hr, hlo, hhi⟩ := lower_bound_spec (bs_table elements done) elements k
    (bs_table_keys elements done) hsorted
  obtain ⟨e0, he0, hke0⟩ := hex
  obtain ⟨i0, hi0, hi0e⟩ := List.getElem_of_mem he0
  have hi0q : elements[i0]? = some e0 := by rw [List.getElem?_eq_getElem hi0, hi0e]
  have hj : lower_bound (bs_table elements done) { key := some k } ≤ i0 := by
    by_contra hc
    have := hlo i0 e0 (by omega) hi0q
    omega
  have hjlt : lower_bound (bs_table elements done) { key := some k } < elements.length := by
    omega
  have hjq := List.getElem?_eq_getElem hjlt
  refine ⟨_, hjq, ?_, ?_⟩
  · have h1 := hhi _ _ (le_refl _) hjq
    have h2 : elements[lower_bound (bs_table elements done) { key := some k }] ≠ k := by
      intro e
      apply hk
      rw [← e]
      exact List.getElem_mem hjlt
    omega
  · intro e2 he2 hke2
    obtain ⟨i2, hi2, hi2e⟩ := List.getElem_of_mem he2
    have hi2q : elements[i2]? = some e2 := by rw [List.getElem?_eq_getElem hi2, hi2e]
    have hle : lower_bound (bs_table elements done) { key := some k } ≤ i2 := by
      by_contra hc
      have := hlo i2 e2 (by omega) hi2q
      omega
    exact sorted_getElem?_le elements hsorted _ i2 _ e2 hle hjq hi2q

theorem lower_bound_foreign_above (elements done : List Nat) (k : Nat)
    (hsorted : List.Sorted (fun a b => a < b) elements)
    (hall : ∀ e ∈ elements, e < k) :
    lower_bound (bs_table elements done) { key := some k } = elements.length := by
  obtain ⟨hr, _, hhi⟩ := lower_bound_spec (bs_table elements done) elements k
    (bs_table_keys elements done) hsorted
  by_contra hc
  have hjlt : lower_bound (bs_table elements done) { key := some k } < elements.length := by
    omega
  have h1 := hhi _ _ (le_refl _) (List.getElem?_eq_getElem hjlt)
  have h2 := hall _ (List.getElem_mem hjlt)
  omega

/-- C18: `binary_search` does not check that a key is an element.  For every strictly
increasing `elements` of length `num_groups`, every key array `done` over the elements
(`size` a `std::size_t`) and every key `k` that is not an element, looked up in the table
reached after `done`: if some element is larger than `k`, the lookup returns the slot of
the smallest element `e` larger than `k`, the update succeeds and changes that slot only,
adding 1 to its count and `k` to its sum, so that its sum is no longer `e` times its count;
and if `k` is larger than every element, `lower_bound` returns `num_groups`, one past the
last slot, and the update is out of bounds. -/
theorem binary_search_no_membership_check (elements done rest : List Nat)
    (num_groups k : Nat) (hlen : elements.length = num_groups)
    (hsorted : List.Sorted (fun a b => a < b) elements)
    (hdone : ∀ x ∈ done, x ∈ elements) (hk : k ∉ elements)
    (hsize : done.length + 1 < U64) :
    ∃ groups0, binary_search done num_groups elements = some groups0
      ∧ ((∃ e ∈ elements, k < e) →
          ∃ (e : Nat) (g : group_type) (groups : List group_type),
            lower_bound groups0 { key := some k } < num_groups
            ∧ elements[lower_bound groups0 { key := some k }]? = some e
            ∧ k < e ∧ (∀ e2 ∈ elements, k < e2 → e ≤ e2)
            ∧ binary_search (done ++ [k]) num_groups elements = some groups
            ∧ groups = groups0.set (lower_bound groups0 { key := some k }) g
            ∧ g.key = some e
            ∧ g.data.count = done.count e + 1
            ∧ g.data.sum = (e * done.count e + k) % U64
            ∧ g.data.sum ≠ e * g.data.count)
      ∧ ((∀ e ∈ elements, e < k) →
          lower_bound groups0 { key := some k } = num_groups
          ∧ binary_search (done ++ k :: rest) num_groups elements = none) := by
  refine ⟨bs_table elements done,
    binary_search_eq done elements num_groups hlen hsorted hdone, ?_, ?_⟩
  · intro hex
    obtain ⟨e, he, hke, hmin⟩ := lower_bound_foreign_below elements done k hsorted hk hex
    have hjlt := (List.getElem?_eq_some.1 he).1
    have hget : (bs_table elements done)[lower_bound (bs_table elements done)
        { key := some k }]? = some (key_group done e) := by
      have he2 := he
      simp only [bs_table] at he2 ⊢
      rw [List.getElem?_map, he2]
      rfl
    have hc1 : done.count e + 1 < U64 :=
      lt_of_le_of_lt (Nat.succ_le_succ (List.count_le_length e done)) hsize
    have hc0 : done.count e < U64 := lt_trans (Nat.lt_succ_self _) hc1
    have hcount : (done.count e % U64 + 1) % U64 = done.count e + 1 := by
      rw [Nat.mod_eq_of_lt hc0, Nat.mod_eq_of_lt hc1]
    refine ⟨e, { key_group done e with data := (key_group done e).data.add k }, _,
      hlen ▸ hjlt, he, hke, hmin, ?_, rfl, rfl, ?_, ?_, ?_⟩
    · rw [binary_search_after done [k] elements num_groups hlen hsorted hdone]
      simp only [binary_search_scan, add_at, hget]
    · simp only [key_group, agg_of, aggregate_data.add]
      exact hcount
    · simp only [key_group, agg_of, aggregate_data.add, Nat.mod_add_mod]
    · simp only [key_group, agg_of, aggregate_data.add, Nat.mod_add_mod]
      rw [Nat.mod_eq_of_lt hc1]
      have h1 : (e * done.count e + k) % U64 ≤ e * done.count e + k := Nat.mod_le _ _
      have h2 : e * (done.count e + 1) = e * done.count e + e := by ring
      omega
  · intro hall
    have hlb := lower_bound_foreign_above elements done k hsorted hall
    refine ⟨hlen ▸ hlb, ?_⟩
    rw [binary_search_after done (k :: rest) elements num_groups hlen hsorted hdone]
    simp only [binary_search_scan]
    rw [add_at_none _ _ _ (by rw [hlb]; simp [bs_table])]

/-- C18 on the elements `[5, 7, 9]` after the keys `[5, 7, 5, 9, 7, 5]`: the key 6 is
added to the slot of 7, whose sum becomes 20 with count 3, and the key 10 is looked up
at index 3, past the last slot. -/
theorem binary_search_no_membership_check_witness :
    ([5, 7, 9].length = 3 ∧ List.Sorted (fun a b => a < b) [5, 7, 9]
      ∧ (∀ x ∈ [5, 7, 5, 9, 7, 5], x ∈ [5, 7, 9]) ∧ 6 ∉ [5, 7, 9] ∧ 10 ∉ [5, 7, 9]
      ∧ [5, 7, 5, 9, 7, 5].length + 1 < U64
      ∧ (∃ e ∈ [5, 7, 9], 6 < e) ∧ (∀ e ∈ [5, 7, 9], e < 10))
    ∧ binary_search [5, 7, 5, 9, 7, 5, 6] 3 [5, 7, 9]
        = some [{ key := some 5, data := { count := 3, sum := 15 } },
                { key := some 7, data := { count := 3, sum := 20 } },
                { key := some 9, data := { count := 1, sum := 9 } }]
    ∧ 20 ≠ 7 * 3
    ∧ (∃ groups0, binary_search [5, 7, 5, 9, 7, 5] 3 [5, 7, 9] = some groups0
        ∧ lower_bound groups0 { key := some 10 } = 3)
    ∧ binary_search [5, 7, 5, 9, 7, 5, 10] 3 [5, 7, 9] = none :=
  ⟨⟨by decide, by decide, by decide, by decide, by decide, by decide, by decide, by decide⟩,
   by decide, by decide,
   (binary_search_no_membership_check [5, 7, 9] [5, 7, 5, 9, 7, 5] [] 3 10 (by decide)
      (by decide) (by decide) (by decide) (by decide)).imp
     (fun _ h => ⟨h.1, (h.2.2 (by decide)).1⟩),
   by decide⟩

/-! ## The 32-bit finalizer is invertible -/

theorem high_bit_false (x j : Nat) (hx : x < 2 ^ 32) (hj : 32 ≤ j) : x.testBit j = false :=
  Nat.testBit_lt_two_pow (lt_of_lt_of_le hx (Nat.pow_le_pow_right (by norm_num) hj))

theorem shiftRight_lt (x k : Nat) (hx : x < 2 ^ 32) : x >>> k < 2 ^ 32 := by
  rw [Nat.shiftRight_eq_div_pow]
  exact lt_of_le_of_lt (Nat.div_le_self _ _) hx

theorem xorshift16_lt (x : Nat) (hx : x < 2 ^ 32) : x ^^^ (x >>> 16) < 2 ^ 32 :=
  Nat.xor_lt_two_pow hx (shiftRight_lt x 16 hx)

theorem xorshift13_lt (x : Nat) (hx : x < 2 ^ 32) : x ^^^ (x >>> 13) < 2 ^ 32 :=
  Nat.xor_lt_two_pow hx (shiftRight_lt x 13 hx)

theorem xorshift13_inv_lt (x : Nat) (hx : x < 2 ^ 32) :
    x ^^^ (x >>> 13) ^^^ (x >>> 26) < 2 ^ 32 :=
  Nat.xor_lt_two_pow (xorshift13_lt x hx) (shiftRight_lt x 26 hx)

theorem xorshift16_involutive (x : Nat) (hx : x < 2 ^ 32) :
    (x ^^^ (x >>> 16)) ^^^ ((x ^^^ (x >>> 16)) >>> 16) = x := by
  apply Nat.eq_of_testBit_eq
  intro i
  simp only [Nat.testBit_xor, Nat.testBit_shiftRight]
  rw [high_bit_false x (16 + (16 + i)) hx (by omega)]
  cases x.testBit i <;> cases x.testBit (16 + i) <;> rfl

theorem xorshift13_left_inv (x : Nat) (hx : x < 2 ^ 32) :
    (x ^^^ (x >>> 13)) ^^^ ((x ^^^ (x >>> 13)) >>> 13) ^^^ ((x ^^^ (x >>> 13)) >>> 26) = x := by
  apply Nat.eq_of_testBit_eq
  intro i
  simp only [Nat.testBit_xor, Nat.testBit_shiftRight]
  rw [high_bit_false x (13 + (26 + i)) hx (by omega)]
  have e : 13 + (13 + i) = 26 + i := by omega
  rw [e]
  cases x.testBit i <;> cases x.testBit (13 + i) <;> cases x.testBit (26 + i) <;> rfl

theorem xorshift13_right_inv (x : Nat) (hx : x < 2 ^ 32) :
    (x ^^^ (x >>> 13) ^^^ (x >>> 26))
        ^^^ ((x ^^^ (x >>> 13) ^^^ (x >>> 26)) >>> 13) = x := by
  apply Nat.eq_of_testBit_eq
  intro i
  simp only [Nat.testBit_xor, Nat.testBit_shiftRight]
  rw [high_bit_false x (26 + (13 + i)) hx (by omega)]
  have e : 13 + (13 + i) = 26 + i := by omega
  rw [e]
  cases x.testBit i <;> cases x.testBit (13 + i) <;> cases x.testBit (26 + i) <;> rfl

theorem mul_mod_inv (x c d : Nat) (hx : x < 2 ^ 32) (hcd : (c * d) % 2 ^ 32 = 1) :
    ((x * c) % 2 ^ 32 * d) % 2 ^ 32 = x := by
  rw [Nat.mod_mul_mod, Nat.mul_assoc, Nat.mul_mod, hcd, Nat.mul_one, Nat.mod_mod,
    Nat.mod_eq_of_lt hx]

theorem Murmur3_lt (v : Nat) : v < U32 → Murmur3 v < U32 := by
  intro _
  simp only [Murmur3, U32]
  exact xorshift16_lt _ (Nat.mod_lt _ (by norm_num))

theorem Murmur3_inverse_lt (v : Nat) : v < U32 → Murmur3_inverse v < U32 := by
  intro _
  simp only [Murmur3_inverse, U32]
  exact xorshift16_lt _ (Nat.mod_lt _ (by norm_num))

theorem Murmur3_left_inverse (v : Nat) (hv : v < U32) : Murmur3_inverse (Murmur3 v) = v := by
  simp only [U32] at hv
  have h1 := xorshift16_lt v hv
  have h2 : (v ^^^ (v >>> 16)) * 0x85ebca6b % 2 ^ 32 < 2 ^ 32 := Nat.mod_lt _ (by norm_num)
  have h3 := xorshift13_lt _ h2
  have h4 : (((v ^^^ (v >>> 16)) * 0x85ebca6b % 2 ^ 32)
      ^^^ (((v ^^^ (v >>> 16)) * 0x85ebca6b % 2 ^ 32) >>> 13)) * 0xc2b2ae35 % 2 ^ 32
        < 2 ^ 32 := Nat.mod_lt _ (by norm_num)
  simp only [Murmur3, Murmur3_inverse, U32]
  rw [xorshift16_involutive _ h4, mul_mod_inv _ _ _ h3 (by norm_num),
    xorshift13_left_inv _ h2, mul_mod_inv _ _ _ h1 (by norm_num),
    xorshift16_involutive _ hv]

theorem Murmur3_right_inverse (v : Nat) (hv : v < U32) : Murmur3 (Murmur3_inverse v) = v := by
  simp only [U32] at hv
  have h1 := xorshift16_lt v hv
  have h2 : (v ^^^ (v >>> 16)) * 0x7ed1b41d % 2 ^ 32 < 2 ^ 32 := Nat.mod_lt _ (by norm_num)
  have h3 := xorshift13_inv_lt _ h2
  have h4 : (((v ^^^ (v >>> 16)) * 0x7ed1b41d % 2 ^ 32)
      ^^^ (((v ^^^ (v >>> 16)) * 0x7ed1b41d % 2 ^ 32) >>> 13)
      ^^^ (((v ^^^ (v >>> 16)) * 0x7ed1b41d % 2 ^ 32) >>> 26)) * 0xa5cb9243 % 2 ^ 32
        < 2 ^ 32 := Nat.mod_lt _ (by norm_num)
  simp only [Murmur3, Murmur3_inverse, U32]
  rw [xorshift16_involutive _ h4, mul_mod_inv _ _ _ h3 (by norm_num),
    xorshift13_right_inv _ h2, mul_mod_inv _ _ _ h1 (by norm_num),
    xorshift16_involutive _ hv]

/-- C19: the 32-bit finalizer `Murmur3::operator()(uint32_t)` is a bijection on the 32-bit
values: it maps 32-bit values to 32-bit values, `Murmur3(a) == Murmur3(b)` implies
`a == b`, every 32-bit value is the hash of one (each xor-shift step and each
multiplication by an odd constant is undone by `Murmur3_inverse`), and
`Murmur3(0) == 0`. -/
theorem Murmur3_bijective (a b : Nat) (ha : a < U32) (hb : b < U32) :
    Murmur3 a < U32
    ∧ (Murmur3 a = Murmur3 b → a = b)
    ∧ Murmur3_inverse (Murmur3 a) = a
    ∧ (∃ c, c < U32 ∧ Murmur3 c = b)
    ∧ Murmur3 0 = 0 := by
  refine ⟨Murmur3_lt a ha, ?_, Murmur3_left_inverse a ha,
    ⟨Murmur3_inverse b, Murmur3_inverse_lt b hb, Murmur3_right_inverse b hb⟩, by decide⟩
  intro h
  rw [← Murmur3_left_inverse a ha, ← Murmur3_left_inverse b hb, h]

/-- C19 on the keys 12345 and 54321. -/
theorem Murmur3_bijective_witness :
    (12345 < U32 ∧ 54321 < U32)
    ∧ Murmur3 12345 < U32
    ∧ (Murmur3 12345 = Murmur3 54321 → 12345 = 54321)
    ∧ Murmur3_inverse (Murmur3 12345) = 12345
    ∧ (∃ c, c < U32 ∧ Murmur3 c = 54321)
    ∧ Murmur3 0 = 0 :=
  ⟨⟨by decide, by decide⟩, Murmur3_bijective 12345 54321 (by decide) (by decide)⟩

end Grouping
